import Mathlib

/-!
# Verification of the Lance schema / transaction core

A shallow embedding of the two source modules

* `rust/lance-core/src/datatypes/schema.rs` (schema engine), and
* `rust/lance/src/dataset/transaction.rs` (transaction / manifest engine),

together with proofs settling the frozen claims about them.  Definitions are
transcribed from the Rust source; helpers from sibling crates that are not part
of the two modules (e.g. `field.rs`, `lance-table`) are modelled from the
specification and marked `Modelled from the spec:` in their doc comments.

Machine integers are modelled as `Nat`/`Int`; the one place where a narrowing
cast is semantically relevant (`frag.id as u32` feeding a `RoaringBitmap`) keeps
the cast explicit as `% 2^32`.  Fallible Rust functions (`Result<T>`) become
`Except Err T`; a Rust `panic!`/`unreachable!` becomes the distinguished error
`Err.panic`.
-/

namespace Lance

/-- Error kinds raised by the core (`lance_core::Error`), restricted to the
variants the embedded code produces.  A Rust panic (index out of bounds,
`unreachable!`) is modelled as the distinguished variant `panic`. -/
inductive Err where
  | invalidInput (msg : String)
  | internal (msg : String)
  | notSupported (msg : String)
  | commitConflict (version : Nat) (msg : String)
  | schemaErr (msg : String)
  | schemaMismatch (difference : String)
  | panic (msg : String)
deriving DecidableEq, Repr

/-- `x as u32`: the narrowing cast from `u64` to `u32` used when fragment ids
enter a `RoaringBitmap`. -/
def u32 (x : Nat) : Nat := x % 2 ^ 32

/-- `lance_table::format::DataFile`: one column-group file of a fragment
(fields of the Rust struct that the embedded code reads). -/
structure DataFile where
  path : String
  fields : List Int
  column_indices : List Int
  file_major_version : Nat
  file_minor_version : Nat
  file_size_bytes : Option Nat
deriving DecidableEq, Repr

/-- Modelled from the spec: the serialized `RowIdSequence` of a fragment.  The
spec fixes the in-memory contract as "an iterator over row IDs in logical row
order"; `assign_row_ids` always serializes the contiguous range
`[start, start + len)`, which is what this constructor records. -/
inductive RowIdMeta where
  | inline (start len : Nat)
deriving DecidableEq, Repr

/-- `lance_table::format::Fragment` (fields of the Rust struct that the
embedded code reads). -/
structure Fragment where
  id : Nat
  files : List DataFile
  physical_rows : Option Nat
  row_id_meta : Option RowIdMeta
deriving DecidableEq, Repr

/-- `RewriteGroup` from `transaction.rs`: old fragments replaced by new ones. -/
structure RewriteGroup where
  old_fragments : List Fragment
  new_fragments : List Fragment
deriving DecidableEq, Repr

/-! ## `Transaction::recalculate_fragment_bitmap` (transaction.rs) -/

/-- Inner loop of `Transaction::recalculate_fragment_bitmap`: the accumulator
`acc` is the mutable `new_bitmap`, `old` the immutable original bitmap the
`any`/`all` membership tests are made against. -/
def recalculateFragmentBitmapGo (old : Finset Nat) :
    List RewriteGroup → Finset Nat → Except Err (Finset Nat)
  | [], acc => .ok acc
  | group :: rest, acc =>
    let anyInIndex := group.old_fragments.any fun frag => u32 frag.id ∈ old
    let allInIndex := group.old_fragments.all fun frag => u32 frag.id ∈ old
    if anyInIndex then
      if allInIndex then
        let removed := group.old_fragments.foldl (fun bm frag => bm.erase (u32 frag.id)) acc
        let extended := group.new_fragments.foldl (fun bm frag => insert (u32 frag.id) bm) removed
        recalculateFragmentBitmapGo old rest extended
      else
        .error (.invalidInput "The compaction plan included a rewrite group that was a split of indexed and non-indexed data")
    else
      recalculateFragmentBitmapGo old rest acc

/-- `Transaction::recalculate_fragment_bitmap` (transaction.rs): starting from
a clone of `old`, fold every rewrite group into the bitmap. -/
def recalculate_fragment_bitmap (old : Finset Nat) (groups : List RewriteGroup) :
    Except Err (Finset Nat) :=
  recalculateFragmentBitmapGo old groups old

/-- The (truncated) old fragment ids of a rewrite group, as a finite set. -/
def RewriteGroup.oldIds (g : RewriteGroup) : Finset Nat :=
  (g.old_fragments.map fun f => u32 f.id).toFinset

/-- The (truncated) new fragment ids of a rewrite group, as a finite set. -/
def RewriteGroup.newIds (g : RewriteGroup) : Finset Nat :=
  (g.new_fragments.map fun f => u32 f.id).toFinset

/-- A rewrite group is *mixed* with respect to a bitmap `B` when some but not
all of its old fragment ids lie in `B`. -/
def RewriteGroup.MixedIn (g : RewriteGroup) (B : Finset Nat) : Prop :=
  (∃ f ∈ g.old_fragments, u32 f.id ∈ B) ∧ ¬∀ f ∈ g.old_fragments, u32 f.id ∈ B

instance (g : RewriteGroup) (B : Finset Nat) : Decidable (g.MixedIn B) := by
  unfold RewriteGroup.MixedIn; infer_instance

/-- The per-group effect the claim describes: a group all of whose old ids are
in `B` (there being at least one) removes its old ids and inserts its new ids;
any other (non-mixed) group leaves the bitmap unchanged. -/
def rewriteGroupStep (B : Finset Nat) (bm : Finset Nat) (g : RewriteGroup) : Finset Nat :=
  if g.old_fragments.any (fun f => u32 f.id ∈ B) then (bm \ g.oldIds) ∪ g.newIds else bm

theorem foldl_erase_eq_sdiff (bm : Finset Nat) (l : List Fragment) :
    l.foldl (fun bm frag => bm.erase (u32 frag.id)) bm =
      bm \ (l.map fun f => u32 f.id).toFinset := by
  induction l generalizing bm with
  | nil => simp
  | cons a l ih =>
    simp only [List.foldl_cons, ih, List.map_cons, List.toFinset_cons]
    ext x
    simp only [Finset.mem_sdiff, Finset.mem_erase, Finset.mem_insert]
    tauto

theorem foldl_insert_eq_union (bm : Finset Nat) (l : List Fragment) :
    l.foldl (fun bm frag => insert (u32 frag.id) bm) bm =
      bm ∪ (l.map fun f => u32 f.id).toFinset := by
  induction l generalizing bm with
  | nil => simp
  | cons a l ih =>
    simp only [List.foldl_cons, ih, List.map_cons, List.toFinset_cons]
    ext x
    simp only [Finset.mem_union, Finset.mem_insert]
    tauto

theorem recalculateFragmentBitmapGo_no_mixed (old : Finset Nat)
    (groups : List RewriteGroup) (acc : Finset Nat)
    (h : ∀ g ∈ groups, ¬g.MixedIn old) :
    recalculateFragmentBitmapGo old groups acc =
      .ok (groups.foldl (rewriteGroupStep old) acc) := by
  induction groups generalizing acc with
  | nil => rfl
  | cons g rest ih =>
    have hg : ¬g.MixedIn old := h g (List.mem_cons_self g rest)
    have hrest : ∀ g' ∈ rest, ¬g'.MixedIn old := fun g' hg' => h g' (List.mem_cons_of_mem g hg')
    unfold recalculateFragmentBitmapGo
    by_cases hany : g.old_fragments.any (fun frag => u32 frag.id ∈ old) = true
    · have hall : g.old_fragments.all (fun frag => u32 frag.id ∈ old) = true := by
        rw [List.all_eq_true]
        intro f hf
        by_contra hc
        exact hg ⟨by rw [List.any_eq_true] at hany; simpa using hany, by
          intro hforall
          exact hc (by simpa using hforall f hf)⟩
      simp only [hany, hall, if_true]
      rw [ih _ hrest]
      congr 1
      simp only [List.foldl_cons, rewriteGroupStep, hany, if_true]
      rw [foldl_erase_eq_sdiff, foldl_insert_eq_union]
      rfl
    · simp only [Bool.not_eq_true] at hany
      simp only [hany, Bool.false_eq_true, if_false]
      rw [ih _ hrest]
      congr 1
      simp only [List.foldl_cons, rewriteGroupStep, hany, Bool.false_eq_true, if_false]

theorem recalculateFragmentBitmapGo_mixed (old : Finset Nat)
    (groups : List RewriteGroup) (acc : Finset Nat)
    (h : ∃ g ∈ groups, g.MixedIn old) :
    recalculateFragmentBitmapGo old groups acc =
      .error (.invalidInput "The compaction plan included a rewrite group that was a split of indexed and non-indexed data") := by
  induction groups generalizing acc with
  | nil => simp at h
  | cons g rest ih =>
    unfold recalculateFragmentBitmapGo
    by_cases hgm : g.MixedIn old
    · obtain ⟨⟨f, hf, hfB⟩, hnall⟩ := hgm
      have hany : g.old_fragments.any (fun frag => u32 frag.id ∈ old) = true := by
        rw [List.any_eq_true]; exact ⟨f, hf, by simpa using hfB⟩
      have hall : g.old_fragments.all (fun frag => u32 frag.id ∈ old) = false := by
        rw [Bool.eq_false_iff]
        intro hc
        rw [List.all_eq_true] at hc
        exact hnall fun f' hf' => by simpa using hc f' hf'
      simp [hany, hall]
    · have hrest : ∃ g' ∈ rest, g'.MixedIn old := by
        obtain ⟨g', hg', hm⟩ := h
        rcases List.mem_cons.mp hg' with rfl | hmem
        · exact absurd hm hgm
        · exact ⟨g', hmem, hm⟩
      by_cases hany : g.old_fragments.any (fun frag => u32 frag.id ∈ old) = true
      · have hall : g.old_fragments.all (fun frag => u32 frag.id ∈ old) = true := by
          rw [List.all_eq_true]
          intro f hf
          by_contra hc
          exact hgm ⟨by rw [List.any_eq_true] at hany; simpa using hany, fun hforall =>
            hc (by simpa using hforall f hf)⟩
        simp only [hany, hall, if_true]
        exact ih _ hrest
      · simp only [Bool.not_eq_true] at hany
        simp only [hany, Bool.false_eq_true, if_false]
        exact ih _ hrest

/-- **C1.** `recalculate_fragment_bitmap` over a bitmap `B` and a list of
rewrite groups: (i) if some group has some but not all of its old fragment ids
in `B` (the mixed case) the function returns the invalid-input error; (ii) if
no group is mixed it succeeds, and the result is `B` transformed group by
group, each group all of whose old ids are in `B` replacing them by its new
ids and each group none of whose old ids are in `B` leaving the bitmap
unchanged; (iii) for a single group all of whose old ids are in `B` the result
is exactly `(B \ old) ∪ new`; (iv) for a single group none of whose old ids
are in `B` the result is exactly `B`. -/
theorem recalculate_fragment_bitmap_correct (B : Finset Nat) (groups : List RewriteGroup) :
    ((∃ g ∈ groups, g.MixedIn B) →
      recalculate_fragment_bitmap B groups =
        .error (.invalidInput "The compaction plan included a rewrite group that was a split of indexed and non-indexed data")) ∧
    ((∀ g ∈ groups, ¬g.MixedIn B) →
      recalculate_fragment_bitmap B groups =
        .ok (groups.foldl (rewriteGroupStep B) B)) ∧
    (∀ g : RewriteGroup, g.old_fragments ≠ [] → (∀ f ∈ g.old_fragments, u32 f.id ∈ B) →
      recalculate_fragment_bitmap B [g] = .ok ((B \ g.oldIds) ∪ g.newIds)) ∧
    (∀ g : RewriteGroup, (∀ f ∈ g.old_fragments, u32 f.id ∉ B) →
      recalculate_fragment_bitmap B [g] = .ok B) := by
  refine ⟨fun h => recalculateFragmentBitmapGo_mixed B groups B h,
          fun h => recalculateFragmentBitmapGo_no_mixed B groups B h,
          fun g hne hall => ?_, fun g hnone => ?_⟩
  · have hnm : ∀ g' ∈ [g], ¬g'.MixedIn B := by
      intro g' hg'
      rcases List.mem_singleton.mp hg' with rfl
      intro ⟨_, hn⟩
      exact hn hall
    rw [recalculate_fragment_bitmap, recalculateFragmentBitmapGo_no_mixed B [g] B hnm]
    have hany : (g.old_fragments.any fun f => u32 f.id ∈ B) = true := by
      obtain ⟨f, hf⟩ := List.exists_mem_of_ne_nil _ hne
      rw [List.any_eq_true]
      exact ⟨f, hf, by simpa using hall f hf⟩
    simp only [List.foldl_cons, List.foldl_nil, rewriteGroupStep, hany, if_true]
  · have hnm : ∀ g' ∈ [g], ¬g'.MixedIn B := by
      intro g' hg'
      rcases List.mem_singleton.mp hg' with rfl
      intro ⟨⟨f, hf, hfB⟩, _⟩
      exact hnone f hf hfB
    rw [recalculate_fragment_bitmap, recalculateFragmentBitmapGo_no_mixed B [g] B hnm]
    have hany : (g.old_fragments.any fun f => u32 f.id ∈ B) = false := by
      rw [Bool.eq_false_iff]
      intro hc
      rw [List.any_eq_true] at hc
      obtain ⟨f, hf, hfB⟩ := hc
      exact hnone f hf (by simpa using hfB)
    simp only [List.foldl_cons, List.foldl_nil, rewriteGroupStep, hany, Bool.false_eq_true,
      if_false]

/-- Witness for C1 at concrete inputs: with `B = {1, 2}`, the group replacing
fragments `{1, 2}` by `{7}` succeeds with bitmap `{7}`, the group replacing
`{5}` leaves `B` unchanged, and the mixed group over `{2, 3}` errors. -/
theorem recalculate_fragment_bitmap_correct_witness :
    recalculate_fragment_bitmap {1, 2}
        [⟨[⟨1, [], none, none⟩, ⟨2, [], none, none⟩], [⟨7, [], none, none⟩]⟩] =
      .ok (({1, 2} \ RewriteGroup.oldIds ⟨[⟨1, [], none, none⟩, ⟨2, [], none, none⟩], [⟨7, [], none, none⟩]⟩) ∪
        RewriteGroup.newIds ⟨[⟨1, [], none, none⟩, ⟨2, [], none, none⟩], [⟨7, [], none, none⟩]⟩) ∧
    recalculate_fragment_bitmap {1, 2} [⟨[⟨5, [], none, none⟩], [⟨9, [], none, none⟩]⟩] =
      .ok {1, 2} ∧
    recalculate_fragment_bitmap {1, 2} [⟨[⟨2, [], none, none⟩, ⟨3, [], none, none⟩], []⟩] =
      .error (.invalidInput "The compaction plan included a rewrite group that was a split of indexed and non-indexed data") := by
  refine ⟨(recalculate_fragment_bitmap_correct {1, 2} []).2.2.1 _ (by decide) (by decide),
          (recalculate_fragment_bitmap_correct {1, 2} []).2.2.2 _ (by decide),
          (recalculate_fragment_bitmap_correct {1, 2}
            [⟨[⟨2, [], none, none⟩, ⟨3, [], none, none⟩], []⟩]).1 ?_⟩
  refine ⟨⟨[⟨2, [], none, none⟩, ⟨3, [], none, none⟩], []⟩, List.mem_singleton.mpr rfl, ?_, ?_⟩
  · exact ⟨⟨2, [], none, none⟩, by simp, by decide⟩
  · intro h
    have := h ⟨3, [], none, none⟩ (by simp)
    revert this
    decide

/-! ## Schema engine (schema.rs); `Field` is modelled from the spec

`Field` itself lives in `field.rs`, which is not among the two source modules;
its shape and the helpers on it are modelled from the specification (§3 data
model, §4.1 schema engine) and used by the transcribed `schema.rs` functions.
-/

/-- Modelled from the spec: the logical type of a field, abstracted to what the
embedded code inspects — whether the type is a list / large list (primary-key
checks), a struct (merging), or anything else. -/
inductive LogicalType where
  | list
  | largeList
  | strukt
  | atomic (s : String)
deriving DecidableEq, Repr

def LogicalType.is_list : LogicalType → Bool
  | .list => true
  | _ => false

def LogicalType.is_large_list : LogicalType → Bool
  | .largeList => true
  | _ => false

/-- Modelled from the spec: a nested field node `(id, name, logical_type,
nullable, children, metadata, unenforced_primary_key)` (§3).  The storage-class
component is omitted: no embedded function reads it. -/
inductive Field where
  | mk (id : Int) (name : String) (logical_type : LogicalType) (nullable : Bool)
       (metadata : List (String × String)) (unenforced_primary_key : Bool)
       (children : List Field)

def Field.id : Field → Int | .mk i _ _ _ _ _ _ => i
def Field.name : Field → String | .mk _ n _ _ _ _ _ => n
def Field.logical_type : Field → LogicalType | .mk _ _ lt _ _ _ _ => lt
def Field.nullable : Field → Bool | .mk _ _ _ nl _ _ _ => nl
def Field.metadata : Field → List (String × String) | .mk _ _ _ _ md _ _ => md
def Field.unenforced_primary_key : Field → Bool | .mk _ _ _ _ _ pk _ => pk
def Field.children : Field → List Field | .mk _ _ _ _ _ _ cs => cs

def Field.withChildren : Field → List Field → Field
  | .mk i n lt nl md pk _, cs => .mk i n lt nl md pk cs

/-- Mutual induction principle for the nested `Field` tree, packaged from the
auto-generated recursor. -/
theorem Field.mutual_induction {PF : Field → Prop} {PL : List Field → Prop}
    (hmk : ∀ i n lt nl md pk cs, PL cs → PF (.mk i n lt nl md pk cs))
    (hnil : PL []) (hcons : ∀ f fs, PF f → PL fs → PL (f :: fs)) :
    (∀ f, PF f) ∧ (∀ fs, PL fs) := by
  have hf : ∀ f, PF f := fun f =>
    Field.rec (motive_1 := PF) (motive_2 := PL) hmk hnil hcons f
  refine ⟨hf, fun fs => ?_⟩
  induction fs with
  | nil => exact hnil
  | cons f fs ih => exact hcons f fs (hf f) ih

/-- Modelled from the spec: a field is a leaf when it has no children (§3:
"leaves have empty children"). -/
def Field.is_leaf (f : Field) : Bool := f.children.isEmpty

mutual
/-- Pre-order traversal of a field: the field itself, then its children
left-to-right (spec §4.1). -/
def Field.preOrder : Field → List Field
  | .mk i n lt nl md pk cs => .mk i n lt nl md pk cs :: preOrderList cs
def preOrderList : List Field → List Field
  | [] => []
  | f :: fs => f.preOrder ++ preOrderList fs
end

mutual
/-- Modelled from the spec: `Field::max_id` — the maximum id in the subtree,
`self.id` joined with the children's maximum (`-1` when there are none). -/
def Field.max_id : Field → Int
  | .mk i _ _ _ _ _ cs => max i (maxIdList cs)
def maxIdList : List Field → Int
  | [] => -1
  | f :: fs => max f.max_id (maxIdList fs)
end

mutual
/-- Modelled from the spec: `Field::set_id` — walk the subtree in pre-order
and assign the running counter to every field whose id is `-1` (§4.1 "walk
pre-order and for every field with id `-1` assign `start++`"). -/
def Field.set_id : Field → Int → Field × Int
  | .mk i n lt nl md pk cs, cur =>
    let p := if i == -1 then (cur, cur + 1) else (i, cur)
    let q := setIdList cs p.2
    (.mk p.1 n lt nl md pk q.1, q.2)
def setIdList : List Field → Int → List Field × Int
  | [], cur => ([], cur)
  | f :: fs, cur =>
    let p := f.set_id cur
    let q := setIdList fs p.2
    (p.1 :: q.1, q.2)
end

mutual
/-- Modelled from the spec: `Field::reset_id` — set the id of the field and
all descendants to `-1` (§4.1 merge "reassigns all IDs in `other` to `-1`"). -/
def Field.reset_id : Field → Field
  | .mk _ n lt nl md pk cs => .mk (-1) n lt nl md pk (resetIdList cs)
def resetIdList : List Field → List Field
  | [] => []
  | f :: fs => f.reset_id :: resetIdList fs
end

/-- Modelled from the spec: `Field::sub_field` — walk the remaining dotted
path through the children, returning the terminal field. -/
def Field.sub_field (f : Field) : List String → Option Field
  | [] => some f
  | p :: rest =>
    match f.children.find? fun c => c.name == p with
    | some c => c.sub_field rest
    | none => none

mutual
/-- Modelled from the spec: `Field::merge` — when both fields are struct-like,
recursively merge children by name and append the other's new children at the
end; otherwise keep `self` (§4.1 merge). -/
def Field.merge (f other : Field) : Except Err Field :=
  match f, other with
  | .mk i n lt nl md pk cs, .mk _ _ lt' _ _ _ cs' =>
    if lt = .strukt ∧ lt' = .strukt then
      match mergeFieldEach cs cs' with
      | .error e => .error e
      | .ok merged =>
        .ok (.mk i n lt nl md pk
          (merged ++ cs'.filter fun b => !(cs.any fun a => a.name == b.name)))
    else
      .ok (.mk i n lt nl md pk cs)
def mergeFieldEach : List Field → List Field → Except Err (List Field)
  | [], _ => .ok []
  | a :: as, bs =>
    match (match bs.find? fun b => b.name == a.name with
           | some b => a.merge b
           | none => .ok a) with
    | .error e => .error e
    | .ok a' =>
      match mergeFieldEach as bs with
      | .error e => .error e
      | .ok rest => .ok (a' :: rest)
end

/-- `lance_core::datatypes::Schema` (schema.rs): ordered top-level fields plus
schema metadata. -/
structure Schema where
  fields : List Field
  metadata : List (String × String)

/-- `Schema::fields_pre_order` (schema.rs): DFS pre-order over all fields. -/
def Schema.fields_pre_order (s : Schema) : List Field := preOrderList s.fields

/-- `Schema::field_ids` (schema.rs): all field ids in pre-order. -/
def Schema.field_ids (s : Schema) : List Int := s.fields_pre_order.map Field.id

/-- `Schema::max_field_id` (schema.rs): maximum `Field::max_id` over the
top-level fields, `none` for an empty schema. -/
def Schema.max_field_id (s : Schema) : Option Int := (s.fields.map Field.max_id).max?

/-- `Schema::set_field_id` (schema.rs): start from
`max(schema_max_id, max_existing_id) + 1` and assign fresh ids to every field
whose id is `-1`, walking pre-order. -/
def Schema.set_field_id (s : Schema) (max_existing_id : Option Int) : Schema :=
  let schema_max_id := s.max_field_id.getD (-1)
  let max_existing := max_existing_id.getD (-1)
  { s with fields := (setIdList s.fields (max schema_max_id max_existing + 1)).1 }

/-- Split a column reference on `'.'` (the Rust `name.split('.')`), written
as a structural recursion over the character list so that it evaluates inside
the kernel. -/
def splitSegs : List Char → List Char → List String
  | [], acc => [String.mk acc.reverse]
  | c :: rest, acc =>
    if c = '.' then String.mk acc.reverse :: splitSegs rest []
    else splitSegs rest (c :: acc)

/-- `col.split('.')` as a list of segments. -/
def splitCol (col : String) : List String := splitSegs col.data []

/-- `Schema::field` (schema.rs): split the dotted name, find the top-level
field, then walk the rest of the path. -/
def Schema.field (s : Schema) (name : String) : Option Field :=
  let split := splitCol name
  (s.fields.find? fun f => f.name == split.headD "").bind fun c => c.sub_field split.tail

/-- Union-merge of metadata maps with the right side overriding on conflict
(the Rust `HashMap` collect of `self.metadata.iter().chain(other.metadata)`). -/
def metadataMerge (a b : List (String × String)) : List (String × String) :=
  (a.filter fun kv => b.all fun kv2 => kv2.1 ≠ kv.1) ++ b

/-- `Schema::merge` (schema.rs): reset the other schema's ids, merge top-level
fields by name (recursively for structs), append the other's new top-level
fields, and union-merge the metadata. -/
def Schema.merge (s other : Schema) : Except Err Schema := do
  let otherFields := resetIdList other.fields
  let merged ← mergeTopLevel s.fields { fields := otherFields, metadata := other.metadata }
  let appended := otherFields.filter fun f => !(merged.any fun m => m.name == f.name)
  .ok { fields := merged ++ appended, metadata := metadataMerge s.metadata other.metadata }
where
  mergeTopLevel : List Field → Schema → Except Err (List Field)
    | [], _ => .ok []
    | f :: fs, o => do
      let f' ← match o.field f.name with
        | some otherField => f.merge otherField
        | none => .ok f
      let rest ← mergeTopLevel fs o
      .ok (f' :: rest)

/-! ### C3: `set_field_id` -/

/-- The claim's flat description of id assignment: walk the id list replacing
each `-1` with the running counter. -/
def assignIds : List Int → Int → List Int
  | [], _ => []
  | x :: rest, cur => if x = -1 then cur :: assignIds rest (cur + 1) else x :: assignIds rest cur

/-- Number of `-1` entries in an id list, as an integer. -/
def countNeg (xs : List Int) : Int := ((xs.filter fun x => x = -1).length : Int)

theorem countNeg_nonneg (xs : List Int) : 0 ≤ countNeg xs := Int.ofNat_nonneg _

theorem countNeg_cons (x : Int) (xs : List Int) :
    countNeg (x :: xs) = (if x = -1 then 1 else 0) + countNeg xs := by
  by_cases h : x = -1 <;> simp [countNeg, List.filter_cons, h]
  omega

theorem countNeg_append (xs ys : List Int) :
    countNeg (xs ++ ys) = countNeg xs + countNeg ys := by
  simp only [countNeg, List.filter_append, List.length_append]
  push_cast
  ring

theorem assignIds_append (xs ys : List Int) (c : Int) :
    assignIds (xs ++ ys) c = assignIds xs c ++ assignIds ys (c + countNeg xs) := by
  induction xs generalizing c with
  | nil => simp [assignIds, countNeg]
  | cons x xs ih =>
    by_cases h : x = -1
    · simp only [List.cons_append, assignIds, if_pos h, countNeg_cons, if_pos h,
        List.append_eq]
      rw [show c + (1 + countNeg xs) = c + 1 + countNeg xs from by ring]
      rw [ih]
    · simp only [List.cons_append, assignIds, if_neg h, countNeg_cons, if_neg h,
        List.append_eq]
      rw [show c + (0 + countNeg xs) = c + countNeg xs from by ring]
      rw [ih]

theorem preOrderList_append (fs gs : List Field) :
    preOrderList (fs ++ gs) = preOrderList fs ++ preOrderList gs := by
  induction fs with
  | nil => simp [preOrderList]
  | cons f fs ih => simp [preOrderList, ih]

/-- Ids of a field's pre-order traversal. -/
def idsF (f : Field) : List Int := f.preOrder.map Field.id

/-- Ids of a field list's pre-order traversal. -/
def idsL (fs : List Field) : List Int := (preOrderList fs).map Field.id

theorem idsL_cons (f : Field) (fs : List Field) : idsL (f :: fs) = idsF f ++ idsL fs := by
  simp [idsL, idsF, preOrderList]

theorem idsF_mk (i n lt nl md pk cs) :
    idsF (.mk i n lt nl md pk cs) = i :: idsL cs := by
  simp [idsF, idsL, Field.preOrder, Field.id]

/-- Joint specification of `set_id`/`setIdList` against the flat `assignIds`
walk: the pre-order ids of the result are the `assignIds` rewrite of the
pre-order ids of the input, and the final counter advances by the number of
`-1` ids. -/
theorem setId_spec :
    (∀ f : Field, ∀ c : Int,
      idsF (f.set_id c).1 = assignIds (idsF f) c ∧ (f.set_id c).2 = c + countNeg (idsF f)) ∧
    (∀ fs : List Field, ∀ c : Int,
      idsL (setIdList fs c).1 = assignIds (idsL fs) c ∧
        (setIdList fs c).2 = c + countNeg (idsL fs)) := by
  apply Field.mutual_induction
  · intro i n lt nl md pk cs ih c
    rw [Field.set_id]
    by_cases h : i = -1
    · simp only [h, beq_self_eq_true, if_true]
      obtain ⟨ih1, ih2⟩ := ih (c + 1)
      constructor
      · rw [idsF_mk, idsF_mk, assignIds, if_pos rfl, ih1]
      · rw [ih2, idsF_mk, countNeg_cons, if_pos rfl]
        ring
    · have hbeq : (i == -1) = false := by simp [h]
      simp only [hbeq, Bool.false_eq_true, if_false]
      obtain ⟨ih1, ih2⟩ := ih c
      constructor
      · rw [idsF_mk, idsF_mk, assignIds, if_neg h, ih1]
      · rw [ih2, idsF_mk, countNeg_cons, if_neg h]
        ring
  · intro c
    simp [setIdList, idsL, preOrderList, assignIds, countNeg]
  · intro f fs ihf ihfs c
    rw [setIdList]
    obtain ⟨hf1, hf2⟩ := ihf c
    obtain ⟨hl1, hl2⟩ := ihfs (f.set_id c).2
    constructor
    · rw [idsL_cons, idsL_cons, hl1, hf1, assignIds_append, hf2]
    · rw [hl2, hf2, idsL_cons, countNeg_append]
      ring

theorem assignIds_getElem (xs : List Int) (c : Int) (i : Nat) :
    (assignIds xs c)[i]? =
      (xs[i]?).map fun x => if x = -1 then c + countNeg (xs.take i) else x := by
  induction xs generalizing c i with
  | nil => simp [assignIds]
  | cons x xs ih =>
    cases i with
    | zero =>
      by_cases h : x = -1 <;> simp [assignIds, h, countNeg]
    | succ i =>
      by_cases h : x = -1
      · simp only [assignIds, if_pos h, List.getElem?_cons_succ, ih, List.take_succ_cons,
          countNeg_cons, if_pos h]
        cases xs[i]? <;> simp
        ring_nf
      · simp only [assignIds, if_neg h, List.getElem?_cons_succ, ih, List.take_succ_cons,
          countNeg_cons, if_neg h]
        cases xs[i]? <;> simp

/-- Every pre-order id is bounded by `max_id`. -/
theorem mem_ids_le_max_id :
    (∀ f : Field, ∀ z ∈ idsF f, z ≤ f.max_id) ∧
    (∀ fs : List Field, ∀ z ∈ idsL fs, z ≤ maxIdList fs) := by
  apply Field.mutual_induction
  · intro i n lt nl md pk cs ih z hz
    rw [idsF_mk] at hz
    rw [Field.max_id]
    rcases List.mem_cons.mp hz with rfl | hz'
    · exact le_max_left _ _
    · exact le_trans (ih z hz') (le_max_right _ _)
  · intro z hz
    simp [idsL, preOrderList] at hz
  · intro f fs ihf ihfs z hz
    rw [idsL_cons] at hz
    rw [maxIdList]
    rcases List.mem_append.mp hz with hz' | hz'
    · exact le_trans (ihf z hz') (le_max_left _ _)
    · exact le_trans (ihfs z hz') (le_max_right _ _)

theorem max_id_ge_neg_one :
    (∀ f : Field, -1 ≤ f.max_id) ∧ (∀ fs : List Field, -1 ≤ maxIdList fs) := by
  apply Field.mutual_induction
  · intro i n lt nl md pk cs ih
    rw [Field.max_id]
    exact le_trans ih (le_max_right _ _)
  · rw [maxIdList]
  · intro f fs ihf _
    rw [maxIdList]
    exact le_trans ihf (le_max_left _ _)

theorem max_field_id_getD (s : Schema) : s.max_field_id.getD (-1) = maxIdList s.fields := by
  rw [Schema.max_field_id]
  induction s.fields with
  | nil => simp [maxIdList]
  | cons f fs ih =>
    rw [maxIdList, ← ih]
    rcases h : (fs.map Field.max_id).max? with _ | m
    · rw [List.max?_eq_none_iff] at h
      simp only [List.map_eq_nil_iff] at h
      subst h
      simp [List.max?, max_eq_left (max_id_ge_neg_one.1 f)]
    · have : (List.map Field.max_id (f :: fs)).max? = some (max f.max_id m) := by
        rw [List.map_cons, List.max?_cons, h]
        simp
      simp [this, h]

theorem field_ids_eq_idsL (s : Schema) : s.field_ids = idsL s.fields := rfl

/-- **C3.** `set_field_id(max_existing_id)` computes
`start = max(schema_max_id, max_existing_id) + 1` (each side defaulting to
`-1`) and rewrites the pre-order id list by assigning `start, start+1, …` to
exactly the `-1` entries: (i) the flat characterisation; (ii) the k-th `-1`
field in pre-order receives `start` plus the number of `-1` ids before it,
and every field with an assigned id keeps it; (iii) every newly assigned id
is greater than `max_existing_id` and greater than every id previously
present in the schema. -/
theorem set_field_id_correct (s : Schema) (max_existing_id : Option Int) :
    (s.set_field_id max_existing_id).field_ids =
        assignIds s.field_ids
          (max (s.max_field_id.getD (-1)) (max_existing_id.getD (-1)) + 1) ∧
    (∀ i : Nat, ∀ x : Int, s.field_ids[i]? = some x →
      (x = -1 →
        (s.set_field_id max_existing_id).field_ids[i]? =
          some (max (s.max_field_id.getD (-1)) (max_existing_id.getD (-1)) + 1 +
            countNeg (s.field_ids.take i))) ∧
      (x ≠ -1 → (s.set_field_id max_existing_id).field_ids[i]? = some x)) ∧
    (∀ i : Nat, ∀ x y : Int, s.field_ids[i]? = some x → x = -1 →
      (s.set_field_id max_existing_id).field_ids[i]? = some y →
      max_existing_id.getD (-1) < y ∧ ∀ z ∈ s.field_ids, z ≠ -1 → z < y) := by
  set start := max (s.max_field_id.getD (-1)) (max_existing_id.getD (-1)) + 1 with hstart
  have hmain : (s.set_field_id max_existing_id).field_ids = assignIds s.field_ids start := by
    rw [field_ids_eq_idsL, field_ids_eq_idsL]
    exact (setId_spec.2 s.fields start).1
  refine ⟨hmain, fun i x hx => ⟨fun hneg => ?_, fun hpos => ?_⟩, fun i x y hx hneg hy => ?_⟩
  · rw [hmain, assignIds_getElem, hx]
    simp [hneg]
  · rw [hmain, assignIds_getElem, hx]
    simp [hpos]
  · rw [hmain, assignIds_getElem, hx] at hy
    simp only [hneg, if_pos rfl, Option.map_some] at hy
    have hy' : y = start + countNeg (s.field_ids.take i) := by
      cases hy
      rfl
    have hge : start ≤ y := by
      rw [hy']
      have := countNeg_nonneg (s.field_ids.take i)
      omega
    constructor
    · have : max_existing_id.getD (-1) < start := by
        rw [hstart]
        have := le_max_right (s.max_field_id.getD (-1)) (max_existing_id.getD (-1))
        omega
      omega
    · intro z hz _
      have hle : z ≤ s.max_field_id.getD (-1) := by
        rw [max_field_id_getD]
        exact mem_ids_le_max_id.2 s.fields z (by rwa [field_ids_eq_idsL] at hz)
      have : s.max_field_id.getD (-1) < start := by
        rw [hstart]
        have := le_max_left (s.max_field_id.getD (-1)) (max_existing_id.getD (-1))
        omega
      omega

/-- Witness for C3: the schema `{x: id -1, y: id 5}` with
`max_existing_id = some 7` assigns `x = 8` and keeps `y = 5`; `8 > 7` and
`8 > 5`. -/
theorem set_field_id_correct_witness :
    ((Schema.mk [.mk (-1) "x" (.atomic "int32") false [] false [],
                 .mk 5 "y" (.atomic "int32") false [] false []] []).set_field_id
        (some 7)).field_ids = [8, 5] ∧
    ((Schema.mk [.mk (-1) "x" (.atomic "int32") false [] false [],
                 .mk 5 "y" (.atomic "int32") false [] false []] []).set_field_id
        (some 7)).field_ids[0]? = some 8 ∧
    (7 : Int) < 8 ∧ (5 : Int) < 8 := by
  have h := set_field_id_correct
    (Schema.mk [.mk (-1) "x" (.atomic "int32") false [] false [],
                .mk 5 "y" (.atomic "int32") false [] false []] []) (some 7)
  have h1 : ((Schema.mk [.mk (-1) "x" (.atomic "int32") false [] false [],
      .mk 5 "y" (.atomic "int32") false [] false []] []).set_field_id
        (some 7)).field_ids = [8, 5] := by
    rw [h.1]
    decide
  have h3 := h.2.2 0 (-1) 8 (by decide) rfl (by rw [h1]; decide)
  refine ⟨h1, by rw [h1]; decide, h3.1, h3.2 5 (by decide) (by decide)⟩

/-! ### C8: primary-key validation on Arrow import -/

/-- `Schema::unenforced_primary_key` (schema.rs): the pre-order fields marked
as unenforced primary key. -/
def Schema.unenforced_primary_key (s : Schema) : List Field :=
  s.fields_pre_order.filter fun f => f.unenforced_primary_key

mutual
/-- `Schema::field_ancestry_by_id` (schema.rs), per-field part.  The source
uses an explicit work stack that pops the most recently pushed path, i.e.
explores later siblings and later children first, testing each popped node
before its descendants; this recursion visits nodes in the same order. -/
def Field.ancestry : Field → Int → Option (List Field)
  | .mk i n lt nl md pk cs, id =>
    if i == id then some [.mk i n lt nl md pk cs]
    else (ancestryList cs id).map fun p => .mk i n lt nl md pk cs :: p
def ancestryList : List Field → Int → Option (List Field)
  | [], _ => none
  | f :: fs, id =>
    match ancestryList fs id with
    | some p => some p
    | none => f.ancestry id
end

/-- `Schema::field_ancestry_by_id` (schema.rs): the root-to-node path of the
field with the given id, if any. -/
def Schema.field_ancestry_by_id (s : Schema) (id : Int) : Option (List Field) :=
  ancestryList s.fields id

/-- Modelled from the spec: an Arrow field as the conversion reads it — name,
logical type, nullability, the `lance-schema:unenforced-primary-key` metadata
marker, and children (§6 Schema↔Arrow conversion). -/
inductive ArrowFieldNode where
  | mk (name : String) (logical_type : LogicalType) (nullable : Bool)
       (unenforced_primary_key : Bool) (children : List ArrowFieldNode)

def ArrowFieldNode.name : ArrowFieldNode → String | .mk n _ _ _ _ => n
def ArrowFieldNode.logical_type : ArrowFieldNode → LogicalType | .mk _ lt _ _ _ => lt
def ArrowFieldNode.nullable : ArrowFieldNode → Bool | .mk _ _ nl _ _ => nl
def ArrowFieldNode.unenforced_primary_key : ArrowFieldNode → Bool | .mk _ _ _ pk _ => pk
def ArrowFieldNode.children : ArrowFieldNode → List ArrowFieldNode | .mk _ _ _ _ cs => cs

/-- Modelled from the spec: a field is a leaf when it has no children. -/
def ArrowFieldNode.is_leaf (f : ArrowFieldNode) : Bool := f.children.isEmpty

/-- Mutual induction principle for `ArrowFieldNode`, from the recursor. -/
theorem ArrowFieldNode.arrow_mutual_induction {PF : ArrowFieldNode → Prop}
    {PL : List ArrowFieldNode → Prop}
    (hmk : ∀ n lt nl pk cs, PL cs → PF (.mk n lt nl pk cs))
    (hnil : PL []) (hcons : ∀ f fs, PF f → PL fs → PL (f :: fs)) :
    (∀ f, PF f) ∧ (∀ fs, PL fs) := by
  have hf : ∀ f, PF f := fun f =>
    ArrowFieldNode.rec (motive_1 := PF) (motive_2 := PL) hmk hnil hcons f
  refine ⟨hf, fun fs => ?_⟩
  induction fs with
  | nil => exact hnil
  | cons f fs ih => exact hcons f fs (hf f) ih

mutual
/-- Modelled from the spec: `Field::try_from(&ArrowField)` — structure, name,
type, nullability and the primary-key marker carry over; the field id starts
out unassigned (`-1`). -/
def ArrowFieldNode.toField : ArrowFieldNode → Field
  | .mk n lt nl pk cs => .mk (-1) n lt nl [] pk (arrowListToFields cs)
def arrowListToFields : List ArrowFieldNode → List Field
  | [] => []
  | f :: fs => f.toField :: arrowListToFields fs
end

mutual
/-- Forget ids and metadata of a field, recovering its Arrow-side shape. -/
def Field.strip : Field → ArrowFieldNode
  | .mk _ n lt nl _ pk cs => .mk n lt nl pk (stripList cs)
def stripList : List Field → List ArrowFieldNode
  | [] => []
  | f :: fs => f.strip :: stripList fs
end

mutual
/-- All root-to-node paths of an Arrow field tree, the node itself last. -/
def ArrowFieldNode.paths : ArrowFieldNode → List (List ArrowFieldNode)
  | .mk n lt nl pk cs =>
    [.mk n lt nl pk cs] :: (arrowPathsList cs).map fun p => .mk n lt nl pk cs :: p
def arrowPathsList : List ArrowFieldNode → List (List ArrowFieldNode)
  | [] => []
  | f :: fs => f.paths ++ arrowPathsList fs
end

mutual
/-- All root-to-node paths of a field tree, the node itself last. -/
def Field.fieldPaths : Field → List (List Field)
  | .mk i n lt nl md pk cs =>
    [.mk i n lt nl md pk cs] :: (fieldPathsList cs).map fun p => .mk i n lt nl md pk cs :: p
def fieldPathsList : List Field → List (List Field)
  | [] => []
  | f :: fs => f.fieldPaths ++ fieldPathsList fs
end

/-- Ancestor check of the Arrow-import primary-key validation (schema.rs,
`TryFrom<&ArrowSchema>` body): walking the ancestry root first, reject a
nullable ancestor, then a list-typed ancestor. -/
def checkPkAncestors : List Field → Except Err Unit
  | [] => .ok ()
  | anc :: rest =>
    if anc.nullable then
      .error (.schemaErr ("Primary key column and all its ancestors must not be nullable: " ++ anc.name))
    else if anc.logical_type.is_list || anc.logical_type.is_large_list then
      .error (.schemaErr ("Primary key column must not be in a list type: " ++ anc.name))
    else checkPkAncestors rest

/-- Per-primary-key loop of the Arrow-import validation (schema.rs): each
primary-key field must be a leaf, and every field on its ancestry path (the
field itself included) non-nullable and non-list. -/
def checkPkList (s : Schema) : List Field → Except Err Unit
  | [] => .ok ()
  | pk :: rest =>
    if !pk.is_leaf then
      .error (.schemaErr ("Primary key column must be a leaf: " ++ pk.name))
    else
      match s.field_ancestry_by_id pk.id with
      | some ancestors => do
          checkPkAncestors ancestors
          checkPkList s rest
      | none => checkPkList s rest

/-- `impl TryFrom<&ArrowSchema> for Schema` (schema.rs): convert the fields,
assign field ids (`set_field_id(None)`), then validate every
unenforced-primary-key field. -/
def Schema.try_from_arrow (afs : List ArrowFieldNode)
    (metadata : List (String × String)) : Except Err Schema := do
  let schema := (Schema.mk (arrowListToFields afs) metadata).set_field_id none
  checkPkList schema schema.unenforced_primary_key
  .ok schema

theorem strip_toField :
    (∀ a : ArrowFieldNode, a.toField.strip = a) ∧
    (∀ as : List ArrowFieldNode, stripList (arrowListToFields as) = as) := by
  apply ArrowFieldNode.arrow_mutual_induction
  · intro n lt nl pk cs ih
    rw [ArrowFieldNode.toField, Field.strip, ih]
  · rfl
  · intro f fs ihf ihfs
    rw [arrowListToFields, stripList, ihf, ihfs]

theorem strip_set_id :
    (∀ f : Field, ∀ c, (f.set_id c).1.strip = f.strip) ∧
    (∀ fs : List Field, ∀ c, stripList (setIdList fs c).1 = stripList fs) := by
  apply Field.mutual_induction
  · intro i n lt nl md pk cs ih c
    rw [Field.set_id]
    by_cases h : i = -1 <;> simp [h, Field.strip, ih]
  · intro c
    rfl
  · intro f fs ihf ihfs c
    rw [setIdList, stripList, stripList, ihf, ihfs]

theorem arrow_ids_neg :
    (∀ a : ArrowFieldNode, ∀ x ∈ idsF a.toField, x = -1) ∧
    (∀ as : List ArrowFieldNode, ∀ x ∈ idsL (arrowListToFields as), x = -1) := by
  apply ArrowFieldNode.arrow_mutual_induction
  · intro n lt nl pk cs ih x hx
    rw [ArrowFieldNode.toField, idsF_mk] at hx
    rcases List.mem_cons.mp hx with rfl | hx'
    · rfl
    · exact ih x hx'
  · intro x hx
    simp [idsL, preOrderList] at hx
  · intro f fs ihf ihfs x hx
    rw [arrowListToFields, idsL_cons] at hx
    rcases List.mem_append.mp hx with hx' | hx'
    · exact ihf x hx'
    · exact ihfs x hx'

theorem assignIds_all_neg (xs : List Int) (c : Int) (h : ∀ x ∈ xs, x = -1) :
    assignIds xs c = List.map (fun k : Nat => c + (k : Int)) (List.range xs.length) := by
  induction xs generalizing c with
  | nil => rfl
  | cons x xs ih =>
    have hx : x = -1 := h x (List.mem_cons_self x xs)
    rw [assignIds, if_pos hx, ih (c + 1) fun y hy => h y (List.mem_cons_of_mem x hy),
      List.length_cons, List.range_succ_eq_map]
    simp only [List.map_cons, List.map_map, Nat.cast_zero, add_zero, List.cons.injEq, true_and]
    apply List.map_congr_left
    intro k _
    simp only [Function.comp_apply]
    push_cast
    ring

theorem assignIds_all_neg_nodup (xs : List Int) (c : Int) (h : ∀ x ∈ xs, x = -1) :
    (assignIds xs c).Nodup := by
  rw [assignIds_all_neg xs c h]
  refine List.Nodup.map (fun a b hab => ?_) (List.nodup_range _)
  have : (a : Int) = b := by omega
  exact_mod_cast this

theorem ancestry_some_mem :
    (∀ f : Field, ∀ id : Int, ∀ p, f.ancestry id = some p → id ∈ idsF f) ∧
    (∀ fs : List Field, ∀ id : Int, ∀ p, ancestryList fs id = some p → id ∈ idsL fs) := by
  apply Field.mutual_induction
  · intro i n lt nl md pk cs ih id p hp
    rw [Field.ancestry] at hp
    rw [idsF_mk]
    by_cases h : i = id
    · subst h
      exact List.mem_cons_self _ _
    · have hbeq : (i == id) = false := by simp [h]
      rw [hbeq] at hp
      simp only [Bool.false_eq_true, if_false] at hp
      rcases hrec : ancestryList cs id with _ | p'
      · rw [hrec] at hp
        simp at hp
      · exact List.mem_cons_of_mem _ (ih id p' hrec)
  · intro id p hp
    rw [ancestryList] at hp
    exact absurd hp (by simp)
  · intro f fs ihf ihfs id p hp
    rw [ancestryList] at hp
    rw [idsL_cons]
    rcases hrec : ancestryList fs id with _ | p'
    · rw [hrec] at hp
      exact List.mem_append.mpr (Or.inl (ihf id p hp))
    · exact List.mem_append.mpr (Or.inr (ihfs id p' hrec))

theorem fieldPaths_ne_nil :
    (∀ f : Field, ∀ P ∈ f.fieldPaths, P ≠ []) ∧
    (∀ fs : List Field, ∀ P ∈ fieldPathsList fs, P ≠ []) := by
  apply Field.mutual_induction
  · intro i n lt nl md pk cs _ P hP
    rw [Field.fieldPaths] at hP
    rcases List.mem_cons.mp hP with rfl | hP'
    · simp
    · obtain ⟨p', _, rfl⟩ := List.mem_map.mp hP'
      simp
  · intro P hP
    simp [fieldPathsList] at hP
  · intro f fs ihf ihfs P hP
    rw [fieldPathsList] at hP
    rcases List.mem_append.mp hP with hP' | hP'
    · exact ihf P hP'
    · exact ihfs P hP'

theorem fieldPaths_getLast_mem :
    (∀ f : Field, ∀ P ∈ f.fieldPaths, ∀ g, P.getLast? = some g → g ∈ f.preOrder) ∧
    (∀ fs : List Field, ∀ P ∈ fieldPathsList fs, ∀ g, P.getLast? = some g →
      g ∈ preOrderList fs) := by
  apply Field.mutual_induction
  · intro i n lt nl md pk cs ih P hP g hg
    rw [Field.fieldPaths] at hP
    rw [Field.preOrder]
    rcases List.mem_cons.mp hP with rfl | hP'
    · simp only [List.getLast?_singleton, Option.some.injEq] at hg
      exact hg ▸ List.mem_cons_self _ _
    · obtain ⟨p', hp', rfl⟩ := List.mem_map.mp hP'
      have hne := fieldPaths_ne_nil.2 cs p' hp'
      rcases p' with _ | ⟨x, xs⟩
      · exact absurd rfl hne
      · rw [List.getLast?_cons_cons] at hg
        exact List.mem_cons_of_mem _ (ih _ hp' g hg)
  · intro P hP g hg
    simp [fieldPathsList] at hP
  · intro f fs ihf ihfs P hP g hg
    rw [fieldPathsList] at hP
    rw [preOrderList]
    rcases List.mem_append.mp hP with hP' | hP'
    · exact List.mem_append.mpr (Or.inl (ihf P hP' g hg))
    · exact List.mem_append.mpr (Or.inr (ihfs P hP' g hg))

theorem preOrder_exists_path :
    (∀ f : Field, ∀ g ∈ f.preOrder, ∃ P ∈ f.fieldPaths, P.getLast? = some g) ∧
    (∀ fs : List Field, ∀ g ∈ preOrderList fs, ∃ P ∈ fieldPathsList fs, P.getLast? = some g) := by
  apply Field.mutual_induction
  · intro i n lt nl md pk cs ih g hg
    rw [Field.preOrder] at hg
    rw [Field.fieldPaths]
    rcases List.mem_cons.mp hg with rfl | hg'
    · exact ⟨[Field.mk i n lt nl md pk cs], List.mem_cons_self _ _, by simp⟩
    · obtain ⟨P', hP', hlast⟩ := ih g hg'
      refine ⟨Field.mk i n lt nl md pk cs :: P', List.mem_cons_of_mem _ ?_, ?_⟩
      · exact List.mem_map.mpr ⟨P', hP', rfl⟩
      · have hne := fieldPaths_ne_nil.2 cs P' hP'
        rcases P' with _ | ⟨x, xs⟩
        · exact absurd rfl hne
        · rwa [List.getLast?_cons_cons]
  · intro g hg
    simp [preOrderList] at hg
  · intro f fs ihf ihfs g hg
    rw [preOrderList] at hg
    rw [fieldPathsList]
    rcases List.mem_append.mp hg with hg' | hg'
    · obtain ⟨P, hP, hlast⟩ := ihf g hg'
      exact ⟨P, List.mem_append.mpr (Or.inl hP), hlast⟩
    · obtain ⟨P, hP, hlast⟩ := ihfs g hg'
      exact ⟨P, List.mem_append.mpr (Or.inr hP), hlast⟩

/-- On a tree with distinct pre-order ids, `ancestry` of a node's id returns
exactly that node's root path. -/
theorem ancestry_of_path :
    (∀ f : Field, (idsF f).Nodup → ∀ P ∈ f.fieldPaths, ∀ g, P.getLast? = some g →
      f.ancestry g.id = some P) ∧
    (∀ fs : List Field, (idsL fs).Nodup → ∀ P ∈ fieldPathsList fs, ∀ g, P.getLast? = some g →
      ancestryList fs g.id = some P) := by
  apply Field.mutual_induction
  · intro i n lt nl md pk cs ih hnd P hP g hg
    rw [idsF_mk, List.nodup_cons] at hnd
    rw [Field.fieldPaths] at hP
    rw [Field.ancestry]
    rcases List.mem_cons.mp hP with rfl | hP'
    · simp only [List.getLast?_singleton, Option.some.injEq] at hg
      subst hg
      simp [Field.id]
    · obtain ⟨p', hp', rfl⟩ := List.mem_map.mp hP'
      have hne := fieldPaths_ne_nil.2 cs p' hp'
      have hlast : p'.getLast? = some g := by
        rcases p' with _ | ⟨x, xs⟩
        · exact absurd rfl hne
        · rwa [List.getLast?_cons_cons] at hg
      have hmem : g ∈ preOrderList cs := fieldPaths_getLast_mem.2 cs p' hp' g hlast
      have hgid : g.id ∈ idsL cs := List.mem_map.mpr ⟨g, hmem, rfl⟩
      have hne' : i ≠ g.id := fun hc => hnd.1 (hc ▸ hgid)
      have hbeq : (i == g.id) = false := by simp [hne']
      rw [hbeq]
      simp only [Bool.false_eq_true, if_false]
      rw [ih hnd.2 p' hp' g hlast]
      rfl
  · intro _ P hP
    simp [fieldPathsList] at hP
  · intro f fs ihf ihfs hnd P hP g hg
    rw [idsL_cons] at hnd
    have hndf := hnd.of_append_left
    have hndfs := hnd.of_append_right
    have hdisj := List.disjoint_of_nodup_append hnd
    rw [fieldPathsList] at hP
    rw [ancestryList]
    rcases List.mem_append.mp hP with hP' | hP'
    · have hmem : g ∈ f.preOrder := fieldPaths_getLast_mem.1 f P hP' g hg
      have hgid : g.id ∈ idsF f := List.mem_map.mpr ⟨g, hmem, rfl⟩
      have hnot : g.id ∉ idsL fs := fun hc => hdisj hgid hc
      rcases hrec : ancestryList fs g.id with _ | p'
      · rw [ihf hndf P hP' g hg]
      · exact absurd (ancestry_some_mem.2 fs g.id p' hrec) hnot
    · rw [ihfs hndfs P hP' g hg]

theorem paths_strip :
    (∀ f : Field, f.strip.paths = f.fieldPaths.map fun p => p.map Field.strip) ∧
    (∀ fs : List Field,
      arrowPathsList (stripList fs) = (fieldPathsList fs).map fun p => p.map Field.strip) := by
  apply Field.mutual_induction
  · intro i n lt nl md pk cs ih
    rw [Field.strip, ArrowFieldNode.paths, Field.fieldPaths, ih]
    simp [List.map_map, Function.comp_def, Field.strip]
  · rfl
  · intro f fs ihf ihfs
    rw [stripList, arrowPathsList, fieldPathsList, ihf, ihfs, List.map_append]

theorem strip_nullable (f : Field) : f.strip.nullable = f.nullable := by
  cases f
  rfl

theorem strip_logical_type (f : Field) : f.strip.logical_type = f.logical_type := by
  cases f
  rfl

theorem strip_pk (f : Field) : f.strip.unenforced_primary_key = f.unenforced_primary_key := by
  cases f
  rfl

theorem strip_is_leaf (f : Field) : f.strip.is_leaf = f.is_leaf := by
  rcases f with ⟨i, n, lt, nl, md, pk, _ | ⟨c, cs⟩⟩ <;>
    rfl

theorem checkPkAncestors_ok_iff (l : List Field) :
    checkPkAncestors l = .ok () ↔ ∀ anc ∈ l, anc.nullable = false ∧
      anc.logical_type.is_list = false ∧ anc.logical_type.is_large_list = false := by
  induction l with
  | nil => simp [checkPkAncestors]
  | cons anc rest ih =>
    rw [checkPkAncestors]
    by_cases h1 : anc.nullable = true
    · simp [h1]
    · rw [Bool.not_eq_true] at h1
      by_cases h2 : (anc.logical_type.is_list || anc.logical_type.is_large_list) = true
      · simp only [h1, Bool.false_eq_true, if_false, h2, if_true]
        rw [Bool.or_eq_true] at h2
        constructor
        · intro hc
          exact absurd hc (by simp)
        · intro hall
          have := hall anc (List.mem_cons_self _ _)
          rcases h2 with h2 | h2
          · exact absurd h2 (by simp [this.2.1])
          · exact absurd h2 (by simp [this.2.2])
      · rw [Bool.not_eq_true, Bool.or_eq_false_iff] at h2
        simp only [h1, Bool.false_eq_true, if_false, h2.1, h2.2, Bool.or_self, if_false, ih]
        constructor
        · intro hall anc' hanc'
          rcases List.mem_cons.mp hanc' with rfl | hm
          · exact ⟨h1, h2.1, h2.2⟩
          · exact hall anc' hm
        · intro hall anc' hanc'
          exact hall anc' (List.mem_cons_of_mem _ hanc')

theorem checkPkList_ok_iff (s : Schema) (l : List Field) :
    checkPkList s l = .ok () ↔ ∀ pk ∈ l, pk.is_leaf = true ∧
      ∀ P, s.field_ancestry_by_id pk.id = some P → checkPkAncestors P = .ok () := by
  induction l with
  | nil => simp [checkPkList]
  | cons pk rest ih =>
    rw [checkPkList]
    by_cases hl : pk.is_leaf = true
    · simp only [hl, Bool.not_true, Bool.false_eq_true, if_false]
      rcases hanc : s.field_ancestry_by_id pk.id with _ | P
      · change checkPkList s rest = Except.ok () ↔ _
        simp only [ih]
        constructor
        · intro hall pk' hpk'
          rcases List.mem_cons.mp hpk' with rfl | hm
          · exact ⟨hl, fun P hP => absurd (hanc ▸ hP) (by simp)⟩
          · exact hall pk' hm
        · intro hall pk' hpk'
          exact hall pk' (List.mem_cons_of_mem _ hpk')
      · change (do checkPkAncestors P; checkPkList s rest) = Except.ok () ↔ _
        rcases hca : checkPkAncestors P with e | u
        · change (Except.error e : Except Err Unit) = Except.ok () ↔ _
          constructor
          · intro hc
            exact absurd hc (by simp)
          · intro hall
            have := (hall pk (List.mem_cons_self _ _)).2 P hanc
            exact absurd this (by simp [hca])
        · change checkPkList s rest = Except.ok () ↔ _
          rw [ih]
          constructor
          · intro hall pk' hpk'
            rcases List.mem_cons.mp hpk' with rfl | hm
            · refine ⟨hl, fun P' hP' => ?_⟩
              rw [hanc] at hP'
              cases hP'
              rw [hca]
            · exact hall pk' hm
          · intro hall pk' hpk'
            exact hall pk' (List.mem_cons_of_mem _ hpk')
    · rw [Bool.not_eq_true] at hl
      simp only [hl, Bool.not_false, if_true]
      constructor
      · intro hc
        exact absurd hc (by simp)
      · intro hall
        exact absurd (hall pk (List.mem_cons_self _ _)).1 (by simp [hl])

theorem getLast?_map_strip (P : List Field) :
    (P.map Field.strip).getLast? = P.getLast?.map Field.strip := by
  induction P with
  | nil => rfl
  | cons a P ih =>
    cases P with
    | nil => rfl
    | cons b l =>
      rw [List.map_cons, List.map_cons, List.getLast?_cons_cons, List.getLast?_cons_cons,
        ← List.map_cons]
      simpa using ih

theorem try_from_arrow_bind (afs : List ArrowFieldNode) (md : List (String × String)) :
    Schema.try_from_arrow afs md =
      bind (checkPkList ((Schema.mk (arrowListToFields afs) md).set_field_id none)
          ((Schema.mk (arrowListToFields afs) md).set_field_id none).unenforced_primary_key)
        fun _ => Except.ok ((Schema.mk (arrowListToFields afs) md).set_field_id none) := rfl

/-- **C8.** Converting an Arrow schema to a core `Schema`: (i) the conversion
fails whenever some field marked as unenforced primary key is not a leaf, or
some field on its root path (itself included) is nullable or list-typed;
(ii) an Arrow schema whose primary-key fields satisfy all three rules passes
the primary-key checks and converts to the id-assigned schema; (iii) the S6
scenario — a primary key inside a list — fails with the error
"Primary key column must not be in a list type". -/
theorem try_from_arrow_primary_key_correct (afs : List ArrowFieldNode)
    (md : List (String × String)) :
    ((∃ p ∈ arrowPathsList afs, ∃ pk, p.getLast? = some pk ∧
        pk.unenforced_primary_key = true ∧
        (pk.is_leaf = false ∨ ∃ anc ∈ p, anc.nullable = true ∨
          anc.logical_type.is_list = true ∨ anc.logical_type.is_large_list = true)) →
      ∃ e, Schema.try_from_arrow afs md = .error e) ∧
    ((∀ p ∈ arrowPathsList afs, ∀ pk, p.getLast? = some pk →
        pk.unenforced_primary_key = true →
        pk.is_leaf = true ∧ ∀ anc ∈ p, anc.nullable = false ∧
          anc.logical_type.is_list = false ∧ anc.logical_type.is_large_list = false) →
      Schema.try_from_arrow afs md =
        .ok ((Schema.mk (arrowListToFields afs) md).set_field_id none)) ∧
    Schema.try_from_arrow
        [.mk "b" .list false false [.mk "f1" (.atomic "utf8") false true []]] [] =
      .error (.schemaErr ("Primary key column must not be in a list type: b")) := by
  have hfields : ((Schema.mk (arrowListToFields afs) md).set_field_id none).fields =
      (setIdList (arrowListToFields afs)
        (max ((Schema.mk (arrowListToFields afs) md).max_field_id.getD (-1))
          ((none : Option Int).getD (-1)) + 1)).1 := rfl
  set s := (Schema.mk (arrowListToFields afs) md).set_field_id none with hs
  have hstrip : stripList s.fields = afs := by
    rw [hfields, strip_set_id.2]
    exact strip_toField.2 afs
  have hnodup : (idsL s.fields).Nodup := by
    rw [hfields, (setId_spec.2 (arrowListToFields afs) _).1]
    exact assignIds_all_neg_nodup _ _ (arrow_ids_neg.2 afs)
  have hpaths : arrowPathsList afs =
      (fieldPathsList s.fields).map fun p => p.map Field.strip := by
    rw [← hstrip]
    exact paths_strip.2 s.fields
  have hpre : s.unenforced_primary_key =
      (preOrderList s.fields).filter fun f => f.unenforced_primary_key := rfl
  refine ⟨?_, ?_, ?_⟩
  · rintro ⟨p, hp, pk, hlast, hflag, hviol⟩
    rw [hpaths] at hp
    obtain ⟨P, hP, rfl⟩ := List.mem_map.mp hp
    rw [getLast?_map_strip] at hlast
    rcases hgl : P.getLast? with _ | g
    · rw [hgl] at hlast
      exact absurd hlast (by simp)
    · rw [hgl] at hlast
      simp only [Option.map_some', Option.some.injEq] at hlast
      subst hlast
      have hflag' : g.unenforced_primary_key = true := by rwa [strip_pk] at hflag
      have hmem : g ∈ preOrderList s.fields := fieldPaths_getLast_mem.2 s.fields P hP g hgl
      have hpkmem : g ∈ s.unenforced_primary_key := by
        rw [hpre]
        exact List.mem_filter.mpr ⟨hmem, hflag'⟩
      have hanc : s.field_ancestry_by_id g.id = some P :=
        ancestry_of_path.2 s.fields hnodup P hP g hgl
      have hnotok : checkPkList s s.unenforced_primary_key ≠ .ok () := by
        intro hok
        rw [checkPkList_ok_iff] at hok
        have hg := hok g hpkmem
        rcases hviol with hleaf | ⟨anc, hanca, hviol2⟩
        · rw [strip_is_leaf] at hleaf
          rw [hg.1] at hleaf
          exact absurd hleaf (by simp)
        · have hca := hg.2 P hanc
          rw [checkPkAncestors_ok_iff] at hca
          obtain ⟨ancF, hancF, rfl⟩ := List.mem_map.mp hanca
          have hprops := hca ancF hancF
          rw [strip_nullable, strip_logical_type] at hviol2
          rcases hviol2 with h | h | h
          · rw [hprops.1] at h
            exact absurd h (by simp)
          · rw [hprops.2.1] at h
            exact absurd h (by simp)
          · rw [hprops.2.2] at h
            exact absurd h (by simp)
      rcases hck : checkPkList s s.unenforced_primary_key with e | u
      · refine ⟨e, ?_⟩
        rw [try_from_arrow_bind, ← hs, hck]
        rfl
      · cases u
        exact absurd hck hnotok
  · intro hall
    have hok : checkPkList s s.unenforced_primary_key = .ok () := by
      rw [checkPkList_ok_iff]
      intro pk hpk
      rw [hpre] at hpk
      obtain ⟨hpkmem, hpkflag⟩ := List.mem_filter.mp hpk
      obtain ⟨P, hP, hlast⟩ := preOrder_exists_path.2 s.fields pk hpkmem
      have hanc : s.field_ancestry_by_id pk.id = some P :=
        ancestry_of_path.2 s.fields hnodup P hP pk hlast
      have hpmem : P.map Field.strip ∈ arrowPathsList afs := by
        rw [hpaths]
        exact List.mem_map_of_mem _ hP
      have hlast' : (P.map Field.strip).getLast? = some pk.strip := by
        rw [getLast?_map_strip, hlast]
        rfl
      have hflag' : pk.strip.unenforced_primary_key = true := by
        rw [strip_pk]
        exact hpkflag
      have hh := hall _ hpmem _ hlast' hflag'
      refine ⟨by rw [← strip_is_leaf]; exact hh.1, fun P' hP' => ?_⟩
      rw [hanc] at hP'
      cases hP'
      rw [checkPkAncestors_ok_iff]
      intro anc hancmem
      have hprops := hh.2 anc.strip (List.mem_map_of_mem _ hancmem)
      rw [strip_nullable, strip_logical_type] at hprops
      exact hprops
    rw [try_from_arrow_bind, ← hs, hok]
    rfl
  · rfl

/-- Witness for C8: the fail direction at the S6 schema (primary key under a
list), and the pass direction at a single non-nullable leaf primary key. -/
theorem try_from_arrow_primary_key_correct_witness :
    (∃ e, Schema.try_from_arrow
        [.mk "b" .list false false [.mk "f1" (.atomic "utf8") false true []]] [] =
      .error e) ∧
    Schema.try_from_arrow [.mk "a" (.atomic "int32") false true []] [] =
      .ok ((Schema.mk (arrowListToFields [.mk "a" (.atomic "int32") false true []])
        []).set_field_id none) := by
  constructor
  · apply (try_from_arrow_primary_key_correct
      [.mk "b" .list false false [.mk "f1" (.atomic "utf8") false true []]] []).1
    have hpl : arrowPathsList
        [.mk "b" .list false false [.mk "f1" (.atomic "utf8") false true []]] =
        [[.mk "b" .list false false [.mk "f1" (.atomic "utf8") false true []]],
         [.mk "b" .list false false [.mk "f1" (.atomic "utf8") false true []],
          .mk "f1" (.atomic "utf8") false true []]] := rfl
    refine ⟨[.mk "b" .list false false [.mk "f1" (.atomic "utf8") false true []],
             .mk "f1" (.atomic "utf8") false true []], ?_,
            .mk "f1" (.atomic "utf8") false true [], rfl, rfl, ?_⟩
    · rw [hpl]
      exact List.mem_cons_of_mem _ (List.mem_cons_self _ _)
    · refine Or.inr ⟨.mk "b" .list false false [.mk "f1" (.atomic "utf8") false true []],
        List.mem_cons_self _ _, Or.inr (Or.inl rfl)⟩
  · apply (try_from_arrow_primary_key_correct [.mk "a" (.atomic "int32") false true []] []).2.1
    intro p hp pk hlast hflag
    have hpl : arrowPathsList [.mk "a" (.atomic "int32") false true []] =
        [[.mk "a" (.atomic "int32") false true []]] := rfl
    rw [hpl] at hp
    rcases List.mem_singleton.mp hp with rfl
    simp only [List.getLast?_singleton, Option.some.injEq] at hlast
    subst hlast
    refine ⟨rfl, fun anc hanc => ?_⟩
    rcases List.mem_singleton.mp hanc with rfl
    exact ⟨rfl, rfl, rfl⟩

/-! ### C9: projection by name (`project` / `project_or_drop`) -/

/-- The reserved virtual row-id column name. -/
def ROW_ID : String := "_rowid"

/-- The reserved virtual row-address column name. -/
def ROW_ADDR : String := "_rowaddr"

/-- Modelled from the spec: `Field::project` — materialize the sub-tree rooted
at the remaining dotted path; an empty path keeps the whole sub-tree, a
segment keeps only the named child, projected recursively, and a missing
segment is an error (the strict `project` fails on unknown nested columns,
and `do_project` propagates this error in both modes). -/
def Field.project (f : Field) : List String → Except Err Field
  | [] => .ok f
  | p :: rest =>
    match f.children.find? fun c => c.name == p with
    | some c =>
      match c.project rest with
      | .error e => .error e
      | .ok c' => .ok (f.withChildren [c'])
    | none => .error (.schemaErr ("Column " ++ p ++ " does not exist"))

/-- Top-level field lookup by name.  `do_project` calls `self.field(first)` on
a single path segment, which is exactly this top-level search. -/
def Schema.topLevelField (s : Schema) (name : String) : Option Field :=
  s.fields.find? fun f => f.name == name

/-- Merge a projected field into the first same-named candidate
(`candidates.iter_mut().find(..).merge(..)` in `do_project`). -/
def mergeCandidate : List Field → String → Field → Except Err (List Field)
  | [], _, _ => .ok []
  | f :: fs, nm, pf =>
    if f.name == nm then
      match f.merge pf with
      | .error e => .error e
      | .ok f' => .ok (f' :: fs)
    else
      match mergeCandidate fs nm pf with
      | .error e => .error e
      | .ok fs' => .ok (f :: fs')

/-- Loop of `Schema::do_project` (schema.rs): walk the requested columns,
projecting each and merging per top-level name into the candidate list. -/
def doProjectGo (s : Schema) (err_on_missing : Bool) :
    List String → List Field → Except Err (List Field)
  | [], candidates => .ok candidates
  | col :: rest, candidates =>
    let split := splitCol col
    let first := split.headD ""
    match s.topLevelField first with
    | some field =>
      match field.project split.tail with
      | .error e => .error e
      | .ok projected_field =>
        match (if candidates.any fun f => f.name == first then
                 mergeCandidate candidates first projected_field
               else
                 .ok (candidates ++ [projected_field])) with
        | .error e => .error e
        | .ok candidates' => doProjectGo s err_on_missing rest candidates'
    | none =>
      if err_on_missing && first ≠ ROW_ID && first ≠ ROW_ADDR then
        .error (.schemaErr ("Column " ++ col ++ " does not exist"))
      else
        doProjectGo s err_on_missing rest candidates

/-- `Schema::do_project` (schema.rs). -/
def Schema.do_project (s : Schema) (columns : List String) (err_on_missing : Bool) :
    Except Err Schema :=
  match doProjectGo s err_on_missing columns [] with
  | .error e => .error e
  | .ok candidates => .ok { fields := candidates, metadata := s.metadata }

/-- `Schema::project` (schema.rs): strict projection. -/
def Schema.project (s : Schema) (columns : List String) : Except Err Schema :=
  s.do_project columns true

/-- `Schema::project_or_drop` (schema.rs): projection dropping unknown
top-level columns. -/
def Schema.project_or_drop (s : Schema) (columns : List String) : Except Err Schema :=
  s.do_project columns false

/-- The first segment of a dotted column reference. -/
def topSegment (col : String) : String := (splitCol col).headD ""

/-- `Field::merge` (modelled) never fails. -/
theorem merge_ok :
    (∀ f other : Field, ∃ r, f.merge other = .ok r) ∧
    (∀ fs : List Field, ∀ bs, ∃ rs, mergeFieldEach fs bs = .ok rs) := by
  apply Field.mutual_induction
  · intro i n lt nl md pk cs ih other
    rcases other with ⟨i', n', lt', nl', md', pk', cs'⟩
    rw [Field.merge]
    by_cases h : lt = LogicalType.strukt ∧ lt' = LogicalType.strukt
    · obtain ⟨rs, hrs⟩ := ih cs'
      rw [if_pos h, hrs]
      exact ⟨_, rfl⟩
    · rw [if_neg h]
      exact ⟨_, rfl⟩

  · intro bs
    exact ⟨[], rfl⟩
  · intro f fs ihf ihfs bs
    obtain ⟨rs, hrs⟩ := ihfs bs
    rcases hfind : bs.find? fun b => b.name == f.name with _ | b
    · simp only [mergeFieldEach, hfind, hrs]
      exact ⟨_, rfl⟩
    · obtain ⟨r, hr⟩ := ihf b
      simp only [mergeFieldEach, hfind, hr, hrs]
      exact ⟨_, rfl⟩

theorem mergeCandidate_ok (cands : List Field) (nm : String) (pf : Field) :
    ∃ out, mergeCandidate cands nm pf = .ok out := by
  induction cands with
  | nil => exact ⟨[], rfl⟩
  | cons f fs ih =>
    rw [mergeCandidate]
    by_cases h : (f.name == nm) = true
    · obtain ⟨r, hr⟩ := merge_ok.1 f pf
      rw [if_pos h, hr]
      exact ⟨_, rfl⟩
    · obtain ⟨out, hout⟩ := ih
      rw [if_neg h, hout]
      exact ⟨_, rfl⟩

theorem project_ok_iff_sub_field (path : List String) :
    ∀ f : Field, (∃ g, f.project path = .ok g) ↔ (f.sub_field path).isSome := by
  induction path with
  | nil =>
    intro f
    constructor
    · intro _
      rfl
    · intro _
      exact ⟨f, rfl⟩
  | cons p rest ih =>
    intro f
    rcases hfind : f.children.find? fun c => c.name == p with _ | c
    · simp only [Field.project, Field.sub_field, hfind]
      simp
    · rcases hproj : c.project rest with e | g
      · have hsub : (c.sub_field rest).isSome = false := by
          rw [Bool.eq_false_iff]
          intro hc
          obtain ⟨g, hg⟩ := (ih c).mpr hc
          rw [hproj] at hg
          exact absurd hg (by simp)
        simp only [Field.project, Field.sub_field, hfind, hproj, hsub]
        simp
      · have hsub : (c.sub_field rest).isSome := (ih c).mp ⟨g, hproj⟩
        simp only [Field.project, Field.sub_field, hfind, hproj]
        exact ⟨fun _ => hsub, fun _ => ⟨_, rfl⟩⟩

/-- The per-column success condition of the `do_project` loop. -/
def colOk (s : Schema) (err_on_missing : Bool) (col : String) : Prop :=
  match s.topLevelField (topSegment col) with
  | some _ => (s.field col).isSome
  | none => err_on_missing = true → topSegment col = ROW_ID ∨ topSegment col = ROW_ADDR

theorem field_eq_topLevel_bind (s : Schema) (col : String) :
    s.field col = (s.topLevelField (topSegment col)).bind
      fun c => c.sub_field (splitCol col).tail := rfl

theorem colOk_of_top_none (s : Schema) (eom : Bool) (col : String)
    (htop : s.topLevelField ((splitCol col).headD "") = none) :
    colOk s eom col ↔
      (eom = true → (splitCol col).headD "" = ROW_ID ∨
        (splitCol col).headD "" = ROW_ADDR) := by
  rw [colOk, show topSegment col = (splitCol col).headD "" from rfl, htop]

theorem colOk_of_top_some (s : Schema) (eom : Bool) (col : String) (field : Field)
    (htop : s.topLevelField ((splitCol col).headD "") = some field) :
    colOk s eom col ↔ (field.sub_field (splitCol col).tail).isSome := by
  rw [colOk, show topSegment col = (splitCol col).headD "" from rfl, htop,
    field_eq_topLevel_bind, show topSegment col = (splitCol col).headD "" from rfl, htop]
  exact Iff.rfl

theorem doProjectGo_ok_iff (s : Schema) (eom : Bool) (cols : List String) :
    ∀ candidates, (∃ out, doProjectGo s eom cols candidates = .ok out) ↔
      ∀ col ∈ cols, colOk s eom col := by
  induction cols with
  | nil =>
    intro candidates
    simp [doProjectGo]
  | cons col rest ih =>
    intro candidates
    simp only [List.forall_mem_cons]
    rcases htop : s.topLevelField ((splitCol col).headD "") with _ | field
    · simp only [doProjectGo, htop]
      by_cases hcond : (eom && !(splitCol col).headD "" == ROW_ID &&
          !(splitCol col).headD "" == ROW_ADDR) = true
      · rw [if_pos (by simpa using hcond)]
        have hnotcol : ¬colOk s eom col := by
          rw [colOk_of_top_none s eom col htop]
          simp only [Bool.and_eq_true, Bool.not_eq_true', beq_eq_false_iff_ne] at hcond
          intro hc
          rcases hc hcond.1.1 with h | h
          · exact absurd h hcond.1.2
          · exact absurd h hcond.2
        constructor
        · rintro ⟨out, hout⟩
          exact absurd hout (by simp)
        · rintro ⟨hc, _⟩
          exact absurd hc hnotcol
      · rw [if_neg (by simpa using hcond)]
        have hcolok : colOk s eom col := by
          rw [colOk_of_top_none s eom col htop]
          simp only [Bool.and_eq_true, Bool.not_eq_true', beq_eq_false_iff_ne, not_and] at hcond
          intro heom
          by_cases h1 : (splitCol col).headD "" = ROW_ID
          · exact Or.inl h1
          · by_cases h2 : (splitCol col).headD "" = ROW_ADDR
            · exact Or.inr h2
            · exact absurd (And.intro (And.intro heom h1) h2) (by tauto)
        rw [ih candidates]
        exact ⟨fun h => ⟨hcolok, h⟩, fun h => h.2⟩
    · simp only [doProjectGo, htop]
      rcases hproj : field.project (splitCol col).tail with e | pf
      · simp only [hproj]
        have hnotcol : ¬colOk s eom col := by
          rw [colOk_of_top_some s eom col field htop]
          intro hc
          obtain ⟨g, hg⟩ := (project_ok_iff_sub_field _ field).mpr hc
          rw [hproj] at hg
          exact absurd hg (by simp)
        constructor
        · rintro ⟨out, hout⟩
          exact absurd hout (by simp)
        · rintro ⟨hc, _⟩
          exact absurd hc hnotcol
      · simp only [hproj]
        have hcolok : colOk s eom col := by
          rw [colOk_of_top_some s eom col field htop]
          exact (project_ok_iff_sub_field _ field).mp ⟨pf, hproj⟩
        by_cases hany : (candidates.any fun f => f.name == (splitCol col).headD "") = true
        · obtain ⟨mc, hmc⟩ := mergeCandidate_ok candidates ((splitCol col).headD "") pf
          rw [if_pos hany]
          simp only [hmc]
          rw [ih mc]
          exact ⟨fun h => ⟨hcolok, h⟩, fun h => h.2⟩
        · rw [if_neg hany]
          rw [ih (candidates ++ [pf])]
          exact ⟨fun h => ⟨hcolok, h⟩, fun h => h.2⟩

theorem do_project_ok_iff (s : Schema) (eom : Bool) (cols : List String) :
    (∃ sch, s.do_project cols eom = .ok sch) ↔ ∀ col ∈ cols, colOk s eom col := by
  rw [← doProjectGo_ok_iff s eom cols []]
  rcases h : doProjectGo s eom cols [] with e | out
  · simp only [Schema.do_project, h]
    constructor
    · rintro ⟨sch, hsch⟩
      exact absurd hsch (by simp)
    · rintro ⟨out, hout⟩
      exact absurd hout (by simp)
  · simp only [Schema.do_project, h]
    exact ⟨fun _ => ⟨out, rfl⟩, fun _ => ⟨_, rfl⟩⟩

theorem colOk_true_iff (s : Schema) (col : String) :
    colOk s true col ↔
      match s.topLevelField (topSegment col) with
      | some _ => (s.field col).isSome
      | none => topSegment col = ROW_ID ∨ topSegment col = ROW_ADDR := by
  rw [colOk]
  rcases s.topLevelField (topSegment col) with _ | f
  · simp
  · exact Iff.rfl

theorem colOk_false_iff (s : Schema) (col : String) :
    colOk s false col ↔ ((s.topLevelField (topSegment col)).isSome → (s.field col).isSome) := by
  rw [colOk]
  rcases s.topLevelField (topSegment col) with _ | f
  · simp
  · simp

/-- The S1 example schema `{a: i32, b: {f1: utf8?, f2: bool, f3: f32}, c: f64}`
with ids `a=0, b=1, f1=2, f2=3, f3=4, c=5`. -/
def sampleSchema : Schema :=
  ⟨[.mk 0 "a" (.atomic "int32") false [] false [],
    .mk 1 "b" .strukt true [] false
      [.mk 2 "f1" (.atomic "utf8") true [] false [],
       .mk 3 "f2" (.atomic "bool") false [] false [],
       .mk 4 "f3" (.atomic "float32") false [] false []],
    .mk 5 "c" (.atomic "float64") false [] false []], []⟩

/-- **C9 (amended).** Projection by name: (i) `project` succeeds exactly when
every requested column either resolves fully in the schema, or has a missing
top-level name that is one of the virtual columns `_rowid`/`_rowaddr`
(silently accepted); in particular it errors when a named column does not
exist; (ii) `project_or_drop` succeeds exactly when every column whose
top-level name exists resolves fully — a column with a missing top-level name
is silently dropped, but a column whose top-level name exists with a missing
nested path errors in both modes; (iii) prepending `_rowid` or `_rowaddr`
(absent from the schema, as the reserved names always are) changes nothing —
the virtual columns contribute no field; (iv) `["b.f1","b.f3"]` produces a
single `b` with exactly the children `f1` and `f3`. -/
theorem project_and_or_drop_correct (s : Schema) (cols : List String) :
    ((∃ sch, s.project cols = .ok sch) ↔ ∀ col ∈ cols,
      match s.topLevelField (topSegment col) with
      | some _ => (s.field col).isSome
      | none => topSegment col = ROW_ID ∨ topSegment col = ROW_ADDR) ∧
    ((∃ sch, s.project_or_drop cols = .ok sch) ↔ ∀ col ∈ cols,
      (s.topLevelField (topSegment col)).isSome → (s.field col).isSome) ∧
    (s.topLevelField ROW_ID = none → ∀ eom,
      s.do_project (ROW_ID :: cols) eom = s.do_project cols eom) ∧
    (s.topLevelField ROW_ADDR = none → ∀ eom,
      s.do_project (ROW_ADDR :: cols) eom = s.do_project cols eom) ∧
    sampleSchema.project ["b.f1", "b.f3"] =
      .ok (Schema.mk [.mk 1 "b" .strukt true [] false
        [.mk 2 "f1" (.atomic "utf8") true [] false [],
         .mk 4 "f3" (.atomic "float32") false [] false []]] []) := by
  refine ⟨?_, ?_, ?_, ?_, rfl⟩
  · rw [show (∃ sch, s.project cols = .ok sch) ↔ ∀ col ∈ cols, colOk s true col from
      do_project_ok_iff s true cols]
    exact forall₂_congr fun col _ => colOk_true_iff s col
  · rw [show (∃ sch, s.project_or_drop cols = .ok sch) ↔ ∀ col ∈ cols, colOk s false col from
      do_project_ok_iff s false cols]
    exact forall₂_congr fun col _ => colOk_false_iff s col
  · intro h eom
    have hgo : doProjectGo s eom (ROW_ID :: cols) [] = doProjectGo s eom cols [] := by
      rw [doProjectGo]
      rw [show s.topLevelField ((splitCol ROW_ID).headD "") = none from h]
      rw [if_neg]
      intro hc
      rw [show (decide ((splitCol ROW_ID).headD "" ≠ ROW_ID)) = false from by decide] at hc
      simp at hc
    rw [Schema.do_project, Schema.do_project, hgo]
  · intro h eom
    have hgo : doProjectGo s eom (ROW_ADDR :: cols) [] = doProjectGo s eom cols [] := by
      rw [doProjectGo]
      rw [show s.topLevelField ((splitCol ROW_ADDR).headD "") = none from h]
      rw [if_neg]
      intro hc
      rw [show (decide ((splitCol ROW_ADDR).headD "" ≠ ROW_ADDR)) = false from by decide] at hc
      simp at hc
    rw [Schema.do_project, Schema.do_project, hgo]

/-- Counterexample to C9 as stated: `project_or_drop` does error on a missing
column when the top-level name exists but the nested path does not — the
column `b.zzz` is missing from the schema, yet `project_or_drop(["b.zzz"])`
returns a Schema error rather than silently dropping it. -/
theorem project_or_drop_missing_nested_errors :
    sampleSchema.project_or_drop ["b.zzz"] =
      .error (.schemaErr "Column zzz does not exist") := rfl

/-- Witness for the amended C9: `project` succeeds on `["a","_rowid","b.f1"]`,
`project_or_drop` succeeds on `["nonexistent","c"]` (dropping the unknown
top-level column), and prepending `_rowid` is a no-op. -/
theorem project_and_or_drop_correct_witness :
    (∃ sch, sampleSchema.project ["a", "_rowid", "b.f1"] = .ok sch) ∧
    (∃ sch, sampleSchema.project_or_drop ["nonexistent", "c"] = .ok sch) ∧
    sampleSchema.do_project (ROW_ID :: ["c"]) true = sampleSchema.do_project ["c"] true := by
  refine ⟨(project_and_or_drop_correct sampleSchema ["a", "_rowid", "b.f1"]).1.mpr ?_,
          (project_and_or_drop_correct sampleSchema ["nonexistent", "c"]).2.1.mpr ?_,
          (project_and_or_drop_correct sampleSchema ["c"]).2.2.1 rfl true⟩
  · intro col hc
    simp only [List.mem_cons, List.mem_singleton, List.not_mem_nil, or_false] at hc
    rcases hc with rfl | rfl | rfl
    · exact rfl
    · exact Or.inl rfl
    · exact rfl
  · intro col hc
    simp only [List.mem_cons, List.mem_singleton, List.not_mem_nil, or_false] at hc
    rcases hc with rfl | rfl
    · intro h
      exact absurd h (by decide)
    · intro _
      exact rfl

/-! ## Transaction engine (transaction.rs) -/

/-- `lance_table::format::Index` (fields the embedded code reads); the
roaring fragment bitmap is a finite set of (32-bit) fragment ids. -/
structure Index where
  uuid : String
  name : String
  fields : List Int
  dataset_version : Nat
  fragment_bitmap : Option (Finset Nat)
deriving DecidableEq

/-- Modelled from the spec: the reserved names of system indices (the
fragment-reuse index and the mem-WAL index). -/
def systemIndexNames : List String := ["__lance_frag_reuse", "__lance_mem_wal"]

/-- Modelled from the spec: `lance_index::is_system_index` — an index is a
system index exactly when it carries one of the reserved system names;
system indices are always retained. -/
def is_system_index (idx : Index) : Bool := systemIndexNames.contains idx.name

/-- `RewrittenIndex` (transaction.rs): uuid swap for a rewritten index. -/
structure RewrittenIndex where
  old_id : String
  new_id : String
deriving DecidableEq

/-- Modelled from the spec: a mem-WAL record, identified opaquely; no
verified claim depends on its contents. -/
structure MemWal where
  id : String
deriving DecidableEq

/-- `Operation` (transaction.rs): the tagged union of dataset mutations. -/
inductive Operation where
  | append (fragments : List Fragment)
  | delete (updated_fragments : List Fragment) (deleted_fragment_ids : List Nat)
      (predicate : String)
  | overwrite (fragments : List Fragment) (schema : Schema)
      (config_upsert_values : Option (List (String × String)))
  | createIndex (new_indices : List Index) (removed_indices : List Index)
  | rewrite (groups : List RewriteGroup) (rewritten_indices : List RewrittenIndex)
      (frag_reuse_index : Option Index)
  | dataReplacement (replacements : List (Nat × DataFile))
  | merge (fragments : List Fragment) (schema : Schema)
  | restore (version : Nat)
  | reserveFragments (num_fragments : Nat)
  | update (removed_fragment_ids : List Nat) (updated_fragments : List Fragment)
      (new_fragments : List Fragment) (fields_modified : List Nat)
      (mem_wal_to_flush : Option MemWal)
  | project (schema : Schema)
  | updateConfig (upsert_values : Option (List (String × String)))
      (delete_keys : Option (List String))
      (schema_metadata : Option (List (String × String)))
      (field_metadata : Option (List (Nat × List (String × String))))
  | updateMemWalState (added : List MemWal) (updated : List MemWal) (removed : List MemWal)

/-- `Operation::name` (transaction.rs). -/
def Operation.name : Operation → String
  | .append _ => "Append"
  | .delete _ _ _ => "Delete"
  | .overwrite _ _ _ => "Overwrite"
  | .createIndex _ _ => "CreateIndex"
  | .rewrite _ _ _ => "Rewrite"
  | .merge _ _ => "Merge"
  | .reserveFragments _ => "ReserveFragments"
  | .restore _ => "Restore"
  | .update _ _ _ _ _ => "Update"
  | .project _ => "Project"
  | .updateConfig _ _ _ _ => "UpdateConfig"
  | .dataReplacement _ => "DataReplacement"
  | .updateMemWalState _ _ _ => "UpdateMemWalState"

/-- Modelled from the spec: the Lance file version enumeration, restricted to
the variants the embedded code distinguishes. -/
inductive LanceFileVersion where
  | legacy
  | v2_0
  | v2_1
deriving DecidableEq

/-- Modelled from the spec: the manifest's data storage format record,
carrying the resolved file version. -/
structure DataStorageFormat where
  version : LanceFileVersion
deriving DecidableEq

/-- Modelled from the spec: `FLAG_MOVE_STABLE_ROW_IDS`, the feature-flag bit
for move-stable row ids (the only flag this core defines). -/
def FLAG_MOVE_STABLE_ROW_IDS : Nat := 2

/-- `lance_table::format::Manifest` (fields the embedded code reads),
modelled from the spec §3. -/
structure Manifest where
  version : Nat
  schema : Schema
  fragments : List Fragment
  next_row_id : Nat
  max_fragment_id : Option Nat
  reader_feature_flags : Nat
  writer_feature_flags : Nat
  config : List (String × String)
  timestamp_nanos : Nat
  tag : Option String
  transaction_file : Option String
  data_storage_format : DataStorageFormat
  blob_dataset_version : Option Nat

/-- Modelled from the spec: `Manifest::uses_move_stable_row_ids` — the
reader feature flag bit is set. -/
def Manifest.uses_move_stable_row_ids (m : Manifest) : Bool :=
  m.reader_feature_flags &&& FLAG_MOVE_STABLE_ROW_IDS ≠ 0

/-- Modelled from the spec: `Manifest::max_fragment_id()` — the dataset-wide
fragment-id high-water mark: the stored field joined with the largest id in
the fragment list (`max_fragment_id ≥ max(fragments.id)` is the §3
invariant). -/
def Manifest.maxFragmentIdHW (m : Manifest) : Option Nat :=
  match m.max_fragment_id, (m.fragments.map Fragment.id).max? with
  | none, none => none
  | some a, none => some a
  | none, some b => some b
  | some a, some b => some (max a b)

/-- Modelled from the spec: `Manifest::update_max_fragment_id`. -/
def Manifest.update_max_fragment_id (m : Manifest) : Manifest :=
  { m with max_fragment_id := m.maxFragmentIdHW }

/-- Modelled from the spec: `Manifest::set_timestamp`. -/
def Manifest.set_timestamp (m : Manifest) (nanos : Nat) : Manifest :=
  { m with timestamp_nanos := nanos }

/-- Modelled from the spec: `timestamp_to_nanos` of the optional
configuration timestamp (an absent timestamp is the wall clock, irrelevant
to the claims; it is modelled as 0). -/
def timestamp_to_nanos (ts : Option Nat) : Nat := ts.getD 0

/-- Modelled from the spec: `Manifest::update_config` — upsert into the
config map. -/
def Manifest.update_config (m : Manifest) (upsert : List (String × String)) : Manifest :=
  { m with config := metadataMerge m.config upsert }

/-- Modelled from the spec: `Manifest::delete_config_keys`. -/
def Manifest.delete_config_keys (m : Manifest) (keys : List String) : Manifest :=
  { m with config := m.config.filter fun kv => !keys.contains kv.1 }

/-- Modelled from the spec: `Manifest::replace_schema_metadata`. -/
def Manifest.replace_schema_metadata (m : Manifest) (md : List (String × String)) : Manifest :=
  { m with schema := { m.schema with metadata := md } }

mutual
/-- Modelled from the spec: replace the metadata of the field with the given
id. -/
def Field.replaceMetadataById : Field → Int → List (String × String) → Field
  | .mk i n lt nl fmd pk cs, id, md =>
    .mk i n lt nl (if i == id then md else fmd) pk (replaceMetadataByIdList cs id md)
def replaceMetadataByIdList : List Field → Int → List (String × String) → List Field
  | [], _, _ => []
  | f :: fs, id, md => f.replaceMetadataById id md :: replaceMetadataByIdList fs id md
end

/-- Modelled from the spec: `Manifest::replace_field_metadata`. -/
def Manifest.replace_field_metadata (m : Manifest) (field_id : Int)
    (md : List (String × String)) : Manifest :=
  { m with schema :=
      { m.schema with fields := replaceMetadataByIdList m.schema.fields field_id md } }

/-- Modelled from the spec: `Manifest::new_from_previous` (§4.4 step 9) —
derive the next manifest from the prior one, bumping the version and taking
the new schema and fragment list; the row-id and fragment-id high-water
marks, flags and config carry over until the engine updates them. -/
def Manifest.new_from_previous (prev : Manifest) (schema : Schema)
    (fragments : List Fragment) (new_blob_version : Option Nat) : Manifest :=
  { prev with
    version := prev.version + 1
    schema := schema
    fragments := fragments
    tag := none
    transaction_file := none
    blob_dataset_version :=
      match new_blob_version with
      | some v => some v
      | none => prev.blob_dataset_version }

/-- Modelled from the spec: `Manifest::new` — the first-version manifest. -/
def Manifest.new (schema : Schema) (fragments : List Fragment)
    (data_storage_format : DataStorageFormat) (blob_dataset_version : Option Nat) : Manifest :=
  ⟨1, schema, fragments, 0, none, 0, 0, [], 0, none, none, data_storage_format,
    blob_dataset_version⟩

/-- `ManifestWriteConfig` (dataset.rs; fields the embedded code reads).  The
`storage_format` arrives already parsed to a file version, so the
string-parsing failure path of `lance_file_version()` is out of scope. -/
structure ManifestWriteConfig where
  auto_set_feature_flags : Bool
  timestamp : Option Nat
  use_move_stable_row_ids : Bool
  use_legacy_format : Option Bool
  storage_format : Option LanceFileVersion

/-- Modelled from the spec: `apply_feature_flags` (§4.4 step 9) — when
stable row ids are requested, set the flag bit on both flag words. -/
def apply_feature_flags (m : Manifest) (use_move_stable_row_ids : Bool) : Manifest :=
  if use_move_stable_row_ids then
    { m with
      reader_feature_flags := m.reader_feature_flags ||| FLAG_MOVE_STABLE_ROW_IDS
      writer_feature_flags := m.writer_feature_flags ||| FLAG_MOVE_STABLE_ROW_IDS }
  else m

/-- `Transaction::fragments_with_ids` (transaction.rs): fragments arriving
with id `0` receive ids from the cursor. -/
def fragments_with_ids : List Fragment → Nat → List Fragment × Nat
  | [], fragment_id => ([], fragment_id)
  | f :: fs, fragment_id =>
    let p := if f.id == 0 then ({ f with id := fragment_id }, fragment_id + 1)
             else (f, fragment_id)
    let q := fragments_with_ids fs p.2
    (p.1 :: q.1, q.2)

/-- `Transaction::assign_row_ids` (transaction.rs): allocate the contiguous
row-id range `[next_row_id, next_row_id + physical_rows)` to each fragment
in order, serializing it inline; a fragment without `physical_rows` is an
internal error. -/
def assign_row_ids : Nat → List Fragment → Except Err (List Fragment × Nat)
  | next_row_id, [] => .ok ([], next_row_id)
  | next_row_id, f :: fs =>
    match f.physical_rows with
    | none => .error (.internal "Fragment does not have physical rows")
    | some physical_rows =>
      match assign_row_ids (next_row_id + physical_rows) fs with
      | .error e => .error e
      | .ok (fs', final) =>
        .ok ({ f with row_id_meta := some (.inline next_row_id physical_rows) } :: fs', final)

/-- `Transaction::retain_relevant_indices` (transaction.rs): keep an index
iff all its fields are still in the schema, and (when it stores a fragment
bitmap) some covered fragment still exists; system indices are always
kept. -/
def retain_relevant_indices (indices : List Index) (schema : Schema)
    (fragments : List Fragment) : List Index :=
  let field_ids := schema.fields_pre_order.map Field.id
  let kept := indices.filter fun idx =>
    (idx.fields.all fun fid => field_ids.contains fid) || is_system_index idx
  let fragment_ids := fragments.map Fragment.id
  kept.filter fun idx =>
    (match idx.fragment_bitmap with
     | some bitmap => decide (bitmap ∩ fragment_ids.toFinset).Nonempty
     | none => true) || is_system_index idx

/-- `Transaction::prune_updated_fields_from_indices` (transaction.rs): when
fields were modified, strip the updated fragment ids from the bitmap of every
index covering a modified field.  (The source casts the `i32` index field ids
to `u32` for the membership test; the comparison is made on the integer
values.) -/
def prune_updated_fields_from_indices (indices : List Index)
    (updated_fragments : List Fragment) (fields_modified : List Nat) : List Index :=
  if fields_modified.isEmpty then indices
  else indices.map fun idx =>
    if idx.fields.any fun fid => fields_modified.any fun fm => (fm : Int) == fid then
      { idx with fragment_bitmap := idx.fragment_bitmap.map fun bm =>
          updated_fragments.foldl (fun b f => b.erase (u32 f.id)) bm }
    else idx

/-- Contiguity scan of `handle_rewrite_fragments` (transaction.rs): check
that the remaining old fragments appear in order right after the start
position; running past the end of the fragment list is the source's
out-of-bounds panic. -/
def scanRange (frags : List Fragment) : List Fragment → Nat → Except Err Bool
  | [], _ => .ok true
  | o :: os, pos =>
    match frags[pos]? with
    | none => .error (.panic "index out of bounds")
    | some f => if f.id == o.id then scanRange frags os (pos + 1) else .ok false

/-- `Transaction::handle_rewrite_fragments` (transaction.rs): each group
whose old fragments form a contiguous run (matched in order from the first
occurrence of the first old id) is spliced in place; a group whose first old
id is absent is a commit conflict (the source formats the missing id into
the message); any other group is removed id-by-id with the new fragments
appended at the end. -/
def handle_rewrite_fragments :
    List Fragment → List RewriteGroup → Nat → Nat → Except Err (List Fragment × Nat)
  | final_fragments, [], fragment_id, _ => .ok (final_fragments, fragment_id)
  | final_fragments, group :: groups, fragment_id, version =>
    match group.old_fragments with
    | [] => .error (.panic "index out of bounds")
    | o0 :: os =>
      match final_fragments.findIdx? fun f => f.id == o0.id with
      | none => .error (.commitConflict version
          "dataset does not contain a fragment a rewrite operation wants to replace")
      | some start =>
        match scanRange final_fragments os (start + 1) with
        | .error e => .error e
        | .ok contiguous =>
          let p := fragments_with_ids group.new_fragments fragment_id
          let final' :=
            if contiguous then
              final_fragments.take start ++ p.1 ++
                final_fragments.drop (start + group.old_fragments.length)
            else
              (group.old_fragments.foldl
                (fun acc old => acc.filter fun f => f.id ≠ old.id) final_fragments) ++ p.1
          handle_rewrite_fragments final' groups p.2 version

/-- `schema_fragments_valid` (transaction.rs): each fragment must contain
every field of the schema in some of its data files.  (The source formats
the offending field's debug representation into the message; the message
here carries its name.) -/
def schema_fragments_valid (schema : Schema) (fragments : List Fragment) : Except Err Unit :=
  match fragments with
  | [] => .ok ()
  | frag :: rest =>
    match schema.fields_pre_order.find? fun field =>
        !(frag.files.any fun fl => fl.fields.contains field.id) with
    | some field => .error (.invalidInput
        ("Fragment does not contain field " ++ field.name))
    | none => schema_fragments_valid schema rest

/-- `validate_operation` (transaction.rs). -/
def validate_operation (manifest : Option Manifest) (operation : Operation) :
    Except Err Unit :=
  match manifest, operation with
  | none, .overwrite fragments schema none => schema_fragments_valid schema fragments
  | none, _ => .error (.invalidInput
      ("Cannot apply operation " ++ operation.name ++ " to non-existent dataset"))
  | some m, op =>
    match op with
    | .append fragments => schema_fragments_valid m.schema fragments
    | .project schema => schema_fragments_valid schema m.fragments
    | .merge fragments schema => schema_fragments_valid schema fragments
    | .overwrite fragments schema none => schema_fragments_valid schema fragments
    | .update _ updated_fragments new_fragments _ _ =>
      match schema_fragments_valid m.schema updated_fragments with
      | .error e => .error e
      | .ok _ => schema_fragments_valid m.schema new_fragments
    | _ => .ok ()

/-- **C10.** `validate_operation` with no current manifest: it can succeed
only for an `Overwrite` whose `config_upsert_values` is `None` (where it
reduces to the schema/fragment validation); for every other operation —
including an `Overwrite` carrying `config_upsert_values` — it returns the
invalid-input error naming the operation that cannot be applied to a
non-existent dataset. -/
theorem validate_operation_no_manifest (op : Operation) :
    (validate_operation none op = .ok () → ∃ frs sch, op = .overwrite frs sch none) ∧
    ((∀ frs sch, op ≠ .overwrite frs sch none) →
      validate_operation none op = .error (.invalidInput
        ("Cannot apply operation " ++ op.name ++ " to non-existent dataset"))) ∧
    (∀ frs sch, op = .overwrite frs sch none →
      validate_operation none op = schema_fragments_valid sch frs) := by
  cases op with
  | overwrite frs sch cfg =>
    cases cfg with
    | none =>
      refine ⟨fun _ => ⟨frs, sch, rfl⟩, fun hne => absurd rfl (hne frs sch),
        fun frs' sch' heq => ?_⟩
      injection heq with h1 h2 _
      subst h1
      subst h2
      rfl
    | some tm =>
      refine ⟨(fun h => nomatch h), fun _ => rfl, fun frs' sch' heq => ?_⟩
      injection heq with _ _ h3
      exact Option.noConfusion h3
  | append frs => exact ⟨(fun h => nomatch h), fun _ => rfl, fun _ _ heq => nomatch heq⟩
  | delete u d p => exact ⟨(fun h => nomatch h), fun _ => rfl, fun _ _ heq => nomatch heq⟩
  | createIndex n r => exact ⟨(fun h => nomatch h), fun _ => rfl, fun _ _ heq => nomatch heq⟩
  | rewrite g r f => exact ⟨(fun h => nomatch h), fun _ => rfl, fun _ _ heq => nomatch heq⟩
  | dataReplacement r => exact ⟨(fun h => nomatch h), fun _ => rfl, fun _ _ heq => nomatch heq⟩
  | merge f s => exact ⟨(fun h => nomatch h), fun _ => rfl, fun _ _ heq => nomatch heq⟩
  | restore v => exact ⟨(fun h => nomatch h), fun _ => rfl, fun _ _ heq => nomatch heq⟩
  | reserveFragments n => exact ⟨(fun h => nomatch h), fun _ => rfl, fun _ _ heq => nomatch heq⟩
  | update a b c d e => exact ⟨(fun h => nomatch h), fun _ => rfl, fun _ _ heq => nomatch heq⟩
  | project s => exact ⟨(fun h => nomatch h), fun _ => rfl, fun _ _ heq => nomatch heq⟩
  | updateConfig a b c d =>
    exact ⟨(fun h => nomatch h), fun _ => rfl, fun _ _ heq => nomatch heq⟩
  | updateMemWalState a b c =>
    exact ⟨(fun h => nomatch h), fun _ => rfl, fun _ _ heq => nomatch heq⟩

/-- Witness for C10: an `Append` on a non-existent dataset errors with the
expected message; an `Overwrite` with no config upsert reduces to the
schema/fragment validation (succeeding on the empty schema). -/
theorem validate_operation_no_manifest_witness :
    validate_operation none (.append []) = .error (.invalidInput
      "Cannot apply operation Append to non-existent dataset") ∧
    validate_operation none (.overwrite [] (Schema.mk [] []) none) =
      schema_fragments_valid (Schema.mk [] []) [] ∧
    validate_operation none (.overwrite [] (Schema.mk [] []) none) = .ok () := by
  refine ⟨(validate_operation_no_manifest (.append [])).2.1
            (fun frs sch h => nomatch h), ?_, rfl⟩
  exact (validate_operation_no_manifest (.overwrite [] (Schema.mk [] []) none)).2.2 []
    (Schema.mk [] []) rfl

/-! ### `Transaction::build_manifest` -/

/-- `Transaction` (transaction.rs): the fields `build_manifest` reads. -/
structure Transaction where
  read_version : Nat
  uuid : String
  operation : Operation
  blobs_op : Option Operation
  tag : Option String

/-- Modelled from the spec: `update_mem_wal_index_in_indices_list` maintains
the mem-WAL system index (§4.3 `UpdateMemWalState`).  The spec fixes no
algorithm for it and no verified claim depends on its effect on the index
list, so it is modelled as preserving the list. -/
def update_mem_wal_index_in_indices_list (indices : List Index) : List Index := indices

/-- Modelled from the spec: `LanceFileVersion::try_from_major_minor` (the
exact numbering is irrelevant to the claims). -/
def versionFromMajorMinor : Nat → Nat → Option LanceFileVersion
  | 0, 1 => some .legacy
  | 2, 0 => some .v2_0
  | 2, 1 => some .v2_1
  | _, _ => none

/-- Modelled from the spec: `Fragment::try_infer_version` (§4.4 step 8) —
infer the common file version of all data files of the new fragments;
`none` when there are no files, an error when they disagree. -/
def try_infer_version (fragments : List Fragment) : Except Err (Option LanceFileVersion) :=
  let versions := ((fragments.flatMap fun f => f.files).map
    fun f => (f.file_major_version, f.file_minor_version)).dedup
  match versions with
  | [] => .ok none
  | [mv] =>
    match versionFromMajorMinor mv.1 mv.2 with
    | some v => .ok (some v)
    | none => .error (.invalidInput "unknown file version")
  | _ => .error (.invalidInput "All data files must have the same version")

/-- Modelled from the spec: the default data storage format. -/
def defaultDataStorageFormat : DataStorageFormat := ⟨.v2_0⟩

/-- `Transaction::data_storage_format_from_files` (transaction.rs). -/
def data_storage_format_from_files (fragments : List Fragment)
    (user_requested : Option LanceFileVersion) : Except Err DataStorageFormat :=
  match try_infer_version fragments with
  | .error e => .error e
  | .ok (some file_version) =>
    match user_requested with
    | some u =>
      if u ≠ file_version then
        .error (.invalidInput
          "User requested data storage version does not match version in data files")
      else .ok ⟨file_version⟩
    | none => .ok ⟨file_version⟩
  | .ok none =>
    match user_requested with
    | some u => .ok ⟨u⟩
    | none => .ok defaultDataStorageFormat

/-- Stable insertion into a fragment list sorted by id (an element moves past
every strictly larger key, landing after equal keys). -/
def insertFragByKey (x : Fragment) : List Fragment → List Fragment
  | [] => [x]
  | y :: ys => if x.id < y.id then x :: y :: ys else y :: insertFragByKey x ys

/-- `final_fragments.sort_by_key(|frag| frag.id)` (transaction.rs): a stable
sort by fragment id, as insertion sort. -/
def sortFragmentsById (l : List Fragment) : List Fragment :=
  l.foldl (fun acc x => insertFragByKey x acc) []

/-- The `maybe_existing_fragments` value of `build_manifest`: the prior
manifest's fragments, or the internal error naming the operation. -/
def maybeExistingFragments (current_manifest : Option Manifest) (opName : String) :
    Except Err (List Fragment) :=
  match current_manifest with
  | some m => .ok m.fragments
  | none => .error (.internal
      ("No current manifest was provided while building manifest for operation " ++ opName))

/-- Row-id assignment step of the fragment-list arms: assign ranges when
stable row ids are in effect, otherwise pass the fragments through. -/
def assignRowIdsOpt : Option Nat → List Fragment → Except Err (List Fragment × Option Nat)
  | some n, frags =>
    match assign_row_ids n frags with
    | .error e => .error e
    | .ok (fs, n') => .ok (fs, some n')
  | none, frags => .ok (frags, none)

/-- Bitmap recalculation over every index that stores a bitmap (the
stable-row-id branch of the Rewrite arm). -/
def recalcAllIndices : List Index → List RewriteGroup → Except Err (List Index)
  | [], _ => .ok []
  | idx :: rest, groups =>
    match idx.fragment_bitmap with
    | some bm =>
      match recalculate_fragment_bitmap bm groups with
      | .error e => .error e
      | .ok bm' =>
        match recalcAllIndices rest groups with
        | .error e => .error e
        | .ok rest' => .ok ({ idx with fragment_bitmap := some bm' } :: rest')
    | none =>
      match recalcAllIndices rest groups with
      | .error e => .error e
      | .ok rest' => .ok (idx :: rest')

/-- Replace the first index carrying the given uuid. -/
def replaceFirstByUuid : List Index → String → Index → List Index
  | [], _, _ => []
  | i :: is, uid, newIdx =>
    if i.uuid == uid then newIdx :: is else i :: replaceFirstByUuid is uid newIdx

/-- Loop of `Transaction::handle_rewrite_indices` (transaction.rs); the
source formats the offending uuid into the duplicate/missing messages. -/
def handleRewriteIndicesGo :
    List Index → List String → List RewrittenIndex → List RewriteGroup →
      Except Err (List Index)
  | indices, _, [], _ => .ok indices
  | indices, modified, r :: rest, groups =>
    if modified.contains r.old_id then
      .error (.invalidInput
        "An invalid compaction plan must have been generated because multiple tasks modified the same index")
    else
      match indices.find? fun idx => idx.uuid == r.old_id with
      | none => .error (.invalidInput
          "Invalid compaction plan refers to index which does not exist")
      | some idx =>
        match idx.fragment_bitmap with
        | none => .error (.invalidInput
            "Cannot rewrite index which did not store fragment bitmap")
        | some bm =>
          match recalculate_fragment_bitmap bm groups with
          | .error e => .error e
          | .ok bm' =>
            handleRewriteIndicesGo
              (replaceFirstByUuid indices r.old_id
                { idx with fragment_bitmap := some bm', uuid := r.new_id })
              (r.old_id :: modified) rest groups

/-- `Transaction::handle_rewrite_indices` (transaction.rs). -/
def handle_rewrite_indices (indices : List Index) (rewritten_indices : List RewrittenIndex)
    (groups : List RewriteGroup) : Except Err (List Index) :=
  handleRewriteIndicesGo indices [] rewritten_indices groups

/-- Per-replacement loop of the DataReplacement arm (transaction.rs): find
the target fragment, update every data file matching the new file's
`(fields, major, minor)` in path and size, append the new file when the
fragment's covered columns are disjoint from its fields — panicking via
`LanceFileVersion::try_from_major_minor(..).expect("Expected valid file
version")` when the new file's version pair is not recognised — and fail
when the fragment ends up unchanged.  (`add_file` round-trips the new
file's version and size, so the appended data file is the new file
itself.) -/
def dataReplacementGo (existing : List Fragment) :
    List (Nat × DataFile) → Except Err (List Fragment)
  | [] => .ok []
  | (frag_id, new_file) :: rest =>
    match existing.find? fun f => f.id == frag_id with
    | none => .error (.invalidInput "Fragment being replaced not found in existing fragments")
    | some frag =>
      let updated_files := frag.files.map fun file =>
        if file.fields == new_file.fields &&
            file.file_major_version == new_file.file_major_version &&
            file.file_minor_version == new_file.file_minor_version then
          { file with path := new_file.path, file_size_bytes := new_file.file_size_bytes }
        else file
      let columns_covered := (frag.files.flatMap fun file => file.fields).toFinset
      let frag_q : Except Err Fragment :=
        if columns_covered ∩ new_file.fields.toFinset = ∅ then
          match versionFromMajorMinor new_file.file_major_version
              new_file.file_minor_version with
          | none => .error (.panic "Expected valid file version")
          | some _ => .ok { frag with files := updated_files ++ [new_file] }
        else .ok { frag with files := updated_files }
      match frag_q with
      | .error e => .error e
      | .ok new_frag =>
        if new_frag = frag then
          .error (.invalidInput "Expected to modify the fragment but no changes were made")
        else
          match dataReplacementGo existing rest with
          | .error e => .error e
          | .ok done => .ok (new_frag :: done)

/-- The operation dispatch of `build_manifest` (transaction.rs): produce the
final fragment list, the final index list, and the advanced row-id cursor. -/
def applyOperation (op : Operation) (current_manifest : Option Manifest)
    (current_indices : List Index) (schema : Schema) (fragment_id : Nat)
    (next_row_id : Option Nat) :
    Except Err (List Fragment × List Index × Option Nat) :=
  let existing_q := maybeExistingFragments current_manifest op.name
  match op with
  | .append fragments =>
    match existing_q with
    | .error e => .error e
    | .ok existing =>
      match assignRowIdsOpt next_row_id (fragments_with_ids fragments fragment_id).1 with
      | .error e => .error e
      | .ok (new_fragments, row_out) =>
        .ok (existing ++ new_fragments, current_indices, row_out)
  | .delete updated_fragments deleted_fragment_ids _ =>
    match existing_q with
    | .error e => .error e
    | .ok existing =>
      let final_fragments :=
        (existing.filter fun f => !deleted_fragment_ids.contains f.id).map fun f =>
          ((updated_fragments.filter fun uf => uf.id == f.id).getLast?).getD f
      .ok (final_fragments, retain_relevant_indices current_indices schema final_fragments,
        next_row_id)
  | .update removed_fragment_ids updated_fragments new_fragments fields_modified
      mem_wal_to_flush =>
    match existing_q with
    | .error e => .error e
    | .ok existing =>
      let kept := existing.filterMap fun f =>
        if removed_fragment_ids.contains f.id then none
        else match updated_fragments.find? fun uf => uf.id == f.id with
          | some updated => some updated
          | none => some f
      let indices1 :=
        prune_updated_fields_from_indices current_indices updated_fragments fields_modified
      match assignRowIdsOpt next_row_id (fragments_with_ids new_fragments fragment_id).1 with
      | .error e => .error e
      | .ok (new_fragments', row_out) =>
        let final_fragments := kept ++ new_fragments'
        let indices2 := retain_relevant_indices indices1 schema final_fragments
        let indices3 :=
          match mem_wal_to_flush with
          | some _ => update_mem_wal_index_in_indices_list indices2
          | none => indices2
        .ok (final_fragments, indices3, row_out)
  | .overwrite fragments _ _ =>
    match assignRowIdsOpt next_row_id (fragments_with_ids fragments fragment_id).1 with
    | .error e => .error e
    | .ok (new_fragments, row_out) => .ok (new_fragments, [], row_out)
  | .rewrite groups rewritten_indices frag_reuse_index =>
    match existing_q with
    | .error e => .error e
    | .ok existing =>
      let current_version := (current_manifest.map fun m => m.version).getD 0
      match handle_rewrite_fragments existing groups fragment_id current_version with
      | .error e => .error e
      | .ok (final_fragments, _) =>
        match (if next_row_id.isSome then recalcAllIndices current_indices groups
               else handle_rewrite_indices current_indices rewritten_indices groups) with
        | .error e => .error e
        | .ok indices1 =>
          let indices2 :=
            match frag_reuse_index with
            | some fri => (indices1.filter fun idx => idx.name ≠ fri.name) ++ [fri]
            | none => indices1
          .ok (final_fragments, indices2, next_row_id)
  | .createIndex new_indices removed_indices =>
    match existing_q with
    | .error e => .error e
    | .ok existing =>
      let kept := current_indices.filter fun existing_index =>
        !(new_indices.any fun ni => ni.name == existing_index.name) &&
        !(removed_indices.any fun oi => oi.uuid == existing_index.uuid)
      .ok (existing, kept ++ new_indices, next_row_id)
  | .reserveFragments _ =>
    match existing_q with
    | .error e => .error e
    | .ok existing => .ok (existing, current_indices, next_row_id)
  | .updateConfig _ _ _ _ =>
    match existing_q with
    | .error e => .error e
    | .ok existing => .ok (existing, current_indices, next_row_id)
  | .merge fragments _ =>
    .ok (fragments, retain_relevant_indices current_indices schema fragments, next_row_id)
  | .project _ =>
    match existing_q with
    | .error e => .error e
    | .ok existing =>
      let remaining_field_ids := schema.fields_pre_order.map Field.id
      let final_fragments := existing.map fun frag =>
        { frag with files := frag.files.filter fun file =>
            file.fields.any fun field_id => remaining_field_ids.contains field_id }
      .ok (final_fragments, retain_relevant_indices current_indices schema final_fragments,
        next_row_id)
  | .restore _ => .error (.panic "unreachable")
  | .dataReplacement replacements =>
    if ((replacements.map fun r => r.2.fields).dedup).length > 1 then
      .error (.invalidInput "All new data files must have the same fields")
    else
      match existing_q with
      | .error e => .error e
      | .ok existing =>
        match dataReplacementGo existing replacements with
        | .error e => .error e
        | .ok modified =>
          let fragments_changed := replacements.map fun r => r.1
          let unmodified := existing.filter fun f => !fragments_changed.contains f.id
          .ok (modified ++ unmodified, current_indices, next_row_id)
  | .updateMemWalState _ _ _ =>
    .ok ([], update_mem_wal_index_in_indices_list current_indices, next_row_id)

/-- `Transaction::build_manifest` (transaction.rs). -/
def Transaction.build_manifest (tx : Transaction) (current_manifest : Option Manifest)
    (current_indices : List Index) (transaction_file_path : String)
    (config : ManifestWriteConfig) (new_blob_version : Option Nat) :
    Except Err (Manifest × List Index) :=
  if config.use_move_stable_row_ids &&
      (match current_manifest with
       | some m => !m.uses_move_stable_row_ids
       | none => false) then
    .error (.notSupported "Cannot enable stable row ids on existing dataset")
  else
    match (match tx.operation with
           | .overwrite _ schema _ => .ok schema
           | .merge _ schema => .ok schema
           | .project schema => .ok schema
           | _ =>
             match current_manifest with
             | some m => .ok m.schema
             | none => .error (.internal "Cannot create a new dataset without a schema") :
           Except Err Schema) with
    | .error e => .error e
    | .ok schema =>
      let fragment_id :=
        match tx.operation with
        | .overwrite _ _ _ => 0
        | _ =>
          match current_manifest with
          | some m => (m.maxFragmentIdHW.map fun id => id + 1).getD 0
          | none => 0
      match (match current_manifest with
             | some m =>
               if m.uses_move_stable_row_ids then .ok (some m.next_row_id)
               else if config.use_move_stable_row_ids then
                 .error (.notSupported "Cannot enable stable row ids on existing dataset")
               else .ok none
             | none =>
               if config.use_move_stable_row_ids then .ok (some 0) else .ok none :
             Except Err (Option Nat)) with
      | .error e => .error e
      | .ok next_row_id =>
        match applyOperation tx.operation current_manifest current_indices schema
            fragment_id next_row_id with
        | .error e => .error e
        | .ok (final_fragments, final_indices, next_row_out) =>
          let final_sorted := sortFragmentsById final_fragments
          let user_requested_version : Option LanceFileVersion :=
            match config.storage_format, config.use_legacy_format with
            | some sf, _ => some sf
            | none, some true => some .legacy
            | none, some false => some .v2_0
            | none, none => none
          match (match current_manifest with
                 | some cm =>
                   let m0 := Manifest.new_from_previous cm schema final_sorted new_blob_version
                   .ok (match user_requested_version, tx.operation with
                        | some v, .overwrite _ _ _ => { m0 with data_storage_format := ⟨v⟩ }
                        | _, _ => m0)
                 | none =>
                   match data_storage_format_from_files final_sorted user_requested_version with
                   | .error e => .error e
                   | .ok dsf => .ok (Manifest.new schema final_sorted dsf new_blob_version) :
                 Except Err Manifest) with
          | .error e => .error e
          | .ok m1 =>
            let m2 := { m1 with tag := tx.tag }
            let m3 :=
              if config.auto_set_feature_flags then
                apply_feature_flags m2 config.use_move_stable_row_ids
              else m2
            let m4 := m3.set_timestamp (timestamp_to_nanos config.timestamp)
            let m5 := m4.update_max_fragment_id
            let m6 :=
              match tx.operation with
              | .overwrite _ _ (some tm) => m5.update_config tm
              | .updateConfig upsert_values delete_keys schema_metadata field_metadata =>
                let a :=
                  match delete_keys with
                  | some ks => m5.delete_config_keys ks
                  | none => m5
                let b :=
                  match upsert_values with
                  | some uv => a.update_config uv
                  | none => a
                let c :=
                  match schema_metadata with
                  | some smd => b.replace_schema_metadata smd
                  | none => b
                match field_metadata with
                | some fmd =>
                  fmd.foldl
                    (fun acc (kv : Nat × List (String × String)) =>
                      acc.replace_field_metadata (kv.1 : Int) kv.2) c
                | none => c
              | _ => m5
            let m7 :=
              match tx.operation with
              | .reserveFragments num_fragments =>
                { m6 with max_fragment_id := some (m6.max_fragment_id.getD 0 + num_fragments) }
              | _ => m6
            let m8 := { m7 with transaction_file := some transaction_file_path }
            let m9 :=
              match next_row_out with
              | some n => { m8 with next_row_id := n }
              | none => m8
            .ok (m9, final_indices)

/-! ### Row-id assignment (C2) -/

/-- Total number of physical rows of a fragment list (absent counts as 0;
it is only read under an all-present hypothesis). -/
def totalRows (frags : List Fragment) : Nat :=
  (frags.map fun f => f.physical_rows.getD 0).sum

/-- The fragment list with contiguous row-id ranges assigned in order from
`n`: the expected output of `assign_row_ids`. -/
def assignedFrags : Nat → List Fragment → List Fragment
  | _, [] => []
  | n, f :: fs =>
    { f with row_id_meta := some (.inline n (f.physical_rows.getD 0)) } ::
      assignedFrags (n + f.physical_rows.getD 0) fs

theorem assign_row_ids_ok (n : Nat) (frags : List Fragment)
    (h : ∀ f ∈ frags, f.physical_rows.isSome = true) :
    assign_row_ids n frags = .ok (assignedFrags n frags, n + totalRows frags) := by
  induction frags generalizing n with
  | nil => simp [assign_row_ids, assignedFrags, totalRows]
  | cons f fs ih =>
    have hf : f.physical_rows.isSome = true := h f (by simp)
    obtain ⟨r, hr⟩ := Option.isSome_iff_exists.mp hf
    have htail : ∀ g ∈ fs, g.physical_rows.isSome = true := fun g hg => h g (by simp [hg])
    simp only [assign_row_ids, hr, ih (n + r) htail, assignedFrags, totalRows, hr,
      List.map_cons, List.sum_cons, Option.getD_some]
    rw [Nat.add_assoc]

theorem assign_row_ids_err (n : Nat) (frags : List Fragment)
    (h : ∃ f ∈ frags, f.physical_rows = none) :
    assign_row_ids n frags = .error (.internal "Fragment does not have physical rows") := by
  induction frags generalizing n with
  | nil => simp at h
  | cons f fs ih =>
    rcases h with ⟨g, hg, hnone⟩
    rcases List.mem_cons.mp hg with rfl | hmem
    · simp [assign_row_ids, hnone]
    · cases hf : g.physical_rows with
      | none =>
        cases hfh : f.physical_rows with
        | none => simp [assign_row_ids, hfh]
        | some r => simp [assign_row_ids, hfh, ih (n + r) ⟨g, hmem, hf⟩]
      | some _ => exact absurd hf (by simp [hnone])

theorem fragments_with_ids_physical_rows (frags : List Fragment) (c : Nat) :
    (fragments_with_ids frags c).1.map Fragment.physical_rows =
      frags.map Fragment.physical_rows := by
  induction frags generalizing c with
  | nil => rfl
  | cons f fs ih =>
    simp only [fragments_with_ids]
    cases h : (f.id == 0) <;> simp [ih]

theorem fragments_with_ids_all_rows (frags : List Fragment) (c : Nat)
    (h : ∀ f ∈ frags, f.physical_rows.isSome = true) :
    ∀ f ∈ (fragments_with_ids frags c).1, f.physical_rows.isSome = true := by
  intro f hf
  have hmap := fragments_with_ids_physical_rows frags c
  have : f.physical_rows ∈ (fragments_with_ids frags c).1.map Fragment.physical_rows :=
    List.mem_map_of_mem _ hf
  rw [hmap] at this
  obtain ⟨g, hg, hgf⟩ := List.mem_map.mp this
  rw [← hgf]
  exact h g hg

theorem totalRows_fragments_with_ids (frags : List Fragment) (c : Nat) :
    totalRows (fragments_with_ids frags c).1 = totalRows frags := by
  unfold totalRows
  have h1 : (fragments_with_ids frags c).1.map (fun f => f.physical_rows.getD 0) =
      ((fragments_with_ids frags c).1.map Fragment.physical_rows).map
        (fun o => o.getD 0) := by
    rw [List.map_map]; rfl
  have h2 : frags.map (fun f => f.physical_rows.getD 0) =
      (frags.map Fragment.physical_rows).map (fun o => o.getD 0) := by
    rw [List.map_map]; rfl
  rw [h1, h2, fragments_with_ids_physical_rows]

theorem build_manifest_append_row_ids (rv : Nat) (uid : String) (tg : Option String)
    (blobs : Option Operation) (fragments : List Fragment) (m : Manifest)
    (idxs : List Index) (tfp : String) (config : ManifestWriteConfig) (nbv : Option Nat)
    (hm : m.uses_move_stable_row_ids = true)
    (hall : ∀ f ∈ fragments, f.physical_rows.isSome = true) :
    ∃ p, Transaction.build_manifest ⟨rv, uid, .append fragments, blobs, tg⟩ (some m) idxs
        tfp config nbv = .ok p ∧
      p.1.next_row_id = m.next_row_id + totalRows fragments ∧
      p.1.fragments = sortFragmentsById (m.fragments ++
        assignedFrags m.next_row_id
          (fragments_with_ids fragments
            ((m.maxFragmentIdHW.map fun i => i + 1).getD 0)).1) := by
  obtain ⟨af, ts, umv, ulf, sf⟩ := config
  have hall' := fragments_with_ids_all_rows fragments
    ((m.maxFragmentIdHW.map fun i => i + 1).getD 0) hall
  simp only [Transaction.build_manifest, hm, Bool.not_true, Bool.and_false,
    applyOperation, maybeExistingFragments, Operation.name, assignRowIdsOpt,
    assign_row_ids_ok _ _ hall', Bool.false_eq_true, if_false, reduceIte,
    totalRows_fragments_with_ids]
  rcases sf with _ | v <;> rcases ulf with _ | b <;> (try cases b) <;>
    cases af <;> cases umv <;> exact ⟨_, rfl, rfl, rfl⟩

theorem fragments_with_ids_files (frags : List Fragment) (c : Nat) :
    (fragments_with_ids frags c).1.map Fragment.files = frags.map Fragment.files := by
  induction frags generalizing c with
  | nil => rfl
  | cons f fs ih =>
    simp only [fragments_with_ids]
    cases h : (f.id == 0) <;> simp [ih]

theorem assignedFrags_files (n : Nat) (frags : List Fragment) :
    (assignedFrags n frags).map Fragment.files = frags.map Fragment.files := by
  induction frags generalizing n with
  | nil => rfl
  | cons f fs ih => simp [assignedFrags, ih]

theorem insertFragByKey_mem (a x : Fragment) (l : List Fragment) :
    a ∈ insertFragByKey x l ↔ a = x ∨ a ∈ l := by
  induction l with
  | nil => simp [insertFragByKey]
  | cons y ys ih =>
    simp only [insertFragByKey]
    split
    · simp [ih]
    · simp [ih]
      tauto

theorem sortFragmentsById_mem (a : Fragment) (l : List Fragment) :
    a ∈ sortFragmentsById l → a ∈ l := by
  have key : ∀ (l acc : List Fragment),
      a ∈ List.foldl (fun acc x => insertFragByKey x acc) acc l → a ∈ acc ∨ a ∈ l := by
    intro l
    induction l with
    | nil => intro acc h; exact Or.inl h
    | cons x xs ih =>
      intro acc h
      rcases ih (insertFragByKey x acc) h with h' | h'
      · rcases (insertFragByKey_mem a x acc).mp h' with rfl | h''
        · exact Or.inr (by simp)
        · exact Or.inl h''
      · exact Or.inr (by simp [h'])
  intro h
  rcases key l [] h with h' | h'
  · simp at h'
  · exact h'

theorem flatMap_files_nil (l : List Fragment) (h : ∀ f ∈ l, f.files = []) :
    l.flatMap Fragment.files = [] := by
  induction l with
  | nil => rfl
  | cons f fs ih =>
    simp only [List.flatMap_cons, h f (by simp), List.nil_append]
    exact ih fun g hg => h g (by simp [hg])

theorem try_infer_version_no_files (l : List Fragment) (h : ∀ f ∈ l, f.files = []) :
    try_infer_version l = .ok none := by
  simp [try_infer_version, flatMap_files_nil l h]

theorem build_manifest_overwrite_first_version (rv : Nat) (uid : String)
    (tg : Option String) (blobs : Option Operation) (fragments : List Fragment)
    (sch : Schema) (cup : Option (List (String × String))) (idxs : List Index)
    (tfp : String) (config : ManifestWriteConfig) (nbv : Option Nat)
    (humv : config.use_move_stable_row_ids = true)
    (hfiles : ∀ f ∈ fragments, f.files = [])
    (hall : ∀ f ∈ fragments, f.physical_rows.isSome = true) :
    ∃ p, Transaction.build_manifest ⟨rv, uid, .overwrite fragments sch cup, blobs, tg⟩
        none idxs tfp config nbv = .ok p ∧
      p.1.next_row_id = totalRows fragments ∧
      p.1.fragments = sortFragmentsById (assignedFrags 0 (fragments_with_ids fragments 0).1) := by
  obtain ⟨af, ts, umv, ulf, sf⟩ := config
  simp only at humv
  subst humv
  have hall' := fragments_with_ids_all_rows fragments 0 hall
  have hfiles' : ∀ f ∈ sortFragmentsById (assignedFrags 0 (fragments_with_ids fragments 0).1),
      f.files = [] := by
    intro f hf
    have hmem := sortFragmentsById_mem f _ hf
    have : f.files ∈ (assignedFrags 0 (fragments_with_ids fragments 0).1).map Fragment.files :=
      List.mem_map_of_mem _ hmem
    rw [assignedFrags_files, fragments_with_ids_files] at this
    obtain ⟨g, hg, hgf⟩ := List.mem_map.mp this
    rw [← hgf]
    exact hfiles g hg
  have hinfer := try_infer_version_no_files _ hfiles'
  simp only [Transaction.build_manifest, applyOperation, assignRowIdsOpt,
    assign_row_ids_ok 0 _ hall', Nat.zero_add, totalRows_fragments_with_ids,
    data_storage_format_from_files, hinfer, Bool.true_and, Bool.and_false,
    Bool.false_eq_true, if_false, reduceIte]
  rcases cup with _ | tm <;> rcases sf with _ | v <;> rcases ulf with _ | b <;>
    (try cases b) <;> cases af <;> exact ⟨_, rfl, rfl, rfl⟩

/-- The retained (non-removed, possibly replaced) prior fragments of the
Update arm of `build_manifest`. -/
def updateKept (removed_fragment_ids : List Nat) (updated_fragments existing : List Fragment) :
    List Fragment :=
  existing.filterMap fun f =>
    if removed_fragment_ids.contains f.id then none
    else match updated_fragments.find? fun uf => uf.id == f.id with
      | some updated => some updated
      | none => some f

theorem build_manifest_update_row_ids (rv : Nat) (uid : String) (tg : Option String)
    (blobs : Option Operation) (removed : List Nat) (updated new_fragments : List Fragment)
    (fm : List Nat) (mw : Option MemWal) (m : Manifest) (idxs : List Index) (tfp : String)
    (config : ManifestWriteConfig) (nbv : Option Nat)
    (hm : m.uses_move_stable_row_ids = true)
    (hall : ∀ f ∈ new_fragments, f.physical_rows.isSome = true) :
    ∃ p, Transaction.build_manifest
        ⟨rv, uid, .update removed updated new_fragments fm mw, blobs, tg⟩ (some m) idxs
        tfp config nbv = .ok p ∧
      p.1.next_row_id = m.next_row_id + totalRows new_fragments ∧
      p.1.fragments = sortFragmentsById (updateKept removed updated m.fragments ++
        assignedFrags m.next_row_id
          (fragments_with_ids new_fragments
            ((m.maxFragmentIdHW.map fun i => i + 1).getD 0)).1) := by
  obtain ⟨af, ts, umv, ulf, sf⟩ := config
  have hall' := fragments_with_ids_all_rows new_fragments
    ((m.maxFragmentIdHW.map fun i => i + 1).getD 0) hall
  simp only [Transaction.build_manifest, hm, Bool.not_true, Bool.and_false,
    applyOperation, maybeExistingFragments, Operation.name, assignRowIdsOpt,
    assign_row_ids_ok _ _ hall', Bool.false_eq_true, if_false, reduceIte,
    totalRows_fragments_with_ids, updateKept]
  rcases sf with _ | v <;> rcases ulf with _ | b <;> (try cases b) <;>
    cases af <;> cases umv <;> exact ⟨_, rfl, rfl, rfl⟩

/-- **C2.** With stable row ids in effect, `build_manifest` gives the new
fragments of an Append, Update or Overwrite contiguous inline row-id ranges
`[next_row_id, next_row_id + physical_rows)` in order, starting from the
prior manifest's `next_row_id` (or from 0 on the first version); the
produced manifest's `next_row_id` is the end of the last range; and a new
fragment without `physical_rows` is an internal error. -/
theorem row_id_assignment_correct :
    (∀ (n : Nat) (frags : List Fragment),
       (∀ f ∈ frags, f.physical_rows.isSome = true) →
       assign_row_ids n frags = .ok (assignedFrags n frags, n + totalRows frags)) ∧
    (∀ (n : Nat) (frags : List Fragment), (∃ f ∈ frags, f.physical_rows = none) →
       assign_row_ids n frags = .error (.internal "Fragment does not have physical rows")) ∧
    (∀ (rv : Nat) (uid : String) (tg : Option String) (blobs : Option Operation)
       (fragments : List Fragment) (m : Manifest) (idxs : List Index) (tfp : String)
       (config : ManifestWriteConfig) (nbv : Option Nat),
       m.uses_move_stable_row_ids = true →
       (∀ f ∈ fragments, f.physical_rows.isSome = true) →
       ∃ p, Transaction.build_manifest ⟨rv, uid, .append fragments, blobs, tg⟩ (some m) idxs
           tfp config nbv = .ok p ∧
         p.1.next_row_id = m.next_row_id + totalRows fragments ∧
         p.1.fragments = sortFragmentsById (m.fragments ++
           assignedFrags m.next_row_id
             (fragments_with_ids fragments
               ((m.maxFragmentIdHW.map fun i => i + 1).getD 0)).1)) ∧
    (∀ (rv : Nat) (uid : String) (tg : Option String) (blobs : Option Operation)
       (removed : List Nat) (updated new_fragments : List Fragment) (fm : List Nat)
       (mw : Option MemWal) (m : Manifest) (idxs : List Index) (tfp : String)
       (config : ManifestWriteConfig) (nbv : Option Nat),
       m.uses_move_stable_row_ids = true →
       (∀ f ∈ new_fragments, f.physical_rows.isSome = true) →
       ∃ p, Transaction.build_manifest
           ⟨rv, uid, .update removed updated new_fragments fm mw, blobs, tg⟩ (some m) idxs
           tfp config nbv = .ok p ∧
         p.1.next_row_id = m.next_row_id + totalRows new_fragments ∧
         p.1.fragments = sortFragmentsById (updateKept removed updated m.fragments ++
           assignedFrags m.next_row_id
             (fragments_with_ids new_fragments
               ((m.maxFragmentIdHW.map fun i => i + 1).getD 0)).1)) ∧
    (∀ (rv : Nat) (uid : String) (tg : Option String) (blobs : Option Operation)
       (fragments : List Fragment) (sch : Schema)
       (cup : Option (List (String × String))) (idxs : List Index) (tfp : String)
       (config : ManifestWriteConfig) (nbv : Option Nat),
       config.use_move_stable_row_ids = true →
       (∀ f ∈ fragments, f.files = []) →
       (∀ f ∈ fragments, f.physical_rows.isSome = true) →
       ∃ p, Transaction.build_manifest ⟨rv, uid, .overwrite fragments sch cup, blobs, tg⟩
           none idxs tfp config nbv = .ok p ∧
         p.1.next_row_id = totalRows fragments ∧
         p.1.fragments =
           sortFragmentsById (assignedFrags 0 (fragments_with_ids fragments 0).1)) :=
  ⟨assign_row_ids_ok, assign_row_ids_err,
   fun rv uid tg blobs fragments m idxs tfp config nbv hm hall =>
     build_manifest_append_row_ids rv uid tg blobs fragments m idxs tfp config nbv hm hall,
   fun rv uid tg blobs removed updated nf fm mw m idxs tfp config nbv hm hall =>
     build_manifest_update_row_ids rv uid tg blobs removed updated nf fm mw m idxs tfp
       config nbv hm hall,
   fun rv uid tg blobs fragments sch cup idxs tfp config nbv humv hfiles hall =>
     build_manifest_overwrite_first_version rv uid tg blobs fragments sch cup idxs tfp
       config nbv humv hfiles hall⟩

/-- A manifest with the stable-row-id reader flag set, for exercising C2. -/
def rowIdManifest : Manifest :=
  { version := 3, schema := ⟨[], []⟩, fragments := [⟨1, [], some 10, none⟩],
    next_row_id := 100, max_fragment_id := none, reader_feature_flags := 2,
    writer_feature_flags := 2, config := [], timestamp_nanos := 0, tag := none,
    transaction_file := none, data_storage_format := ⟨.v2_0⟩, blob_dataset_version := none }

/-- A write config that does not request stable row ids. -/
def plainWriteConfig : ManifestWriteConfig :=
  { auto_set_feature_flags := false, timestamp := some 7, use_move_stable_row_ids := false,
    use_legacy_format := none, storage_format := none }

/-- A write config requesting stable row ids. -/
def stableWriteConfig : ManifestWriteConfig :=
  { auto_set_feature_flags := true, timestamp := some 7, use_move_stable_row_ids := true,
    use_legacy_format := none, storage_format := none }

theorem row_id_assignment_correct_witness :
    assign_row_ids 5 [⟨0, [], some 3, none⟩, ⟨0, [], some 4, none⟩] =
      .ok (assignedFrags 5 [⟨0, [], some 3, none⟩, ⟨0, [], some 4, none⟩],
        5 + totalRows [⟨0, [], some 3, none⟩, ⟨0, [], some 4, none⟩]) ∧
    assign_row_ids 0 [⟨0, [], none, none⟩] =
      .error (.internal "Fragment does not have physical rows") ∧
    (∃ p, Transaction.build_manifest ⟨3, "u", .append [⟨0, [], some 2, none⟩], none, none⟩
        (some rowIdManifest) [] "t" plainWriteConfig none = .ok p ∧
      p.1.next_row_id = rowIdManifest.next_row_id + totalRows [⟨0, [], some 2, none⟩] ∧
      p.1.fragments = sortFragmentsById (rowIdManifest.fragments ++
        assignedFrags rowIdManifest.next_row_id
          (fragments_with_ids [⟨0, [], some 2, none⟩]
            ((rowIdManifest.maxFragmentIdHW.map fun i => i + 1).getD 0)).1)) ∧
    (∃ p, Transaction.build_manifest
        ⟨3, "u", .update [1] [] [⟨0, [], some 2, none⟩] [] none, none, none⟩
        (some rowIdManifest) [] "t" plainWriteConfig none = .ok p ∧
      p.1.next_row_id = rowIdManifest.next_row_id + totalRows [⟨0, [], some 2, none⟩] ∧
      p.1.fragments = sortFragmentsById (updateKept [1] [] rowIdManifest.fragments ++
        assignedFrags rowIdManifest.next_row_id
          (fragments_with_ids [⟨0, [], some 2, none⟩]
            ((rowIdManifest.maxFragmentIdHW.map fun i => i + 1).getD 0)).1)) ∧
    (∃ p, Transaction.build_manifest
        ⟨0, "u", .overwrite [⟨0, [], some 2, none⟩] ⟨[], []⟩ none, none, none⟩
        none [] "t" stableWriteConfig none = .ok p ∧
      p.1.next_row_id = totalRows [⟨0, [], some 2, none⟩] ∧
      p.1.fragments = sortFragmentsById
        (assignedFrags 0 (fragments_with_ids [⟨0, [], some 2, none⟩] 0).1)) :=
  ⟨row_id_assignment_correct.1 5 _ (by decide),
   row_id_assignment_correct.2.1 0 _ ⟨⟨0, [], none, none⟩, by simp, rfl⟩,
   row_id_assignment_correct.2.2.1 3 "u" none none _ rowIdManifest [] "t" plainWriteConfig
     none (by decide) (by decide),
   row_id_assignment_correct.2.2.2.1 3 "u" none none [1] [] _ [] none rowIdManifest [] "t"
     plainWriteConfig none (by decide) (by decide),
   row_id_assignment_correct.2.2.2.2 0 "u" none none _ ⟨[], []⟩ none [] "t"
     stableWriteConfig none (by decide) (by decide) (by decide)⟩

/-! ### Index retention (C6) -/

theorem insertFragByKey_perm (x : Fragment) (l : List Fragment) :
    List.Perm (insertFragByKey x l) (x :: l) := by
  induction l with
  | nil => rfl
  | cons y ys ih =>
    simp only [insertFragByKey]
    split
    · rfl
    · exact (ih.cons y).trans (List.Perm.swap x y ys)

theorem sortFragmentsById_perm (l : List Fragment) : List.Perm (sortFragmentsById l) l := by
  have key : ∀ (l acc : List Fragment),
      List.Perm (List.foldl (fun acc x => insertFragByKey x acc) acc l) (acc ++ l) := by
    intro l
    induction l with
    | nil => intro acc; simp
    | cons x xs ih =>
      intro acc
      refine ((ih (insertFragByKey x acc)).trans ?_)
      refine (((insertFragByKey_perm x acc).append_right xs).trans ?_)
      exact List.perm_middle.symm
  simpa using key l []

theorem sortFragmentsById_mem_iff (a : Fragment) (l : List Fragment) :
    a ∈ sortFragmentsById l ↔ a ∈ l :=
  (sortFragmentsById_perm l).mem_iff

theorem retain_relevant_indices_mem (indices : List Index) (schema : Schema)
    (fragments : List Fragment) (idx : Index) :
    idx ∈ retain_relevant_indices indices schema fragments ↔
      idx ∈ indices ∧ (is_system_index idx = true ∨
        ((∀ fid ∈ idx.fields, fid ∈ schema.fields_pre_order.map Field.id) ∧
         (idx.fragment_bitmap = none ∨
          ∃ bm, idx.fragment_bitmap = some bm ∧ ∃ fr ∈ fragments, fr.id ∈ bm))) := by
  unfold retain_relevant_indices
  cases hsys : is_system_index idx with
  | true => simp [hsys, List.mem_filter, and_assoc]
  | false =>
    simp only [List.mem_filter, hsys, Bool.or_false, List.all_eq_true, Bool.false_eq_true,
      false_or, and_assoc]
    constructor
    · rintro ⟨hmem, hfields, hcond⟩
      refine ⟨hmem, fun fid hfid => List.elem_iff.mp (hfields fid hfid), ?_⟩
      cases hbm : idx.fragment_bitmap with
      | none => exact Or.inl rfl
      | some bm =>
        simp only [hbm] at hcond
        refine Or.inr ⟨bm, rfl, ?_⟩
        have hne : (bm ∩ (fragments.map Fragment.id).toFinset).Nonempty :=
          of_decide_eq_true hcond
        obtain ⟨x, hx⟩ := hne
        rw [Finset.mem_inter, List.mem_toFinset, List.mem_map] at hx
        obtain ⟨hxbm, fr, hfr, hfrx⟩ := hx
        exact ⟨fr, hfr, by rw [hfrx]; exact hxbm⟩
    · rintro ⟨hmem, hfields, hcond⟩
      refine ⟨hmem, fun fid hfid => List.elem_iff.mpr (hfields fid hfid), ?_⟩
      rcases hcond with hnone | ⟨bm, hbm, fr, hfr, hid⟩
      · simp [hnone]
      · simp only [hbm]
        refine decide_eq_true ⟨fr.id, ?_⟩
        rw [Finset.mem_inter, List.mem_toFinset, List.mem_map]
        exact ⟨hid, fr, hfr, rfl⟩

/-- The fragment list produced by the Delete arm of `build_manifest`:
deleted ids dropped, each survivor replaced by the last matching updated
fragment when one exists. -/
def deleteFinal (updated_fragments : List Fragment) (deleted_fragment_ids : List Nat)
    (existing : List Fragment) : List Fragment :=
  (existing.filter fun f => !deleted_fragment_ids.contains f.id).map fun f =>
    ((updated_fragments.filter fun uf => uf.id == f.id).getLast?).getD f

/-- The fragment list produced by the Project arm of `build_manifest`: data
files covering no remaining field are dropped. -/
def projectFinal (schema : Schema) (existing : List Fragment) : List Fragment :=
  let remaining_field_ids := schema.fields_pre_order.map Field.id
  existing.map fun frag =>
    { frag with files := frag.files.filter fun file =>
        file.fields.any fun field_id => remaining_field_ids.contains field_id }

theorem build_manifest_delete_indices (rv : Nat) (uid : String) (tg : Option String)
    (blobs : Option Operation) (updated : List Fragment) (deleted : List Nat)
    (pred : String) (m : Manifest) (idxs : List Index) (tfp : String)
    (config : ManifestWriteConfig) (nbv : Option Nat)
    (hms : m.uses_move_stable_row_ids = false)
    (hcfg : config.use_move_stable_row_ids = false) :
    ∃ p, Transaction.build_manifest ⟨rv, uid, .delete updated deleted pred, blobs, tg⟩
        (some m) idxs tfp config nbv = .ok p ∧
      p.2 = retain_relevant_indices idxs m.schema (deleteFinal updated deleted m.fragments) ∧
      p.1.fragments = sortFragmentsById (deleteFinal updated deleted m.fragments) := by
  obtain ⟨af, ts, umv, ulf, sf⟩ := config
  simp only at hcfg
  subst hcfg
  simp only [Transaction.build_manifest, hms, applyOperation, maybeExistingFragments,
    Operation.name, Bool.false_and, Bool.false_eq_true, if_false, reduceIte, deleteFinal]
  rcases sf with _ | v <;> rcases ulf with _ | b <;> (try cases b) <;>
    cases af <;> exact ⟨_, rfl, rfl, rfl⟩

theorem build_manifest_merge_indices (rv : Nat) (uid : String) (tg : Option String)
    (blobs : Option Operation) (fragments : List Fragment) (sch : Schema) (m : Manifest)
    (idxs : List Index) (tfp : String) (config : ManifestWriteConfig) (nbv : Option Nat)
    (hms : m.uses_move_stable_row_ids = false)
    (hcfg : config.use_move_stable_row_ids = false) :
    ∃ p, Transaction.build_manifest ⟨rv, uid, .merge fragments sch, blobs, tg⟩
        (some m) idxs tfp config nbv = .ok p ∧
      p.2 = retain_relevant_indices idxs sch fragments ∧
      p.1.fragments = sortFragmentsById fragments := by
  obtain ⟨af, ts, umv, ulf, sf⟩ := config
  simp only at hcfg
  subst hcfg
  simp only [Transaction.build_manifest, hms, applyOperation, maybeExistingFragments,
    Operation.name, Bool.false_and, Bool.false_eq_true, if_false, reduceIte]
  rcases sf with _ | v <;> rcases ulf with _ | b <;> (try cases b) <;>
    cases af <;> exact ⟨_, rfl, rfl, rfl⟩

theorem build_manifest_project_indices (rv : Nat) (uid : String) (tg : Option String)
    (blobs : Option Operation) (sch : Schema) (m : Manifest) (idxs : List Index)
    (tfp : String) (config : ManifestWriteConfig) (nbv : Option Nat)
    (hms : m.uses_move_stable_row_ids = false)
    (hcfg : config.use_move_stable_row_ids = false) :
    ∃ p, Transaction.build_manifest ⟨rv, uid, .project sch, blobs, tg⟩
        (some m) idxs tfp config nbv = .ok p ∧
      p.2 = retain_relevant_indices idxs sch (projectFinal sch m.fragments) ∧
      p.1.fragments = sortFragmentsById (projectFinal sch m.fragments) := by
  obtain ⟨af, ts, umv, ulf, sf⟩ := config
  simp only at hcfg
  subst hcfg
  simp only [Transaction.build_manifest, hms, applyOperation, maybeExistingFragments,
    Operation.name, Bool.false_and, Bool.false_eq_true, if_false, reduceIte, projectFinal]
  rcases sf with _ | v <;> rcases ulf with _ | b <;> (try cases b) <;>
    cases af <;> exact ⟨_, rfl, rfl, rfl⟩

/-- **C6.** Index retention after Delete, Merge and Project: `build_manifest`
filters the index list through `retain_relevant_indices` against the
resulting schema and fragment list, and an index survives that filter iff it
is a system index, or all its field ids still exist in the schema and its
fragment bitmap is absent or still overlaps the surviving fragments. -/
theorem index_retention_correct :
    (∀ (indices : List Index) (schema : Schema) (fragments : List Fragment) (idx : Index),
       idx ∈ retain_relevant_indices indices schema fragments ↔
         idx ∈ indices ∧ (is_system_index idx = true ∨
           ((∀ fid ∈ idx.fields, fid ∈ schema.fields_pre_order.map Field.id) ∧
            (idx.fragment_bitmap = none ∨
             ∃ bm, idx.fragment_bitmap = some bm ∧ ∃ fr ∈ fragments, fr.id ∈ bm)))) ∧
    (∀ (rv : Nat) (uid : String) (tg : Option String) (blobs : Option Operation)
       (updated : List Fragment) (deleted : List Nat) (pred : String) (m : Manifest)
       (idxs : List Index) (tfp : String) (config : ManifestWriteConfig) (nbv : Option Nat),
       m.uses_move_stable_row_ids = false → config.use_move_stable_row_ids = false →
       ∃ p, Transaction.build_manifest ⟨rv, uid, .delete updated deleted pred, blobs, tg⟩
           (some m) idxs tfp config nbv = .ok p ∧
         p.2 = retain_relevant_indices idxs m.schema
           (deleteFinal updated deleted m.fragments) ∧
         p.1.fragments = sortFragmentsById (deleteFinal updated deleted m.fragments)) ∧
    (∀ (rv : Nat) (uid : String) (tg : Option String) (blobs : Option Operation)
       (fragments : List Fragment) (sch : Schema) (m : Manifest) (idxs : List Index)
       (tfp : String) (config : ManifestWriteConfig) (nbv : Option Nat),
       m.uses_move_stable_row_ids = false → config.use_move_stable_row_ids = false →
       ∃ p, Transaction.build_manifest ⟨rv, uid, .merge fragments sch, blobs, tg⟩
           (some m) idxs tfp config nbv = .ok p ∧
         p.2 = retain_relevant_indices idxs sch fragments ∧
         p.1.fragments = sortFragmentsById fragments) ∧
    (∀ (rv : Nat) (uid : String) (tg : Option String) (blobs : Option Operation)
       (sch : Schema) (m : Manifest) (idxs : List Index) (tfp : String)
       (config : ManifestWriteConfig) (nbv : Option Nat),
       m.uses_move_stable_row_ids = false → config.use_move_stable_row_ids = false →
       ∃ p, Transaction.build_manifest ⟨rv, uid, .project sch, blobs, tg⟩
           (some m) idxs tfp config nbv = .ok p ∧
         p.2 = retain_relevant_indices idxs sch (projectFinal sch m.fragments) ∧
         p.1.fragments = sortFragmentsById (projectFinal sch m.fragments)) :=
  ⟨retain_relevant_indices_mem,
   fun rv uid tg blobs updated deleted pred m idxs tfp config nbv hms hcfg =>
     build_manifest_delete_indices rv uid tg blobs updated deleted pred m idxs tfp config
       nbv hms hcfg,
   fun rv uid tg blobs fragments sch m idxs tfp config nbv hms hcfg =>
     build_manifest_merge_indices rv uid tg blobs fragments sch m idxs tfp config nbv
       hms hcfg,
   fun rv uid tg blobs sch m idxs tfp config nbv hms hcfg =>
     build_manifest_project_indices rv uid tg blobs sch m idxs tfp config nbv hms hcfg⟩

/-- A plain manifest (no feature flags) for exercising C6. -/
def plainManifest : Manifest :=
  { version := 1, schema := sampleSchema,
    fragments := [⟨1, [], some 5, none⟩, ⟨2, [], some 5, none⟩], next_row_id := 0,
    max_fragment_id := none, reader_feature_flags := 0, writer_feature_flags := 0,
    config := [], timestamp_nanos := 0, tag := none, transaction_file := none,
    data_storage_format := ⟨.v2_0⟩, blob_dataset_version := none }

theorem index_retention_correct_witness :
    (∃ p, Transaction.build_manifest ⟨1, "u", .delete [] [1] "p", none, none⟩
        (some plainManifest) [] "t" plainWriteConfig none = .ok p ∧
      p.2 = retain_relevant_indices [] plainManifest.schema
        (deleteFinal [] [1] plainManifest.fragments) ∧
      p.1.fragments = sortFragmentsById (deleteFinal [] [1] plainManifest.fragments)) ∧
    (∃ p, Transaction.build_manifest
        ⟨1, "u", .merge [⟨3, [], some 5, none⟩] sampleSchema, none, none⟩
        (some plainManifest) [] "t" plainWriteConfig none = .ok p ∧
      p.2 = retain_relevant_indices [] sampleSchema [⟨3, [], some 5, none⟩] ∧
      p.1.fragments = sortFragmentsById [⟨3, [], some 5, none⟩]) ∧
    (∃ p, Transaction.build_manifest ⟨1, "u", .project sampleSchema, none, none⟩
        (some plainManifest) [] "t" plainWriteConfig none = .ok p ∧
      p.2 = retain_relevant_indices [] sampleSchema
        (projectFinal sampleSchema plainManifest.fragments) ∧
      p.1.fragments = sortFragmentsById (projectFinal sampleSchema plainManifest.fragments)) :=
  ⟨index_retention_correct.2.1 1 "u" none none [] [1] "p" plainManifest [] "t"
     plainWriteConfig none (by decide) (by decide),
   index_retention_correct.2.2.1 1 "u" none none [⟨3, [], some 5, none⟩] sampleSchema
     plainManifest [] "t" plainWriteConfig none (by decide) (by decide),
   index_retention_correct.2.2.2 1 "u" none none sampleSchema plainManifest [] "t"
     plainWriteConfig none (by decide) (by decide)⟩

/-! ### Rewrite splicing (C4) -/

theorem scanRange_ok_true_iff (frags : List Fragment) (os : List Fragment) (pos : Nat) :
    scanRange frags os pos = .ok true ↔
      ∀ i (h : i < os.length),
        (frags[pos + i]?).map Fragment.id = some (os.get ⟨i, h⟩).id := by
  induction os generalizing pos with
  | nil => simp [scanRange]
  | cons o os ih =>
    simp only [scanRange]
    cases hget : frags[pos]? with
    | none =>
      constructor
      · intro h
        cases h
      · intro h
        have h0 := h 0 (by simp)
        rw [Nat.add_zero, hget] at h0
        simp at h0
    | some f =>
      change (if (f.id == o.id) = true then scanRange frags os (pos + 1)
        else Except.ok false) = Except.ok true ↔ _
      by_cases hid : f.id = o.id
      · rw [if_pos (by simpa using hid), ih (pos + 1)]
        constructor
        · intro h i hi
          cases i with
          | zero =>
            rw [Nat.add_zero, hget]
            simpa using hid
          | succ j =>
            have hj := h j (by simpa using hi)
            rw [show pos + (j + 1) = pos + 1 + j from by omega]
            simpa using hj
        · intro h i hi
          have hj := h (i + 1) (by simpa using Nat.succ_lt_succ hi)
          rw [show pos + 1 + i = pos + (i + 1) from by omega]
          simpa using hj
      · rw [if_neg (by simpa using hid)]
        constructor
        · intro h
          cases h
        · intro h
          have h0 := h 0 (by simp)
          rw [Nat.add_zero, hget] at h0
          simp at h0
          exact absurd h0 hid

theorem insertFragByKey_sorted (x : Fragment) (l : List Fragment)
    (h : l.Sorted fun a b => a.id ≤ b.id) :
    (insertFragByKey x l).Sorted fun a b => a.id ≤ b.id := by
  induction l with
  | nil => simp [insertFragByKey]
  | cons y ys ih =>
    simp only [insertFragByKey]
    rw [List.sorted_cons] at h
    obtain ⟨hy, hys⟩ := h
    split
    · rename_i hlt
      rw [List.sorted_cons]
      refine ⟨?_, by rw [List.sorted_cons]; exact ⟨hy, hys⟩⟩
      intro b hb
      rcases List.mem_cons.mp hb with rfl | hb'
      · omega
      · exact le_trans (by omega) (hy b hb')
    · rename_i hge
      rw [List.sorted_cons]
      refine ⟨?_, ih hys⟩
      intro b hb
      rcases (insertFragByKey_mem b x ys).mp hb with rfl | hb'
      · omega
      · exact hy b hb'

theorem sortFragmentsById_sorted (l : List Fragment) :
    (sortFragmentsById l).Sorted fun a b => a.id ≤ b.id := by
  have key : ∀ (l acc : List Fragment), acc.Sorted (fun a b => a.id ≤ b.id) →
      (List.foldl (fun acc x => insertFragByKey x acc) acc l).Sorted
        fun a b => a.id ≤ b.id := by
    intro l
    induction l with
    | nil => intro acc h; exact h
    | cons x xs ih => intro acc h; exact ih _ (insertFragByKey_sorted x acc h)
  exact key l [] (by simp)

theorem handle_rewrite_single_conflict (frags : List Fragment) (o0 : Fragment)
    (os new : List Fragment) (c v : Nat)
    (hfind : frags.findIdx? (fun f => f.id == o0.id) = none) :
    handle_rewrite_fragments frags [⟨o0 :: os, new⟩] c v =
      .error (.commitConflict v
        "dataset does not contain a fragment a rewrite operation wants to replace") := by
  simp only [handle_rewrite_fragments, hfind]

theorem handle_rewrite_single_splice (frags : List Fragment) (o0 : Fragment)
    (os new : List Fragment) (c v start : Nat)
    (hfind : frags.findIdx? (fun f => f.id == o0.id) = some start)
    (hscan : scanRange frags os (start + 1) = .ok true) :
    handle_rewrite_fragments frags [⟨o0 :: os, new⟩] c v =
      .ok (frags.take start ++ (fragments_with_ids new c).1 ++
        frags.drop (start + (o0 :: os).length), (fragments_with_ids new c).2) := by
  simp only [handle_rewrite_fragments, hfind, hscan, if_true]

theorem handle_rewrite_single_noncontig (frags : List Fragment) (o0 : Fragment)
    (os new : List Fragment) (c v start : Nat)
    (hfind : frags.findIdx? (fun f => f.id == o0.id) = some start)
    (hscan : scanRange frags os (start + 1) = .ok false) :
    handle_rewrite_fragments frags [⟨o0 :: os, new⟩] c v =
      .ok ((o0 :: os).foldl (fun acc old => acc.filter fun f => f.id ≠ old.id) frags ++
        (fragments_with_ids new c).1, (fragments_with_ids new c).2) := by
  simp only [handle_rewrite_fragments, hfind, hscan, if_false, Bool.false_eq_true, reduceIte]

theorem handle_rewrite_single_oob (frags : List Fragment) (o0 : Fragment)
    (os new : List Fragment) (c v start : Nat) (e : Err)
    (hfind : frags.findIdx? (fun f => f.id == o0.id) = some start)
    (hscan : scanRange frags os (start + 1) = .error e) :
    handle_rewrite_fragments frags [⟨o0 :: os, new⟩] c v = .error e := by
  simp only [handle_rewrite_fragments, hfind, hscan]

/-- A bare fragment with a given id. -/
def s4frag (i : Nat) : Fragment := ⟨i, [], some 1, none⟩

/-- The S4 prior manifest: fragments `0..9`, fragment ids up to 16 already
reserved. -/
def s4Manifest : Manifest :=
  { version := 5, schema := ⟨[], []⟩,
    fragments := [s4frag 0, s4frag 1, s4frag 2, s4frag 3, s4frag 4, s4frag 5, s4frag 6,
      s4frag 7, s4frag 8, s4frag 9],
    next_row_id := 0, max_fragment_id := some 16, reader_feature_flags := 0,
    writer_feature_flags := 0, config := [], timestamp_nanos := 0, tag := none,
    transaction_file := none, data_storage_format := ⟨.v2_0⟩, blob_dataset_version := none }

/-- The S4 rewrite: `{1,2} → {15,16}` (contiguous) and `{5,8} → {new}`
(non-contiguous, the new fragment arrives with id 0 and is assigned 17). -/
def s4Tx : Transaction :=
  ⟨5, "u",
   .rewrite [⟨[s4frag 1, s4frag 2], [s4frag 15, s4frag 16]⟩,
             ⟨[s4frag 5, s4frag 8], [⟨0, [], some 1, none⟩]⟩] [] none,
   none, none⟩

/-- **C4 (amended).** Rewrite-group handling: a group whose old ids are
matched in order contiguously from the first occurrence of its first old id
is spliced in place; a group whose first old id is present but whose
remaining ids do not continue contiguously has all its old ids removed and
its new fragments appended; a group whose first old id is absent is a
commit-conflict error (not a remove-and-append); the contiguity scan
characterises the in-order contiguous match; `build_manifest` finally sorts
by fragment id (sorted permutation), and the S4 scenario with ids 15 and 16
previously reserved yields `[0,3,4,6,7,9,15,16,17]`. -/
theorem rewrite_splice_correct :
    (∀ (frags os : List Fragment) (pos : Nat),
       scanRange frags os pos = .ok true ↔
         ∀ i (h : i < os.length),
           (frags[pos + i]?).map Fragment.id = some (os.get ⟨i, h⟩).id) ∧
    (∀ (frags : List Fragment) (o0 : Fragment) (os new : List Fragment) (c v start : Nat),
       frags.findIdx? (fun f => f.id == o0.id) = some start →
       scanRange frags os (start + 1) = .ok true →
       handle_rewrite_fragments frags [⟨o0 :: os, new⟩] c v =
         .ok (frags.take start ++ (fragments_with_ids new c).1 ++
           frags.drop (start + (o0 :: os).length), (fragments_with_ids new c).2)) ∧
    (∀ (frags : List Fragment) (o0 : Fragment) (os new : List Fragment) (c v start : Nat),
       frags.findIdx? (fun f => f.id == o0.id) = some start →
       scanRange frags os (start + 1) = .ok false →
       handle_rewrite_fragments frags [⟨o0 :: os, new⟩] c v =
         .ok ((o0 :: os).foldl (fun acc old => acc.filter fun f => f.id ≠ old.id) frags ++
           (fragments_with_ids new c).1, (fragments_with_ids new c).2)) ∧
    (∀ (frags : List Fragment) (o0 : Fragment) (os new : List Fragment) (c v : Nat),
       frags.findIdx? (fun f => f.id == o0.id) = none →
       handle_rewrite_fragments frags [⟨o0 :: os, new⟩] c v =
         .error (.commitConflict v
           "dataset does not contain a fragment a rewrite operation wants to replace")) ∧
    (∀ l : List Fragment,
       (sortFragmentsById l).Sorted (fun a b => a.id ≤ b.id) ∧
       List.Perm (sortFragmentsById l) l) ∧
    (Transaction.build_manifest s4Tx (some s4Manifest) [] "t" plainWriteConfig
        none).toOption.map (fun p => p.1.fragments.map Fragment.id) =
      some [0, 3, 4, 6, 7, 9, 15, 16, 17] :=
  ⟨scanRange_ok_true_iff,
   fun frags o0 os new c v start hfind hscan =>
     handle_rewrite_single_splice frags o0 os new c v start hfind hscan,
   fun frags o0 os new c v start hfind hscan =>
     handle_rewrite_single_noncontig frags o0 os new c v start hfind hscan,
   fun frags o0 os new c v hfind =>
     handle_rewrite_single_conflict frags o0 os new c v hfind,
   fun l => ⟨sortFragmentsById_sorted l, sortFragmentsById_perm l⟩,
   by decide⟩

/-- **C4 counterexample.** A group whose first old fragment id is absent
from the fragment list is **not** handled by remove-and-append: it is a
commit-conflict error. -/
theorem rewrite_missing_old_commit_conflict :
    handle_rewrite_fragments [s4frag 0] [⟨[s4frag 5], [s4frag 7]⟩] 10 42 =
      .error (.commitConflict 42
        "dataset does not contain a fragment a rewrite operation wants to replace") := rfl

theorem rewrite_splice_correct_witness :
    handle_rewrite_fragments [s4frag 0, s4frag 1, s4frag 2, s4frag 3]
        [⟨[s4frag 1, s4frag 2], [s4frag 8]⟩] 4 1 =
      .ok ([s4frag 0, s4frag 1, s4frag 2, s4frag 3].take 1 ++
        (fragments_with_ids [s4frag 8] 4).1 ++
        [s4frag 0, s4frag 1, s4frag 2, s4frag 3].drop (1 + 2),
        (fragments_with_ids [s4frag 8] 4).2) ∧
    handle_rewrite_fragments [s4frag 0, s4frag 1, s4frag 2, s4frag 3]
        [⟨[s4frag 1, s4frag 3], [s4frag 8]⟩] 4 1 =
      .ok (([s4frag 1, s4frag 3]).foldl (fun acc old => acc.filter fun f => f.id ≠ old.id)
          [s4frag 0, s4frag 1, s4frag 2, s4frag 3] ++
        (fragments_with_ids [s4frag 8] 4).1, (fragments_with_ids [s4frag 8] 4).2) ∧
    handle_rewrite_fragments [s4frag 0] [⟨[s4frag 5], [s4frag 8]⟩] 4 1 =
      .error (.commitConflict 1
        "dataset does not contain a fragment a rewrite operation wants to replace") :=
  ⟨rewrite_splice_correct.2.1 [s4frag 0, s4frag 1, s4frag 2, s4frag 3] (s4frag 1)
     [s4frag 2] [s4frag 8] 4 1 1 (by decide) (by rfl),
   rewrite_splice_correct.2.2.1 [s4frag 0, s4frag 1, s4frag 2, s4frag 3] (s4frag 1)
     [s4frag 3] [s4frag 8] 4 1 1 (by decide) (by rfl),
   rewrite_splice_correct.2.2.2.1 [s4frag 0] (s4frag 5) [] [s4frag 8] 4 1 (by decide)⟩

/-! ### DataReplacement (C5) -/

/-- The per-file update of the DataReplacement arm: a file whose
`(fields, major, minor)` triple matches the new file takes its path and
size; any other file is untouched. -/
def updateFile (new_file file : DataFile) : DataFile :=
  if file.fields == new_file.fields &&
      file.file_major_version == new_file.file_major_version &&
      file.file_minor_version == new_file.file_minor_version then
    { file with path := new_file.path, file_size_bytes := new_file.file_size_bytes }
  else file

/-- Whether the fragment's covered columns are disjoint from the new file's
fields (the null-fill upgrade case). -/
def coveredDisjoint (frag : Fragment) (new_file : DataFile) : Bool :=
  decide (((frag.files.flatMap fun file => file.fields).toFinset ∩
    new_file.fields.toFinset) = ∅)

/-- The fragment produced by one replacement: **every** matching data file
updated, with the new file appended in the disjoint-columns case. -/
def applyReplacement (frag : Fragment) (new_file : DataFile) : Fragment :=
  if coveredDisjoint frag new_file then
    { frag with files := frag.files.map (updateFile new_file) ++ [new_file] }
  else
    { frag with files := frag.files.map (updateFile new_file) }

theorem dataReplacementGo_cons (existing : List Fragment) (fid : Nat) (nf : DataFile)
    (rest : List (Nat × DataFile)) (frag : Fragment)
    (hfind : existing.find? (fun f => f.id == fid) = some frag)
    (hver : coveredDisjoint frag nf = true →
      (versionFromMajorMinor nf.file_major_version nf.file_minor_version).isSome = true) :
    dataReplacementGo existing ((fid, nf) :: rest) =
      if applyReplacement frag nf = frag then
        .error (.invalidInput "Expected to modify the fragment but no changes were made")
      else
        match dataReplacementGo existing rest with
        | .error e => .error e
        | .ok done => .ok (applyReplacement frag nf :: done) := by
  simp only [dataReplacementGo, hfind]
  by_cases hc : ((frag.files.flatMap fun file => file.fields).toFinset ∩
      nf.fields.toFinset) = ∅
  · rw [if_pos hc]
    have hcov : coveredDisjoint frag nf = true := decide_eq_true hc
    obtain ⟨v, hv⟩ := Option.isSome_iff_exists.mp (hver hcov)
    simp only [hv, applyReplacement, hcov, if_true]
    rfl
  · rw [if_neg hc]
    have hcov : coveredDisjoint frag nf = false := by
      simpa [coveredDisjoint] using hc
    simp only [applyReplacement, hcov, Bool.false_eq_true, if_false]
    rfl

theorem dataReplacementGo_bad_version (existing : List Fragment) (fid : Nat) (nf : DataFile)
    (rest : List (Nat × DataFile)) (frag : Fragment)
    (hfind : existing.find? (fun f => f.id == fid) = some frag)
    (hcov : coveredDisjoint frag nf = true)
    (hver : versionFromMajorMinor nf.file_major_version nf.file_minor_version = none) :
    dataReplacementGo existing ((fid, nf) :: rest) =
      .error (.panic "Expected valid file version") := by
  simp only [dataReplacementGo, hfind]
  have hc : ((frag.files.flatMap fun file => file.fields).toFinset ∩
      nf.fields.toFinset) = ∅ := of_decide_eq_true hcov
  rw [if_pos hc, hver]

theorem dataReplacementGo_missing (existing : List Fragment) (fid : Nat) (nf : DataFile)
    (rest : List (Nat × DataFile))
    (hfind : existing.find? (fun f => f.id == fid) = none) :
    dataReplacementGo existing ((fid, nf) :: rest) =
      .error (.invalidInput "Fragment being replaced not found in existing fragments") := by
  simp only [dataReplacementGo, hfind]

theorem build_manifest_data_replacement_batch_fields (rv : Nat) (uid : String)
    (tg : Option String) (blobs : Option Operation) (replacements : List (Nat × DataFile))
    (m : Manifest) (idxs : List Index) (tfp : String) (config : ManifestWriteConfig)
    (nbv : Option Nat) (hms : m.uses_move_stable_row_ids = false)
    (hcfg : config.use_move_stable_row_ids = false)
    (hdup : ((replacements.map fun r => r.2.fields).dedup).length > 1) :
    Transaction.build_manifest ⟨rv, uid, .dataReplacement replacements, blobs, tg⟩
        (some m) idxs tfp config nbv =
      .error (.invalidInput "All new data files must have the same fields") := by
  obtain ⟨af, ts, umv, ulf, sf⟩ := config
  simp only at hcfg
  subst hcfg
  simp only [Transaction.build_manifest, hms, applyOperation, maybeExistingFragments,
    Operation.name, Bool.false_and, Bool.false_eq_true, if_false, reduceIte, hdup, if_true]

theorem build_manifest_data_replacement_ok (rv : Nat) (uid : String) (tg : Option String)
    (blobs : Option Operation) (replacements : List (Nat × DataFile)) (m : Manifest)
    (idxs : List Index) (tfp : String) (config : ManifestWriteConfig) (nbv : Option Nat)
    (modified : List Fragment) (hms : m.uses_move_stable_row_ids = false)
    (hcfg : config.use_move_stable_row_ids = false)
    (hdup : ¬ ((replacements.map fun r => r.2.fields).dedup).length > 1)
    (hgo : dataReplacementGo m.fragments replacements = .ok modified) :
    ∃ p, Transaction.build_manifest ⟨rv, uid, .dataReplacement replacements, blobs, tg⟩
        (some m) idxs tfp config nbv = .ok p ∧
      p.2 = idxs ∧
      p.1.fragments = sortFragmentsById (modified ++
        m.fragments.filter fun f => !(replacements.map fun r => r.1).contains f.id) := by
  obtain ⟨af, ts, umv, ulf, sf⟩ := config
  simp only at hcfg
  subst hcfg
  simp only [Transaction.build_manifest, hms, applyOperation, maybeExistingFragments,
    Operation.name, Bool.false_and, Bool.false_eq_true, if_false, reduceIte, hdup, hgo]
  rcases sf with _ | v <;> rcases ulf with _ | b <;> (try cases b) <;>
    cases af <;> exact ⟨_, rfl, rfl, rfl⟩

/-- A replacement data file for C5. -/
def drNewFile : DataFile := ⟨"n", [0], [0], 2, 0, some 99⟩

/-- A fragment with two data files carrying the same `(fields, major, minor)`
triple. -/
def drFragment : Fragment :=
  ⟨1, [⟨"a", [0], [0], 2, 0, some 10⟩, ⟨"b", [0], [0], 2, 0, some 11⟩], some 1, none⟩

/-- A replacement data file whose fields are disjoint from `drFragment`'s
covered columns and whose `(major, minor)` pair is not a recognised Lance
file version. -/
def drBadFile : DataFile := ⟨"z", [5], [0], 9, 9, some 1⟩

/-- A manifest holding `drFragment`. -/
def drManifest : Manifest :=
  { version := 1, schema := ⟨[], []⟩, fragments := [drFragment], next_row_id := 0,
    max_fragment_id := none, reader_feature_flags := 0, writer_feature_flags := 0,
    config := [], timestamp_nanos := 0, tag := none, transaction_file := none,
    data_storage_format := ⟨.v2_0⟩, blob_dataset_version := none }

/-- **C5 (amended).** DataReplacement: the batch fails unless all new data
files share one field list; a replacement whose fragment id is absent fails;
otherwise, within the target fragment **every** data file matching the new
file's `(fields, major, minor)` has its path and size updated (not exactly
one) and, when the fragment's covered columns are disjoint from the new
file's fields, the program panics if the new file's `(major, minor)` pair is
not a recognised Lance file version and otherwise appends the new file; a
replacement leaving the fragment unchanged fails; untouched fragments are
carried over. -/
theorem data_replacement_correct :
    (∀ (rv : Nat) (uid : String) (tg : Option String) (blobs : Option Operation)
       (replacements : List (Nat × DataFile)) (m : Manifest) (idxs : List Index)
       (tfp : String) (config : ManifestWriteConfig) (nbv : Option Nat),
       m.uses_move_stable_row_ids = false → config.use_move_stable_row_ids = false →
       ((replacements.map fun r => r.2.fields).dedup).length > 1 →
       Transaction.build_manifest ⟨rv, uid, .dataReplacement replacements, blobs, tg⟩
           (some m) idxs tfp config nbv =
         .error (.invalidInput "All new data files must have the same fields")) ∧
    (∀ (existing : List Fragment) (fid : Nat) (nf : DataFile)
       (rest : List (Nat × DataFile)),
       existing.find? (fun f => f.id == fid) = none →
       dataReplacementGo existing ((fid, nf) :: rest) =
         .error (.invalidInput "Fragment being replaced not found in existing fragments")) ∧
    (∀ (existing : List Fragment) (fid : Nat) (nf : DataFile)
       (rest : List (Nat × DataFile)) (frag : Fragment),
       existing.find? (fun f => f.id == fid) = some frag →
       (coveredDisjoint frag nf = true →
         (versionFromMajorMinor nf.file_major_version nf.file_minor_version).isSome = true) →
       dataReplacementGo existing ((fid, nf) :: rest) =
         if applyReplacement frag nf = frag then
           .error (.invalidInput "Expected to modify the fragment but no changes were made")
         else
           match dataReplacementGo existing rest with
           | .error e => .error e
           | .ok done => .ok (applyReplacement frag nf :: done)) ∧
    (∀ (existing : List Fragment) (fid : Nat) (nf : DataFile)
       (rest : List (Nat × DataFile)) (frag : Fragment),
       existing.find? (fun f => f.id == fid) = some frag →
       coveredDisjoint frag nf = true →
       versionFromMajorMinor nf.file_major_version nf.file_minor_version = none →
       dataReplacementGo existing ((fid, nf) :: rest) =
         .error (.panic "Expected valid file version")) ∧
    (∀ existing : List Fragment, dataReplacementGo existing [] = .ok []) ∧
    (∀ (rv : Nat) (uid : String) (tg : Option String) (blobs : Option Operation)
       (replacements : List (Nat × DataFile)) (m : Manifest) (idxs : List Index)
       (tfp : String) (config : ManifestWriteConfig) (nbv : Option Nat)
       (modified : List Fragment),
       m.uses_move_stable_row_ids = false → config.use_move_stable_row_ids = false →
       ¬ ((replacements.map fun r => r.2.fields).dedup).length > 1 →
       dataReplacementGo m.fragments replacements = .ok modified →
       ∃ p, Transaction.build_manifest ⟨rv, uid, .dataReplacement replacements, blobs, tg⟩
           (some m) idxs tfp config nbv = .ok p ∧
         p.2 = idxs ∧
         p.1.fragments = sortFragmentsById (modified ++
           m.fragments.filter fun f => !(replacements.map fun r => r.1).contains f.id)) :=
  ⟨fun rv uid tg blobs replacements m idxs tfp config nbv hms hcfg hdup =>
     build_manifest_data_replacement_batch_fields rv uid tg blobs replacements m idxs tfp
       config nbv hms hcfg hdup,
   fun existing fid nf rest hfind => dataReplacementGo_missing existing fid nf rest hfind,
   fun existing fid nf rest frag hfind hver => dataReplacementGo_cons existing fid nf rest
     frag hfind hver,
   fun existing fid nf rest frag hfind hcov hver => dataReplacementGo_bad_version existing
     fid nf rest frag hfind hcov hver,
   fun _ => rfl,
   fun rv uid tg blobs replacements m idxs tfp config nbv modified hms hcfg hdup hgo =>
     build_manifest_data_replacement_ok rv uid tg blobs replacements m idxs tfp config nbv
       modified hms hcfg hdup hgo⟩

/-- **C5 counterexample.** Both data files of the fragment match the new
file's `(fields, major, minor)` triple, and both — not exactly one — have
path and size replaced. -/
theorem data_replacement_updates_all_matching :
    (Transaction.build_manifest ⟨1, "u", .dataReplacement [(1, drNewFile)], none, none⟩
        (some drManifest) [] "t" plainWriteConfig none).toOption.map
      (fun p => p.1.fragments.map fun f =>
        f.files.map fun df => (df.path, df.file_size_bytes)) =
      some [[("n", some 99), ("n", some 99)]] := by
  decide

theorem data_replacement_correct_witness :
    Transaction.build_manifest
        ⟨1, "u", .dataReplacement [(1, ⟨"x", [0], [0], 2, 0, none⟩),
          (1, ⟨"y", [7], [0], 2, 0, none⟩)], none, none⟩
        (some drManifest) [] "t" plainWriteConfig none =
      .error (.invalidInput "All new data files must have the same fields") ∧
    dataReplacementGo [drFragment] [(7, drNewFile)] =
      .error (.invalidInput "Fragment being replaced not found in existing fragments") ∧
    dataReplacementGo [drFragment] [(1, drNewFile)] =
      (if applyReplacement drFragment drNewFile = drFragment then
        .error (.invalidInput "Expected to modify the fragment but no changes were made")
      else
        match dataReplacementGo [drFragment] ([] : List (Nat × DataFile)) with
        | .error e => .error e
        | .ok done => .ok (applyReplacement drFragment drNewFile :: done)) ∧
    dataReplacementGo [drFragment] [(1, drBadFile)] =
      .error (.panic "Expected valid file version") ∧
    (∃ p, Transaction.build_manifest ⟨1, "u", .dataReplacement [(1, drNewFile)], none, none⟩
        (some drManifest) [] "t" plainWriteConfig none = .ok p ∧
      p.2 = [] ∧
      p.1.fragments = sortFragmentsById ([applyReplacement drFragment drNewFile] ++
        drManifest.fragments.filter fun f =>
          !(([(1, drNewFile)].map fun r => r.1).contains f.id))) :=
  ⟨data_replacement_correct.1 1 "u" none none _ drManifest [] "t" plainWriteConfig none
     (by decide) (by decide) (by decide),
   data_replacement_correct.2.1 [drFragment] 7 drNewFile [] (by decide),
   data_replacement_correct.2.2.1 [drFragment] 1 drNewFile [] drFragment (by decide)
     (by decide),
   data_replacement_correct.2.2.2.1 [drFragment] 1 drBadFile [] drFragment (by decide)
     (by decide) (by decide),
   data_replacement_correct.2.2.2.2.2 1 "u" none none [(1, drNewFile)] drManifest [] "t"
     plainWriteConfig none [applyReplacement drFragment drNewFile] (by decide) (by decide)
     (by decide) (by rfl)⟩

/-! ### Schema comparison (C7) -/

/-- `SchemaCompareOptions` (lance-core): the four comparison switches. -/
structure SchemaCompareOptions where
  compare_dictionary : Bool
  compare_metadata : Bool
  allow_missing_if_nullable : Bool
  ignore_field_order : Bool

/-- Metadata-map equality.  The source compares `HashMap`s; the embedded
metadata is an association list compared up to permutation.  Both
`compare_with_options` and `explain_difference` use this same test, which is
all the equivalence below depends on. -/
def metadataEq (a b : List (String × String)) : Bool := a.isPerm b

/-- Dotted-path prefixing of `explain_fields_difference`. -/
def prependPath (path : Option String) (f : String) : String :=
  match path with
  | some p => p ++ "." ++ f
  | none => f

/-- First position of a field with the given name (`Iterator::position` used
by `explain_fields_difference`). -/
def posOf : List Field → String → Option Nat
  | [], _ => none
  | f :: fs, nm => if nm == f.name then some 0 else (posOf fs nm).map (· + 1)

/-- First position of a name in a name list (`posOf` after projecting the
names). -/
def posOfName : List String → String → Option Nat
  | [], _ => none
  | m :: ms, nm => if nm == m then some 0 else (posOfName ms nm).map (· + 1)

/-- Last occurrence (field and position) of a name: the `HashMap` built by
`compare_fields` keeps the last insert for a repeated name. -/
def lastIdxFind : List Field → String → Option (Field × Nat)
  | [], _ => none
  | f :: fs, nm =>
    match lastIdxFind fs nm with
    | some (g, i) => some (g, i + 1)
    | none => if f.name == nm then some (f, 0) else none

mutual
/-- Modelled from the spec: `Field::compare_with_options` (field.rs is not
under src/) — name, logical type, nullability, metadata under
`compare_metadata`, and the children compared exactly as `compare_fields`
(schema.rs) compares a field list.  The expected field is the first
argument: the recursion is structural on the expected side. -/
def Field.compare_with_options : Field → Field → SchemaCompareOptions → Bool
  | .mk _ en elt enl emd _ ecs, f, o =>
    f.name == en &&
    f.logical_type == elt &&
    f.nullable == enl &&
    (!o.compare_metadata || metadataEq f.metadata emd) &&
    (if o.allow_missing_if_nullable || o.ignore_field_order then
      (f.children.all fun g => ecs.any fun ef => ef.name == g.name) &&
      compareLoop ecs f.children o 0
    else
      (f.children.length == ecs.length) &&
      compareZip ecs f.children o)

/-- The pairwise zip of the fast path of `compare_fields` (schema.rs); the
expected list comes first. -/
def compareZip : List Field → List Field → SchemaCompareOptions → Bool
  | [], [], _ => true
  | e :: es, f :: fs, o => Field.compare_with_options e f o && compareZip es fs o
  | _, _, _ => false

/-- The expected-side loop of the tolerant path of `compare_fields`
(schema.rs), carrying `cumulative_position`; the expected list comes
first. -/
def compareLoop : List Field → List Field → SchemaCompareOptions → Nat → Bool
  | [], _, _, _ => true
  | ef :: rest, fields, o, cum =>
    match lastIdxFind fields ef.name with
    | some (field, pos) =>
      Field.compare_with_options ef field o &&
      (o.ignore_field_order || !(pos < cum)) &&
      compareLoop rest fields o pos
    | none =>
      (o.allow_missing_if_nullable && ef.nullable) && compareLoop rest fields o cum
end

/-- `compare_fields` (schema.rs). -/
def compare_fields (fields expected : List Field) (o : SchemaCompareOptions) : Bool :=
  if o.allow_missing_if_nullable || o.ignore_field_order then
    (fields.all fun f => expected.any fun ef => ef.name == f.name) &&
    compareLoop expected fields o 0
  else
    (fields.length == expected.length) && compareZip expected fields o

/-- Adjacent descending pair test (`windows(2).any(|w| w[0].1 > w[1].1)` of
`explain_fields_difference`). -/
def pairsDescending : List Nat → Bool
  | a :: b :: rest => (b < a) || pairsDescending (b :: rest)
  | _ => false

/-- The missing/unexpected and field-order components of
`explain_fields_difference` (schema.rs) — everything before the per-field
loop.  (`HashSet` iteration order is unspecified in the source; names are
kept in first-occurrence order here.) -/
def fieldsDiffHeader (fields expected : List Field) (o : SchemaCompareOptions)
    (path : Option String) : List String :=
  let field_names := (fields.map Field.name).dedup
  let expected_names := (expected.map Field.name).dedup
  let unexpected_fields :=
    (field_names.filter fun n => !expected_names.contains n).map (prependPath path)
  let missing0 := expected_names.filter fun n => !field_names.contains n
  let missing :=
    if o.allow_missing_if_nullable then
      (missing0.filter fun n =>
        match expected.find? fun ef => ef.name == n with
        | some ef => !ef.nullable
        | none => true).map (prependPath path)
    else missing0.map (prependPath path)
  let diff1 :=
    if !missing.isEmpty || !unexpected_fields.isEmpty then
      ["fields did not match, missing=[" ++ String.intercalate ", " missing ++
        "], unexpected=[" ++ String.intercalate ", " unexpected_fields ++ "]"]
    else []
  let positions := expected.filterMap fun ef => posOf fields ef.name
  let diff2 :=
    if !o.ignore_field_order && pairsDescending positions then
      ["fields in different order, expected: [" ++
        String.intercalate ", " (expected.map Field.name) ++ "], actual: [" ++
        String.intercalate ", " (fields.map Field.name) ++ "]"]
    else []
  diff1 ++ diff2

mutual
/-- Modelled from the spec: `Field::explain_differences` — per-field
differences with dotted paths, mirroring `Field.compare_with_options`
component by component.  The expected field comes first, as in
`Field.compare_with_options`. -/
def Field.explain_differences : Field → Field → SchemaCompareOptions → Option String →
    List String
  | .mk _ en elt enl emd _ ecs, f, o, path =>
    let self_path := prependPath path en
    (if f.logical_type == elt then []
     else ["`" ++ self_path ++ "` has mismatched type"]) ++
    (if f.nullable == enl then []
     else ["`" ++ self_path ++ "` has mismatched nullability"]) ++
    (if !o.compare_metadata || metadataEq f.metadata emd then []
     else ["`" ++ self_path ++ "` has mismatched metadata"]) ++
    (fieldsDiffHeader f.children ecs o (some self_path) ++
     explainLoop ecs f.children o (some self_path))

/-- The per-matched-field loop of `explain_fields_difference` (schema.rs);
the expected list comes first. -/
def explainLoop : List Field → List Field → SchemaCompareOptions →
    Option String → List String
  | [], _, _, _ => []
  | ef :: rest, fields, o, path =>
    (match posOf fields ef.name with
     | some pos =>
       match fields[pos]? with
       | some field =>
         let ds := Field.explain_differences ef field o path
         if ds.isEmpty then [] else [String.intercalate ", " ds]
       | none => []
     | none => []) ++ explainLoop rest fields o path
end

/-- `explain_fields_difference` (schema.rs). -/
def explain_fields_difference (fields expected : List Field) (o : SchemaCompareOptions)
    (path : Option String) : List String :=
  fieldsDiffHeader fields expected o path ++ explainLoop expected fields o path

/-- `Schema::compare_with_options` (schema.rs). -/
def Schema.compare_with_options (s expected : Schema) (o : SchemaCompareOptions) : Bool :=
  compare_fields s.fields expected.fields o &&
  (!o.compare_metadata || metadataEq s.metadata expected.metadata)

/-- `explain_metadata_difference` (schema.rs); the source formats both maps
into the message. -/
def explain_metadata_difference (metadata expected : List (String × String)) :
    Option String :=
  if !metadataEq metadata expected then some "metadata did not match" else none

/-- `Schema::explain_difference` (schema.rs). -/
def Schema.explain_difference (s expected : Schema) (o : SchemaCompareOptions) :
    Option String :=
  let differences := explain_fields_difference s.fields expected.fields o none
  let differences :=
    if o.compare_metadata then
      differences ++ (explain_metadata_difference s.metadata expected.metadata).toList
    else differences
  if differences.isEmpty then none else some (String.intercalate ", " differences)

/-- `Schema::check_compatible` (schema.rs). -/
def Schema.check_compatible (s expected : Schema) (o : SchemaCompareOptions) :
    Except Err Unit :=
  if !(s.compare_with_options expected o) then
    .error (.schemaMismatch ((s.explain_difference expected o).getD "unknown reason"))
  else .ok ()

mutual
/-- Recursively duplicate-free child names (used as the hypothesis under
which `compare_fields` and `explain_fields_difference` agree: with repeated
names the compare side looks up the last occurrence while the explain side
uses the first). -/
def Field.namesOk : Field → Bool
  | .mk _ _ _ _ _ _ cs => namesOkList cs

/-- Pairwise-distinct names at this level and recursively below. -/
def namesOkList : List Field → Bool
  | [] => true
  | f :: fs => !(fs.any fun g => g.name == f.name) && Field.namesOk f && namesOkList fs
end

theorem compare_with_options_eq (e f : Field) (o : SchemaCompareOptions) :
    Field.compare_with_options e f o =
      (f.name == e.name && f.logical_type == e.logical_type &&
       f.nullable == e.nullable &&
       (!o.compare_metadata || metadataEq f.metadata e.metadata) &&
       compare_fields f.children e.children o) := by
  cases e
  rfl

theorem explain_differences_eq (e f : Field) (o : SchemaCompareOptions)
    (path : Option String) :
    Field.explain_differences e f o path =
      ((if f.logical_type == e.logical_type then []
        else ["`" ++ prependPath path e.name ++ "` has mismatched type"]) ++
       (if f.nullable == e.nullable then []
        else ["`" ++ prependPath path e.name ++ "` has mismatched nullability"]) ++
       (if !o.compare_metadata || metadataEq f.metadata e.metadata then []
        else ["`" ++ prependPath path e.name ++ "` has mismatched metadata"]) ++
       explain_fields_difference f.children e.children o
         (some (prependPath path e.name))) := by
  cases e
  rfl

theorem namesOkList_cons_iff (f : Field) (fs : List Field) :
    namesOkList (f :: fs) = true ↔
      (∀ g ∈ fs, ¬ g.name = f.name) ∧ Field.namesOk f = true ∧ namesOkList fs = true := by
  simp [namesOkList, List.any_eq_true, and_assoc]

theorem namesOk_children (f : Field) : Field.namesOk f = true ↔ namesOkList f.children = true := by
  cases f
  exact Iff.rfl

theorem namesOkList_nodup (l : List Field) (h : namesOkList l = true) :
    (l.map Field.name).Nodup := by
  induction l with
  | nil => simp
  | cons f fs ih =>
    rw [namesOkList_cons_iff] at h
    obtain ⟨hne, hf, hfs⟩ := h
    simp only [List.map_cons, List.nodup_cons]
    refine ⟨?_, ih hfs⟩
    intro hmem
    obtain ⟨g, hg, hgname⟩ := List.mem_map.mp hmem
    exact hne g hg hgname

theorem namesOkList_mem (l : List Field) (f : Field) (h : namesOkList l = true)
    (hf : f ∈ l) : Field.namesOk f = true := by
  induction l with
  | nil => simp at hf
  | cons g gs ih =>
    rw [namesOkList_cons_iff] at h
    rcases List.mem_cons.mp hf with rfl | hmem
    · exact h.2.1
    · exact ih h.2.2 hmem

theorem posOf_eq_posOfName (fields : List Field) (nm : String) :
    posOf fields nm = posOfName (fields.map Field.name) nm := by
  induction fields with
  | nil => rfl
  | cons f fs ih => simp [posOf, posOfName, ih]

theorem posOfName_none_iff (ns : List String) (nm : String) :
    posOfName ns nm = none ↔ nm ∉ ns := by
  induction ns with
  | nil => simp [posOfName]
  | cons m ms ih =>
    simp only [posOfName]
    by_cases h : nm = m
    · simp [h]
    · simp [h, ih]

theorem posOf_none_iff (fields : List Field) (nm : String) :
    posOf fields nm = none ↔ nm ∉ fields.map Field.name := by
  rw [posOf_eq_posOfName, posOfName_none_iff]

theorem posOf_some_getElem (fields : List Field) (nm : String) (i : Nat)
    (h : posOf fields nm = some i) :
    ∃ f, fields[i]? = some f ∧ f.name = nm := by
  induction fields generalizing i with
  | nil => simp [posOf] at h
  | cons f fs ih =>
    simp only [posOf] at h
    cases hbeq : (nm == f.name) with
    | true =>
      rw [hbeq] at h
      simp at h
      subst h
      exact ⟨f, by simp, (show nm = f.name from by simpa using hbeq).symm⟩
    | false =>
      rw [hbeq] at h
      simp only [Bool.false_eq_true, if_false, Option.map_eq_some'] at h
      obtain ⟨j, hj, rfl⟩ := h
      obtain ⟨g, hg, hgname⟩ := ih j hj
      exact ⟨g, by simpa using hg, hgname⟩

theorem lastIdxFind_none_iff (fields : List Field) (nm : String) :
    lastIdxFind fields nm = none ↔ nm ∉ fields.map Field.name := by
  induction fields with
  | nil => simp [lastIdxFind]
  | cons f fs ih =>
    simp only [lastIdxFind, List.map_cons, List.mem_cons]
    cases htail : lastIdxFind fs nm with
    | some p =>
      obtain ⟨g, i⟩ := p
      constructor
      · intro h
        cases h
      · intro h
        have : nm ∈ fs.map Field.name := by
          by_contra hnot
          rw [← ih] at hnot
          rw [hnot] at htail
          cases htail
        exact absurd (Or.inr this) h
    | none =>
      have hnot : nm ∉ fs.map Field.name := ih.mp htail
      by_cases hbeq : f.name = nm
      · simp [hbeq, hnot]
      · constructor
        · intro _
          intro hmem
          rcases hmem with h | h
          · exact hbeq h.symm
          · exact hnot h
        · intro _
          simp [show (f.name == nm) = false from by simpa using hbeq]

theorem lastIdxFind_mem (fields : List Field) (nm : String) (field : Field) (pos : Nat)
    (h : lastIdxFind fields nm = some (field, pos)) :
    field ∈ fields ∧ field.name = nm ∧ fields[pos]? = some field := by
  induction fields generalizing pos with
  | nil => simp [lastIdxFind] at h
  | cons f fs ih =>
    simp only [lastIdxFind] at h
    cases htail : lastIdxFind fs nm with
    | some p =>
      obtain ⟨g, i⟩ := p
      rw [htail] at h
      simp at h
      obtain ⟨h1, h2⟩ := h
      subst h1
      subst h2
      obtain ⟨hmem, hname, hget⟩ := ih i htail
      exact ⟨by simp [hmem], hname, by simpa using hget⟩
    | none =>
      rw [htail] at h
      by_cases hbeq : f.name = nm
      · rw [if_pos (by simpa using hbeq)] at h
        simp at h
        obtain ⟨h1, h2⟩ := h
        subst h1
        subst h2
        exact ⟨by simp, hbeq, by simp⟩
      · rw [if_neg (by simpa using hbeq)] at h
        cases h

theorem lastIdxFind_eq_posOf (fields : List Field) (nm : String)
    (h : (fields.map Field.name).Nodup) :
    lastIdxFind fields nm =
      (posOf fields nm).bind fun pos => (fields[pos]?).map fun f => (f, pos) := by
  induction fields with
  | nil => rfl
  | cons f fs ih =>
    simp only [lastIdxFind, posOf]
    rw [List.map_cons, List.nodup_cons] at h
    obtain ⟨hnotin, hnodup⟩ := h
    cases hbeq : (nm == f.name) with
    | true =>
      have hnm : nm = f.name := by simpa using hbeq
      have htail : lastIdxFind fs nm = none :=
        (lastIdxFind_none_iff fs nm).mpr (by rw [hnm]; exact hnotin)
      rw [htail]
      simp [show (f.name == nm) = true from by simpa using hnm.symm]
    | false =>
      rw [ih hnodup]
      have hne : ¬ f.name = nm := fun hh =>
        (show ¬ nm = f.name from by simpa using hbeq) hh.symm
      cases hpos : posOf fs nm with
      | none => simp [hpos, hne]
      | some j =>
        obtain ⟨g, hg, hgname⟩ := posOf_some_getElem fs nm j hpos
        simp [hpos, hg]

theorem pairsDescending_eq_false_iff (ps : List Nat) :
    pairsDescending ps = false ↔ List.Chain' (fun a b => a ≤ b) ps := by
  induction ps with
  | nil => simp [pairsDescending]
  | cons a tail ih =>
    cases tail with
    | nil => simp [pairsDescending]
    | cons b rest =>
      rw [show pairsDescending (a :: b :: rest) =
        (decide (b < a) || pairsDescending (b :: rest)) from rfl,
        Bool.or_eq_false_iff, List.chain'_cons]
      constructor
      · rintro ⟨h1, h2⟩
        exact ⟨Nat.not_lt.mp (of_decide_eq_false h1), ih.mp h2⟩
      · rintro ⟨h1, h2⟩
        exact ⟨decide_eq_false (Nat.not_lt.mpr h1), ih.mpr h2⟩

theorem compareLoop_eq_true_iff (efs fields : List Field) (o : SchemaCompareOptions)
    (cum : Nat) :
    compareLoop efs fields o cum = true ↔
      ((∀ ef ∈ efs, ∀ field pos, lastIdxFind fields ef.name = some (field, pos) →
          Field.compare_with_options ef field o = true) ∧
       (∀ ef ∈ efs, lastIdxFind fields ef.name = none →
          o.allow_missing_if_nullable = true ∧ ef.nullable = true) ∧
       (o.ignore_field_order = true ∨
        List.Chain' (fun a b => a ≤ b)
          (cum :: efs.filterMap fun ef => (lastIdxFind fields ef.name).map Prod.snd))) := by
  induction efs generalizing cum with
  | nil =>
    constructor
    · intro _
      refine ⟨?_, ?_, Or.inr (List.chain'_singleton cum)⟩
      · intro ef h
        exact absurd h (List.not_mem_nil ef)
      · intro ef h
        exact absurd h (List.not_mem_nil ef)
    · intro _
      rfl
  | cons ef rest ih =>
    simp only [compareLoop]
    cases hfind : lastIdxFind fields ef.name with
    | some p =>
      obtain ⟨field, pos⟩ := p
      simp only [List.forall_mem_cons, List.filterMap_cons, hfind, Option.map_some']
      cases hio : o.ignore_field_order with
      | true =>
        constructor
        · intro h
          rw [Bool.and_eq_true, Bool.and_eq_true] at h
          obtain ⟨⟨hcmp, -⟩, hloop⟩ := h
          obtain ⟨hfound, hmiss, -⟩ := (ih pos).mp hloop
          refine ⟨⟨?_, hfound⟩, ⟨?_, hmiss⟩, Or.inl rfl⟩
          · intro field' pos' heq
            injection heq with heq'
            injection heq' with h1 h2
            rw [← h1]
            exact hcmp
          · intro heq
            cases heq
        · rintro ⟨⟨hhead, hfound⟩, ⟨-, hmiss⟩, -⟩
          rw [Bool.and_eq_true, Bool.and_eq_true]
          exact ⟨⟨hhead field pos rfl, by simp⟩,
            (ih pos).mpr ⟨hfound, hmiss, Or.inl hio⟩⟩
      | false =>
        rw [List.chain'_cons]
        constructor
        · intro h
          rw [Bool.and_eq_true, Bool.and_eq_true] at h
          obtain ⟨⟨hcmp, hord⟩, hloop⟩ := h
          obtain ⟨hfound, hmiss, hchain⟩ := (ih pos).mp hloop
          have hchain' : List.Chain' (fun a b => a ≤ b)
              (pos :: rest.filterMap fun g => (lastIdxFind fields g.name).map Prod.snd) := by
            rcases hchain with h' | h'
            · rw [hio] at h'
              cases h'
            · exact h'
          refine ⟨⟨?_, hfound⟩, ⟨?_, hmiss⟩, Or.inr ⟨?_, hchain'⟩⟩
          · intro field' pos' heq
            injection heq with heq'
            injection heq' with h1 h2
            rw [← h1]
            exact hcmp
          · intro heq
            cases heq
          · simp only [Bool.false_or, Bool.not_eq_true', decide_eq_false_iff_not] at hord
            omega
        · rintro ⟨⟨hhead, hfound⟩, ⟨-, hmiss⟩, hchain⟩
          have hchain' : cum ≤ pos ∧ List.Chain' (fun a b => a ≤ b)
              (pos :: rest.filterMap fun g => (lastIdxFind fields g.name).map Prod.snd) := by
            rcases hchain with h' | h'
            · cases h'
            · exact h'
          rw [Bool.and_eq_true, Bool.and_eq_true]
          refine ⟨⟨hhead field pos rfl, ?_⟩, (ih pos).mpr ⟨hfound, hmiss, Or.inr hchain'.2⟩⟩
          simp only [Bool.false_or, Bool.not_eq_true', decide_eq_false_iff_not]
          omega
    | none =>
      simp only [List.forall_mem_cons, List.filterMap_cons, hfind, Option.map_none']
      constructor
      · intro h
        rw [Bool.and_eq_true, Bool.and_eq_true] at h
        obtain ⟨⟨hallow, hnull⟩, hloop⟩ := h
        obtain ⟨hfound, hmiss, hchain⟩ := (ih cum).mp hloop
        refine ⟨⟨?_, hfound⟩, ⟨fun _ => ⟨hallow, hnull⟩, hmiss⟩, hchain⟩
        intro field' pos' heq
        cases heq
      · rintro ⟨⟨-, hfound⟩, ⟨hhead, hmiss⟩, hchain⟩
        rw [Bool.and_eq_true, Bool.and_eq_true]
        obtain ⟨hallow, hnull⟩ := hhead trivial
        exact ⟨⟨hallow, hnull⟩, (ih cum).mpr ⟨hfound, hmiss, hchain⟩⟩

theorem explainLoop_eq_nil_iff (efs fields : List Field) (o : SchemaCompareOptions)
    (path : Option String) :
    explainLoop efs fields o path = [] ↔
      ∀ ef ∈ efs, ∀ pos field, posOf fields ef.name = some pos →
        fields[pos]? = some field →
        Field.explain_differences ef field o path = [] := by
  induction efs with
  | nil => simp [explainLoop]
  | cons ef rest ih =>
    simp only [explainLoop, List.append_eq_nil, List.forall_mem_cons]
    rw [ih]
    refine and_congr ?_ Iff.rfl
    cases hpos : posOf fields ef.name with
    | none => simp [hpos]
    | some pos =>
      cases hget : fields[pos]? with
      | none =>
        simp only [hget]
        constructor
        · intro _ pos' field' hp hf
          have hp2 : pos' = pos := by
            cases hp
            rfl
          subst hp2
          rw [hget] at hf
          cases hf
        · intro _
          trivial
      | some field =>
        simp only [hget]
        constructor
        · intro h pos' field' hp hf
          have hp2 : pos' = pos := by
            cases hp
            rfl
          subst hp2
          rw [hget] at hf
          injection hf with hf'
          subst hf'
          split at h
          · rename_i hcond
            simpa [List.isEmpty_iff] using hcond
          · cases h
        · intro h
          have hds := h pos field rfl hget
          simp [List.isEmpty_iff, hds]

theorem if_bool_singleton_eq_nil (b : Bool) (s : String) :
    (if b then [s] else ([] : List String)) = [] ↔ b = false := by
  cases b <;> simp

theorem find_name_of_mem (expected : List Field) (n : String)
    (h : n ∈ expected.map Field.name) :
    ∃ ef, expected.find? (fun g => g.name == n) = some ef ∧ ef.name = n := by
  induction expected with
  | nil => simp at h
  | cons g gs ih =>
    by_cases hg : g.name = n
    · exact ⟨g, by simp [List.find?_cons, hg], hg⟩
    · rw [List.map_cons] at h
      have hmem : n ∈ gs.map Field.name := by
        rcases List.mem_cons.mp h with h' | h'
        · exact absurd h'.symm hg
        · exact h'
      obtain ⟨ef, hef, hname⟩ := ih hmem
      refine ⟨ef, ?_, hname⟩
      rw [List.find?_cons]
      simp [show (g.name == n) = false from by simpa using hg, hef]

theorem find_name_self (expected : List Field) (ef : Field)
    (h : (expected.map Field.name).Nodup) (hmem : ef ∈ expected) :
    expected.find? (fun g => g.name == ef.name) = some ef := by
  induction expected with
  | nil => simp at hmem
  | cons g gs ih =>
    rw [List.map_cons, List.nodup_cons] at h
    rcases List.mem_cons.mp hmem with rfl | hmem'
    · simp [List.find?_cons]
    · have hne : ¬ g.name = ef.name := by
        intro he
        exact h.1 (he ▸ List.mem_map_of_mem Field.name hmem')
      rw [List.find?_cons]
      simp [show (g.name == ef.name) = false from by simpa using hne, ih h.2 hmem']

theorem contains_dedup_true_iff (l : List String) (x : String) :
    l.dedup.contains x = true ↔ x ∈ l :=
  ⟨fun h => List.mem_dedup.mp (List.elem_iff.mp h),
   fun h => List.elem_iff.mpr (List.mem_dedup.mpr h)⟩

theorem filter_map_isEmpty_iff (l : List String) (p : String → Bool)
    (g : String → String) :
    ((l.filter p).map g).isEmpty = true ↔ ∀ n ∈ l, ¬ p n = true := by
  rw [List.isEmpty_iff, List.map_eq_nil_iff, List.filter_eq_nil_iff]

theorem fieldsDiffHeader_eq_nil_iff (fields expected : List Field)
    (o : SchemaCompareOptions) (path : Option String) :
    fieldsDiffHeader fields expected o path = [] ↔
      ((∀ n ∈ fields.map Field.name, n ∈ expected.map Field.name) ∧
       (∀ n ∈ expected.map Field.name, n ∉ fields.map Field.name →
          o.allow_missing_if_nullable = true ∧
          ∀ ef, expected.find? (fun g => g.name == n) = some ef → ef.nullable = true) ∧
       (o.ignore_field_order = true ∨
        List.Chain' (fun a b => a ≤ b)
          (expected.filterMap fun ef => posOf fields ef.name))) := by
  simp only [fieldsDiffHeader, List.append_eq_nil, if_bool_singleton_eq_nil,
    Bool.or_eq_false_iff, Bool.not_eq_false']
  constructor
  · rintro ⟨⟨hm, hu⟩, hord⟩
    refine ⟨?_, ?_, ?_⟩
    · intro n hn
      have h2 := (List.isEmpty_iff.mp hu)
      rw [List.map_eq_nil_iff, List.filter_eq_nil_iff] at h2
      have h3 := h2 n (List.mem_dedup.mpr hn)
      by_contra hne
      apply h3
      rw [Bool.not_eq_true', ← Bool.not_eq_true]
      intro hc
      exact hne (contains_dedup_true_iff _ _ |>.mp hc)
    · intro n hn hnot
      cases hal : o.allow_missing_if_nullable with
      | false =>
        rw [hal] at hm
        simp only [Bool.false_eq_true, if_false] at hm
        exfalso
        rw [List.isEmpty_iff, List.map_eq_nil_iff, List.filter_eq_nil_iff] at hm
        refine hm n (List.mem_dedup.mpr hn) ?_
        rw [Bool.not_eq_true']
        rw [← Bool.not_eq_true] at *
        intro hc
        exact hnot (contains_dedup_true_iff _ _ |>.mp hc)
      | true =>
        rw [hal] at hm
        simp only [if_true] at hm
        refine ⟨rfl, ?_⟩
        intro ef hef
        rw [filter_map_isEmpty_iff] at hm
        have hmem0 : n ∈ ((expected.map Field.name).dedup.filter
            fun n => !(fields.map Field.name).dedup.contains n) := by
          rw [List.mem_filter]
          refine ⟨List.mem_dedup.mpr hn, ?_⟩
          rw [Bool.not_eq_true']
          rw [← Bool.not_eq_true]
          intro hc
          exact hnot (contains_dedup_true_iff _ _ |>.mp hc)
        have h4 := hm n hmem0
        rw [hef] at h4
        by_contra hnn
        apply h4
        simp [Bool.not_eq_true'] at hnn ⊢
        exact hnn
    · cases hig : o.ignore_field_order with
      | true => exact Or.inl rfl
      | false =>
        rw [hig] at hord
        simp only [Bool.not_false, Bool.true_and] at hord
        exact Or.inr (pairsDescending_eq_false_iff _ |>.mp hord)
  · rintro ⟨hU, hM, hC⟩
    refine ⟨⟨?_, ?_⟩, ?_⟩
    · cases hal : o.allow_missing_if_nullable with
      | false =>
        simp only [Bool.false_eq_true, if_false]
        rw [List.isEmpty_iff, List.map_eq_nil_iff, List.filter_eq_nil_iff]
        intro n hn hc
        rw [Bool.not_eq_true'] at hc
        have hnot : n ∉ fields.map Field.name := by
          intro hmem
          rw [contains_dedup_true_iff _ _ |>.mpr hmem] at hc
          cases hc
        obtain ⟨hfalse, -⟩ := hM n (List.mem_dedup.mp hn) hnot
        rw [hal] at hfalse
        cases hfalse
      | true =>
        simp only [if_true]
        rw [filter_map_isEmpty_iff]
        intro n hn hp
        obtain ⟨hn1, hn2⟩ := List.mem_filter.mp hn
        have hn' := List.mem_dedup.mp hn1
        have hnot : n ∉ fields.map Field.name := by
          rw [Bool.not_eq_true', ← Bool.not_eq_true] at hn2
          intro hmem
          exact hn2 (contains_dedup_true_iff _ _ |>.mpr hmem)
        obtain ⟨-, hfind⟩ := hM n hn' hnot
        obtain ⟨ef, hef, -⟩ := find_name_of_mem expected n hn'
        have hnul := hfind ef hef
        simp only [hef] at hp
        rw [Bool.not_eq_true'] at hp
        rw [hnul] at hp
        cases hp
    · rw [List.isEmpty_iff, List.map_eq_nil_iff, List.filter_eq_nil_iff]
      intro n hn hc
      rw [Bool.not_eq_true'] at hc
      have hmem := hU n (List.mem_dedup.mp hn)
      rw [contains_dedup_true_iff _ _ |>.mpr hmem] at hc
      cases hc
    · cases hig : o.ignore_field_order with
      | true => simp
      | false =>
        simp only [Bool.not_false, Bool.true_and]
        rcases hC with h | h
        · rw [hig] at h
          cases h
        · exact pairsDescending_eq_false_iff _ |>.mpr h

theorem posOfName_cons_ne (ms : List String) (m nm : String) (h : ¬ nm = m) :
    posOfName (m :: ms) nm = (posOfName ms nm).map (· + 1) := by
  simp [posOfName, h]

theorem posOfName_cons_self (ms : List String) (m : String) :
    posOfName (m :: ms) m = some 0 := by
  simp [posOfName]

theorem posOfName_getElem (ns : List String) (h : ns.Nodup) (j : Nat) (nm : String)
    (hj : ns[j]? = some nm) : posOfName ns nm = some j := by
  induction ns generalizing j with
  | nil => simp at hj
  | cons m ms ih =>
    rw [List.nodup_cons] at h
    cases j with
    | zero =>
      simp at hj
      subst hj
      exact posOfName_cons_self ms m
    | succ j' =>
      simp at hj
      have hne : ¬ nm = m := by
        intro he
        exact h.1 (he ▸ List.getElem?_mem hj)
      rw [posOfName_cons_ne ms m nm hne, ih h.2 j' hj]
      rfl

theorem filterMap_map_comm {α β γ : Type} (l : List α) (h : α → Option β) (g : β → γ) :
    l.filterMap (fun a => (h a).map g) = (l.filterMap h).map g := by
  induction l with
  | nil => rfl
  | cons a as ih =>
    cases ha : h a <;> simp [List.filterMap_cons, ha, ih]

theorem chain'_le_map_succ (ps : List Nat) :
    List.Chain' (fun a b => a ≤ b) (ps.map (· + 1)) ↔
      List.Chain' (fun a b => a ≤ b) ps := by
  rw [List.chain'_map]
  constructor
  · intro h
    exact h.imp fun hab => by omega
  · intro h
    exact h.imp fun hab => by omega

theorem names_eq_of_mono : ∀ (EN FN : List String), FN.Nodup → EN.Nodup →
    (∀ n ∈ FN, n ∈ EN) → (∀ n ∈ EN, n ∈ FN) →
    List.Chain' (fun a b => a ≤ b) (EN.filterMap fun n => posOfName FN n) → EN = FN := by
  intro EN
  induction EN with
  | nil =>
    intro FN hFN hEN hsub1 hsub2 hchain
    cases FN with
    | nil => rfl
    | cons f fs => exact absurd (hsub1 f (by simp)) (List.not_mem_nil f)
  | cons e EN' ih =>
    intro FN hFN hEN hsub1 hsub2 hchain
    cases FN with
    | nil => exact absurd (hsub2 e (by simp)) (List.not_mem_nil e)
    | cons f fs =>
      have hef : e = f := by
        by_contra hne
        have hfEN' : f ∈ EN' := by
          rcases List.mem_cons.mp (hsub1 f (by simp)) with h' | h'
          · exact absurd h'.symm hne
          · exact h'
        have heFN : e ∈ fs := by
          rcases List.mem_cons.mp (hsub2 e (by simp)) with h' | h'
          · exact absurd h' hne
          · exact h'
        obtain ⟨je, hje⟩ : ∃ j, posOfName fs e = some j := by
          cases hpe : posOfName fs e with
          | none => exact absurd heFN ((posOfName_none_iff fs e).mp hpe)
          | some j => exact ⟨j, rfl⟩
        have hhead : posOfName (f :: fs) e = some (je + 1) := by
          rw [posOfName_cons_ne fs f e hne, hje]
          rfl
        have hpw := (List.chain'_iff_pairwise).mp hchain
        simp only [List.filterMap_cons, hhead] at hpw
        have h0mem : (0 : Nat) ∈ EN'.filterMap fun n => posOfName (f :: fs) n :=
          List.mem_filterMap.mpr ⟨f, hfEN', posOfName_cons_self fs f⟩
        have hle := (List.pairwise_cons.mp hpw).1 0 h0mem
        omega
      subst hef
      rw [List.nodup_cons] at hFN hEN
      have hsub1' : ∀ n ∈ fs, n ∈ EN' := by
        intro n hn
        rcases List.mem_cons.mp (hsub1 n (by simp [hn])) with h' | h'
        · exact absurd (h' ▸ hn) hFN.1
        · exact h'
      have hsub2' : ∀ n ∈ EN', n ∈ fs := by
        intro n hn
        rcases List.mem_cons.mp (hsub2 n (by simp [hn])) with h' | h'
        · exact absurd (h' ▸ hn) hEN.1
        · exact h'
      have hchain' : List.Chain' (fun a b => a ≤ b)
          (EN'.filterMap fun n => posOfName fs n) := by
        simp only [List.filterMap_cons, posOfName_cons_self] at hchain
        have htail := hchain.tail
        simp only [List.tail_cons] at htail
        have heq : (EN'.filterMap fun n => posOfName (e :: fs) n) =
            (EN'.filterMap fun n => posOfName fs n).map (· + 1) := by
          rw [← filterMap_map_comm]
          apply List.filterMap_congr
          intro n hn
          have hne : ¬ n = e := fun he => hEN.1 (he ▸ hn)
          exact posOfName_cons_ne fs e n hne
        rw [heq] at htail
        exact (chain'_le_map_succ _).mp htail
      exact congrArg (List.cons e) (ih fs hFN.2 hEN.2 hsub1' hsub2' hchain')

theorem posOfName_self_range (FN : List String) (h : FN.Nodup) :
    FN.filterMap (fun n => posOfName FN n) = List.range FN.length := by
  induction FN with
  | nil => rfl
  | cons f fs ih =>
    rw [List.nodup_cons] at h
    simp only [List.filterMap_cons, posOfName_cons_self]
    have heq : (fs.filterMap fun n => posOfName (f :: fs) n) =
        (fs.filterMap fun n => posOfName fs n).map (· + 1) := by
      rw [← filterMap_map_comm]
      apply List.filterMap_congr
      intro n hn
      have hne : ¬ n = f := fun he => h.1 (he ▸ hn)
      exact posOfName_cons_ne fs f n hne
    rw [heq, ih h.2, List.length_cons, List.range_succ_eq_map]

theorem mem_name_unique (l : List Field) (h : (l.map Field.name).Nodup) (a b : Field)
    (ha : a ∈ l) (hb : b ∈ l) (hn : a.name = b.name) : a = b := by
  induction l with
  | nil => simp at ha
  | cons g gs ih =>
    rw [List.map_cons, List.nodup_cons] at h
    rcases List.mem_cons.mp ha with rfl | ha' <;> rcases List.mem_cons.mp hb with rfl | hb'
    · rfl
    · exact absurd (hn ▸ List.mem_map_of_mem Field.name hb') h.1
    · exact absurd (hn ▸ List.mem_map_of_mem Field.name ha') h.1
    · exact ih h.2 ha' hb'

theorem compare_name_eq (e f : Field) (o : SchemaCompareOptions)
    (h : Field.compare_with_options e f o = true) : f.name = e.name := by
  rw [compare_with_options_eq] at h
  simp only [Bool.and_eq_true] at h
  simpa using h.1.1.1.1

theorem compareZip_eq_true_iff (es fs : List Field) (o : SchemaCompareOptions) :
    compareZip es fs o = true ↔ (es.length = fs.length ∧
      ∀ (i : Nat) (e f : Field), es[i]? = some e → fs[i]? = some f →
        Field.compare_with_options e f o = true) := by
  induction es generalizing fs with
  | nil =>
    cases fs with
    | nil => simp [compareZip]
    | cons f fs' => simp [compareZip]
  | cons e es' ih =>
    cases fs with
    | nil => simp [compareZip]
    | cons f fs' =>
      rw [show compareZip (e :: es') (f :: fs') o =
        (Field.compare_with_options e f o && compareZip es' fs' o) from rfl,
        Bool.and_eq_true, ih]
      constructor
      · rintro ⟨hc, hlen, hall⟩
        refine ⟨by simp [hlen], ?_⟩
        intro i a b hae hbf
        cases i with
        | zero =>
          simp at hae hbf
          rw [← hae, ← hbf]
          exact hc
        | succ j =>
          simp at hae hbf
          exact hall j a b hae hbf
      · rintro ⟨hlen, hall⟩
        refine ⟨hall 0 e f (by simp) (by simp), by simpa using hlen, ?_⟩
        intro j a b ha hb
        exact hall (j + 1) a b (by simpa using ha) (by simpa using hb)

theorem positions_names (fields efs : List Field) :
    (efs.filterMap fun ef => posOf fields ef.name) =
      ((efs.map Field.name).filterMap fun n => posOfName (fields.map Field.name) n) := by
  rw [List.filterMap_map]
  apply List.filterMap_congr
  intro ef _
  exact posOf_eq_posOfName fields ef.name

theorem lastPositions_eq_posOf (fields efs : List Field)
    (h : (fields.map Field.name).Nodup) :
    (efs.filterMap fun ef => (lastIdxFind fields ef.name).map Prod.snd) =
      (efs.filterMap fun ef => posOf fields ef.name) := by
  apply List.filterMap_congr
  intro ef _
  rw [lastIdxFind_eq_posOf fields ef.name h]
  cases hp : posOf fields ef.name with
  | none => rfl
  | some pos =>
    obtain ⟨g, hg, -⟩ := posOf_some_getElem fields ef.name pos hp
    simp [hg]

theorem posOf_of_lastIdxFind (fields : List Field) (nm : String) (field : Field)
    (pos : Nat) (hnodup : (fields.map Field.name).Nodup)
    (h : lastIdxFind fields nm = some (field, pos)) :
    posOf fields nm = some pos := by
  rw [lastIdxFind_eq_posOf fields nm hnodup] at h
  cases hp : posOf fields nm with
  | none =>
    rw [hp] at h
    cases h
  | some p' =>
    rw [hp] at h
    simp only [Option.some_bind, Option.map_eq_some'] at h
    obtain ⟨g, -, heq⟩ := h
    injection heq with h1 h2
    rw [h2]

theorem fields_equiv_tolerant (fields efs : List Field) (o : SchemaCompareOptions)
    (path : Option String)
    (hP : ∀ ef ∈ efs, ∀ f (path' : Option String), f.name = ef.name →
      Field.namesOk f = true → Field.namesOk ef = true →
      (Field.compare_with_options ef f o = true ↔
       Field.explain_differences ef f o path' = []))
    (hnf : namesOkList fields = true) (hne : namesOkList efs = true)
    (htol : (o.allow_missing_if_nullable || o.ignore_field_order) = true) :
    (compare_fields fields efs o = true ↔
     explain_fields_difference fields efs o path = []) := by
  have hFN := namesOkList_nodup fields hnf
  have hEN := namesOkList_nodup efs hne
  rw [show explain_fields_difference fields efs o path =
        fieldsDiffHeader fields efs o path ++ explainLoop efs fields o path from rfl,
    List.append_eq_nil, fieldsDiffHeader_eq_nil_iff, explainLoop_eq_nil_iff]
  unfold compare_fields
  rw [if_pos htol, Bool.and_eq_true, compareLoop_eq_true_iff]
  constructor
  · rintro ⟨hall, hF, hMi, hCh⟩
    refine ⟨⟨?_, ?_, ?_⟩, ?_⟩
    · intro n hn
      rw [List.all_eq_true] at hall
      obtain ⟨f, hf, rfl⟩ := List.mem_map.mp hn
      have h2 := hall f hf
      rw [List.any_eq_true] at h2
      obtain ⟨ef, hef, hbeq⟩ := h2
      have heq : ef.name = f.name := by simpa using hbeq
      rw [← heq]
      exact List.mem_map_of_mem Field.name hef
    · intro n hn hnot
      obtain ⟨ef, hef, rfl⟩ := List.mem_map.mp hn
      have hnone : lastIdxFind fields ef.name = none :=
        (lastIdxFind_none_iff fields ef.name).mpr hnot
      obtain ⟨hallow, hnull⟩ := hMi ef hef hnone
      refine ⟨hallow, ?_⟩
      intro ef' hef'
      have hef'mem := List.mem_of_find?_eq_some hef'
      have hef'name : ef'.name = ef.name := by simpa using List.find?_some hef'
      rw [mem_name_unique efs hEN ef' ef hef'mem hef hef'name]
      exact hnull
    · rcases hCh with h | h
      · exact Or.inl h
      · refine Or.inr ?_
        rw [← lastPositions_eq_posOf fields efs hFN]
        exact (List.chain'_cons'.mp h).2
    · intro ef hef pos field hpos hget
      have hlast : lastIdxFind fields ef.name = some (field, pos) := by
        rw [lastIdxFind_eq_posOf fields ef.name hFN, hpos]
        simp [hget]
      have hcmp := hF ef hef field pos hlast
      obtain ⟨hfieldmem, hfname, -⟩ := lastIdxFind_mem fields ef.name field pos hlast
      exact (hP ef hef field path hfname (namesOkList_mem fields field hnf hfieldmem)
        (namesOkList_mem efs ef hne hef)).mp hcmp
  · rintro ⟨⟨hU, hM, hC⟩, hE⟩
    refine ⟨?_, ?_, ?_, ?_⟩
    · rw [List.all_eq_true]
      intro f hf
      rw [List.any_eq_true]
      have h2 := hU f.name (List.mem_map_of_mem Field.name hf)
      obtain ⟨ef, hef, hname⟩ := List.mem_map.mp h2
      exact ⟨ef, hef, by simpa using hname⟩
    · intro ef hef field pos hlast
      obtain ⟨hfieldmem, hfname, hget⟩ := lastIdxFind_mem fields ef.name field pos hlast
      have hpos := posOf_of_lastIdxFind fields ef.name field pos hFN hlast
      have hexp := hE ef hef pos field hpos hget
      exact (hP ef hef field path hfname (namesOkList_mem fields field hnf hfieldmem)
        (namesOkList_mem efs ef hne hef)).mpr hexp
    · intro ef hef hnone
      have hnot : ef.name ∉ fields.map Field.name := (lastIdxFind_none_iff _ _).mp hnone
      obtain ⟨hallow, hfind⟩ := hM ef.name (List.mem_map_of_mem Field.name hef) hnot
      exact ⟨hallow, hfind ef (find_name_self efs ef hEN hef)⟩
    · rcases hC with h | h
      · exact Or.inl h
      · refine Or.inr ?_
        rw [lastPositions_eq_posOf fields efs hFN, List.chain'_cons']
        exact ⟨fun y _ => Nat.zero_le y, h⟩

theorem fields_equiv_fast (fields efs : List Field) (o : SchemaCompareOptions)
    (path : Option String)
    (hP : ∀ ef ∈ efs, ∀ f (path' : Option String), f.name = ef.name →
      Field.namesOk f = true → Field.namesOk ef = true →
      (Field.compare_with_options ef f o = true ↔
       Field.explain_differences ef f o path' = []))
    (hnf : namesOkList fields = true) (hne : namesOkList efs = true)
    (hAL : o.allow_missing_if_nullable = false) (hIG : o.ignore_field_order = false) :
    (compare_fields fields efs o = true ↔
     explain_fields_difference fields efs o path = []) := by
  have hFN := namesOkList_nodup fields hnf
  have hEN := namesOkList_nodup efs hne
  rw [show explain_fields_difference fields efs o path =
        fieldsDiffHeader fields efs o path ++ explainLoop efs fields o path from rfl,
    List.append_eq_nil, fieldsDiffHeader_eq_nil_iff, explainLoop_eq_nil_iff]
  unfold compare_fields
  rw [if_neg (by simp [hAL, hIG]), Bool.and_eq_true, compareZip_eq_true_iff]
  constructor
  · rintro ⟨hlenb, hlen2, hzip⟩
    have hlen : fields.length = efs.length := by simpa using hlenb
    have hFNEN : fields.map Field.name = efs.map Field.name := by
      apply List.ext_getElem?
      intro i
      rw [List.getElem?_map, List.getElem?_map]
      cases hfi : fields[i]? with
      | none =>
        rw [List.getElem?_eq_none_iff] at hfi
        rw [List.getElem?_eq_none_iff.mpr (by omega)]
      | some f' =>
        have hi : i < fields.length := by
          by_contra hcon
          rw [not_lt] at hcon
          rw [List.getElem?_eq_none_iff.mpr hcon] at hfi
          cases hfi
        cases hei : efs[i]? with
        | none =>
          rw [List.getElem?_eq_none_iff] at hei
          omega
        | some e' =>
          have hc := hzip i e' f' hei hfi
          have hn := compare_name_eq e' f' o hc
          simp [hn]
    refine ⟨⟨?_, ?_, ?_⟩, ?_⟩
    · intro n hn
      rw [hFNEN] at hn
      exact hn
    · intro n hn hnot
      rw [← hFNEN] at hn
      exact absurd hn hnot
    · refine Or.inr ?_
      rw [positions_names, ← hFNEN, posOfName_self_range _ hFN]
      exact List.chain'_iff_pairwise.mpr ((List.pairwise_lt_range _).imp Nat.le_of_lt)
    · intro ef hef pos field hpos hget
      obtain ⟨j, hj⟩ := List.getElem?_of_mem hef
      have hnamej : (efs.map Field.name)[j]? = some ef.name := by
        rw [List.getElem?_map, hj]
        rfl
      have hposj : posOf fields ef.name = some j := by
        rw [posOf_eq_posOfName]
        exact posOfName_getElem _ hFN j ef.name (by rw [hFNEN]; exact hnamej)
      have hpj : pos = j := by
        rw [hpos] at hposj
        injection hposj
      subst hpj
      have hc := hzip pos ef field hj hget
      have hfname : field.name = ef.name := compare_name_eq ef field o hc
      exact (hP ef hef field path hfname
        (namesOkList_mem _ _ hnf (List.getElem?_mem hget))
        (namesOkList_mem _ _ hne hef)).mp hc
  · rintro ⟨⟨hU, hM, hC⟩, hE⟩
    have hsub2 : ∀ n ∈ efs.map Field.name, n ∈ fields.map Field.name := by
      intro n hn
      by_contra hnot
      obtain ⟨hfalse, -⟩ := hM n hn hnot
      rw [hAL] at hfalse
      cases hfalse
    have hchain : List.Chain' (fun a b => a ≤ b)
        ((efs.map Field.name).filterMap fun n => posOfName (fields.map Field.name) n) := by
      rcases hC with h | h
      · rw [hIG] at h
        cases h
      · rw [positions_names] at h
        exact h
    have hENFN : efs.map Field.name = fields.map Field.name :=
      names_eq_of_mono (efs.map Field.name) (fields.map Field.name) hFN hEN hU hsub2 hchain
    have hlen : fields.length = efs.length := by
      have h2 := congrArg List.length hENFN
      simpa using h2.symm
    refine ⟨by simpa using hlen, by simpa using hlen.symm, ?_⟩
    intro i e f hie hif
    have hposi : posOf fields e.name = some i := by
      rw [posOf_eq_posOfName]
      refine posOfName_getElem _ hFN i e.name ?_
      rw [← hENFN, List.getElem?_map, hie]
      rfl
    have hexp := hE e (List.getElem?_mem hie) i f hposi hif
    have hfname : f.name = e.name := by
      have h1 : (fields.map Field.name)[i]? = some f.name := by
        rw [List.getElem?_map, hif]
        rfl
      have h2 : (efs.map Field.name)[i]? = some e.name := by
        rw [List.getElem?_map, hie]
        rfl
      rw [← hENFN] at h1
      rw [h1] at h2
      injection h2
    exact (hP e (List.getElem?_mem hie) f path hfname
      (namesOkList_mem _ _ hnf (List.getElem?_mem hif))
      (namesOkList_mem _ _ hne (List.getElem?_mem hie))).mpr hexp

theorem fields_compare_explain (fields efs : List Field) (o : SchemaCompareOptions)
    (path : Option String)
    (hP : ∀ ef ∈ efs, ∀ f (path' : Option String), f.name = ef.name →
      Field.namesOk f = true → Field.namesOk ef = true →
      (Field.compare_with_options ef f o = true ↔
       Field.explain_differences ef f o path' = []))
    (hnf : namesOkList fields = true) (hne : namesOkList efs = true) :
    (compare_fields fields efs o = true ↔
     explain_fields_difference fields efs o path = []) := by
  by_cases htol : (o.allow_missing_if_nullable || o.ignore_field_order) = true
  · exact fields_equiv_tolerant fields efs o path hP hnf hne htol
  · have hAL : o.allow_missing_if_nullable = false := by
      cases h : o.allow_missing_if_nullable
      · rfl
      · exact absurd (by simp [h]) htol
    have hIG : o.ignore_field_order = false := by
      cases h : o.ignore_field_order
      · rfl
      · exact absurd (by simp [h]) htol
    exact fields_equiv_fast fields efs o path hP hnf hne hAL hIG

theorem bool_true_iff_if_nil (b : Bool) (s : String) :
    b = true ↔ (if b then ([] : List String) else [s]) = [] := by
  cases b <;> simp

theorem field_name_mk (i : Int) (n : String) (lt : LogicalType) (nl : Bool)
    (md : List (String × String)) (pk : Bool) (cs : List Field) :
    (Field.mk i n lt nl md pk cs).name = n := rfl

theorem field_logical_type_mk (i : Int) (n : String) (lt : LogicalType) (nl : Bool)
    (md : List (String × String)) (pk : Bool) (cs : List Field) :
    (Field.mk i n lt nl md pk cs).logical_type = lt := rfl

theorem field_nullable_mk (i : Int) (n : String) (lt : LogicalType) (nl : Bool)
    (md : List (String × String)) (pk : Bool) (cs : List Field) :
    (Field.mk i n lt nl md pk cs).nullable = nl := rfl

theorem field_metadata_mk (i : Int) (n : String) (lt : LogicalType) (nl : Bool)
    (md : List (String × String)) (pk : Bool) (cs : List Field) :
    (Field.mk i n lt nl md pk cs).metadata = md := rfl

theorem field_children_mk (i : Int) (n : String) (lt : LogicalType) (nl : Bool)
    (md : List (String × String)) (pk : Bool) (cs : List Field) :
    (Field.mk i n lt nl md pk cs).children = cs := rfl

theorem compare_explain_field_equiv :
    (∀ ef : Field, ∀ (o : SchemaCompareOptions) (f : Field) (path' : Option String),
      f.name = ef.name → Field.namesOk f = true → Field.namesOk ef = true →
      (Field.compare_with_options ef f o = true ↔
       Field.explain_differences ef f o path' = [])) ∧
    (∀ efs : List Field, ∀ ef ∈ efs, ∀ (o : SchemaCompareOptions) (f : Field)
      (path' : Option String), f.name = ef.name → Field.namesOk f = true →
      Field.namesOk ef = true →
      (Field.compare_with_options ef f o = true ↔
       Field.explain_differences ef f o path' = [])) := by
  refine Field.mutual_induction ?_ ?_ ?_
  · intro i n lt nl md pk cs hPL o f path' hname hnf hne
    rw [compare_with_options_eq, explain_differences_eq]
    simp only [field_name_mk, field_logical_type_mk, field_nullable_mk, field_metadata_mk,
      field_children_mk] at hname ⊢
    have hbname : (f.name == n) = true := by simp [hname]
    rw [hbname]
    have hQ := fields_compare_explain f.children cs o (some (prependPath path' n))
      (fun ef hef g pth hn hg he => hPL ef hef o g pth hn hg he)
      ((namesOk_children f).mp hnf) hne
    simp only [Bool.true_and, Bool.and_eq_true, List.append_eq_nil,
      ← bool_true_iff_if_nil, ← hQ]
  · intro ef hef
    exact absurd hef (List.not_mem_nil ef)
  · intro f fs hf hfs ef hef
    rcases List.mem_cons.mp hef with rfl | hmem
    · exact hf
    · exact hfs ef hmem

theorem compare_fields_iff_explain (fields efs : List Field) (o : SchemaCompareOptions)
    (path : Option String) (hnf : namesOkList fields = true)
    (hne : namesOkList efs = true) :
    (compare_fields fields efs o = true ↔
     explain_fields_difference fields efs o path = []) :=
  fields_compare_explain fields efs o path
    (fun ef _ f path' hn hfok heok =>
      compare_explain_field_equiv.1 ef o f path' hn hfok heok)
    hnf hne

theorem option_if_isEmpty_none_iff (l : List String) :
    (if l.isEmpty then (none : Option String)
     else some (String.intercalate ", " l)) = none ↔ l = [] := by
  cases l <;> simp

theorem schema_compare_iff_explain (s e : Schema) (o : SchemaCompareOptions)
    (hnf : namesOkList s.fields = true) (hne : namesOkList e.fields = true) :
    (s.compare_with_options e o = true ↔ s.explain_difference e o = none) := by
  unfold Schema.compare_with_options Schema.explain_difference
  rw [Bool.and_eq_true, option_if_isEmpty_none_iff]
  cases hcm : o.compare_metadata with
  | false =>
    simp only [Bool.not_false, Bool.true_or, Bool.false_eq_true, if_false]
    rw [compare_fields_iff_explain s.fields e.fields o none hnf hne]
    constructor
    · rintro ⟨h, -⟩
      exact h
    · intro h
      exact ⟨h, by trivial⟩
  | true =>
    simp only [Bool.not_true, Bool.false_or, if_true, List.append_eq_nil]
    rw [compare_fields_iff_explain s.fields e.fields o none hnf hne]
    cases hmeta : metadataEq s.metadata e.metadata with
    | true =>
      have hmd : explain_metadata_difference s.metadata e.metadata = none := by
        simp [explain_metadata_difference, hmeta]
      rw [hmd]
      simp
    | false =>
      have hmd : explain_metadata_difference s.metadata e.metadata =
          some "metadata did not match" := by
        simp [explain_metadata_difference, hmeta]
      rw [hmd]
      simp

theorem check_compatible_ok_iff (s e : Schema) (o : SchemaCompareOptions) :
    (s.check_compatible e o = .ok () ↔ s.compare_with_options e o = true) := by
  unfold Schema.check_compatible
  cases h : s.compare_with_options e o with
  | true => simp
  | false => simp

theorem check_compatible_error (s e : Schema) (o : SchemaCompareOptions)
    (hnf : namesOkList s.fields = true) (hne : namesOkList e.fields = true)
    (h : s.compare_with_options e o = false) :
    ∃ d, s.explain_difference e o = some d ∧
      s.check_compatible e o = .error (.schemaMismatch d) := by
  have hnn : s.explain_difference e o ≠ none := by
    intro hno
    rw [← schema_compare_iff_explain s e o hnf hne] at hno
    rw [h] at hno
    cases hno
  cases hd : s.explain_difference e o with
  | none => exact absurd hd hnn
  | some d =>
    refine ⟨d, rfl, ?_⟩
    unfold Schema.check_compatible
    rw [h]
    simp [hd]

/-- **C7 (amended).** For schemas whose field names are recursively
duplicate-free, `compare_with_options` returns true exactly when
`explain_difference` returns `none`; `check_compatible` returns `Ok` exactly
when the schemas compare equal, and on failure carries the
`explain_difference` string.  (With a repeated field name the two sides can
disagree: `compare_fields` resolves a name through a `HashMap` that keeps
the last occurrence while `explain_fields_difference` uses the first
position, so the unrestricted claim is false.) -/
theorem compare_explain_check_correct :
    (∀ (s e : Schema) (o : SchemaCompareOptions),
       namesOkList s.fields = true → namesOkList e.fields = true →
       (s.compare_with_options e o = true ↔ s.explain_difference e o = none)) ∧
    (∀ (s e : Schema) (o : SchemaCompareOptions),
       (s.check_compatible e o = .ok () ↔ s.compare_with_options e o = true)) ∧
    (∀ (s e : Schema) (o : SchemaCompareOptions),
       namesOkList s.fields = true → namesOkList e.fields = true →
       s.compare_with_options e o = false →
       ∃ d, s.explain_difference e o = some d ∧
         s.check_compatible e o = .error (.schemaMismatch d)) :=
  ⟨fun s e o hnf hne => schema_compare_iff_explain s e o hnf hne,
   fun s e o => check_compatible_ok_iff s e o,
   fun s e o hnf hne h => check_compatible_error s e o hnf hne h⟩

/-- A schema with a duplicated top-level field name. -/
def dupSchema : Schema :=
  ⟨[Field.mk 0 "a" (.atomic "int") false [] false [],
    Field.mk 1 "a" (.atomic "str") false [] false []], []⟩

/-- The expected side for the duplicate-name divergence. -/
def dupExpected : Schema := ⟨[Field.mk 0 "a" (.atomic "int") false [] false []], []⟩

/-- Options taking the tolerant comparison path. -/
def dupOptions : SchemaCompareOptions := ⟨false, false, true, false⟩

/-- **C7 counterexample.** On a schema with a repeated field name the claimed
equivalence fails: `compare_with_options` is false (the last `"a"` has the
wrong type) while `explain_difference` is `none` (the first `"a"` matches),
and `check_compatible` falls back to the "unknown reason" mismatch. -/
theorem compare_explain_divergence :
    Schema.compare_with_options dupSchema dupExpected dupOptions = false ∧
    Schema.explain_difference dupSchema dupExpected dupOptions = none ∧
    Schema.check_compatible dupSchema dupExpected dupOptions =
      .error (.schemaMismatch "unknown reason") :=
  ⟨by decide, by decide, by rfl⟩

/-- Schemas exercising C7: the S1 sample schema against itself and against an
emptied variant. -/
def wOpts : SchemaCompareOptions := ⟨false, true, false, false⟩

theorem compare_explain_check_correct_witness :
    namesOkList sampleSchema.fields = true ∧
    (Schema.compare_with_options sampleSchema sampleSchema wOpts = true ↔
     Schema.explain_difference sampleSchema sampleSchema wOpts = none) ∧
    (Schema.check_compatible sampleSchema sampleSchema wOpts = .ok () ↔
     Schema.compare_with_options sampleSchema sampleSchema wOpts = true) ∧
    (∃ d, Schema.explain_difference (⟨[], []⟩ : Schema) sampleSchema wOpts = some d ∧
      Schema.check_compatible (⟨[], []⟩ : Schema) sampleSchema wOpts =
        .error (.schemaMismatch d)) :=
  ⟨by decide,
   compare_explain_check_correct.1 sampleSchema sampleSchema wOpts (by decide) (by decide),
   compare_explain_check_correct.2.1 sampleSchema sampleSchema wOpts,
   compare_explain_check_correct.2.2 ⟨[], []⟩ sampleSchema wOpts (by decide) (by decide)
     (by decide)⟩

end Lance
